import Mathlib

/-!
Verification development for the Fontgarden glyph repository.

The definitions below are a shallow embedding of the Rust sources
(`src/util.rs`, `src/structs.rs`).  Rust `String`/`Name` values are Lean
`String`s, `BTreeMap`s are key-sorted association lists (inserts place the
key at its sorted position, replacing an equal key), `HashMap`s are
association lists with replace-in-place-or-append inserts, and `HashSet`s
are lists used up to membership.  Filesystem trees produced by `save` and
consumed by `load` are explicit directory structures.  Opaque external data
(a glyph outline beyond its name, components, codepoints and mark color;
a color value) is carried as uninterpreted payload fields; the external
glif/plist codecs of the font-object library are modelled as exact.
-/

deriving instance DecidableEq for Except

namespace Fg

/-! ## Generic helpers: key-sorted association containers (BTreeMap model)

Rust compares `String` keys bytewise; on UTF-8 data this is code-point
lexicographic order, `keyLtB` below.  (Mathlib's `String <` instance is not
kernel-reducible, so the model carries its own comparator.) -/

/-- Lexicographic order on char lists by code point — the `Ord` a Rust
`BTreeMap<String, _>` sorts by. -/
def keyLtB : List Char → List Char → Bool
  | [], [] => false
  | [], _ :: _ => true
  | _ :: _, [] => false
  | a :: as, b :: bs =>
    if a.toNat < b.toNat then true
    else if b.toNat < a.toNat then false
    else keyLtB as bs

def strLtB (a b : String) : Bool := keyLtB a.data b.data

theorem keyLtB_irrefl (l : List Char) : keyLtB l l = false := by
  induction l with
  | nil => rfl
  | cons a as ih =>
    rw [keyLtB]
    rw [if_neg (by omega)]
    rw [if_neg (by omega)]
    exact ih

theorem keyLtB_asymm : ∀ a b : List Char, keyLtB a b = true → keyLtB b a = false
  | [], [], h => by cases h
  | [], _ :: _, _ => rfl
  | _ :: _, [], h => by cases h
  | a :: as, b :: bs, h => by
    rw [keyLtB] at h ⊢
    by_cases h1 : a.toNat < b.toNat
    · rw [if_neg (by omega), if_pos h1]
    · rw [if_neg h1] at h
      by_cases h2 : b.toNat < a.toNat
      · rw [if_pos h2] at h
        cases h
      · rw [if_neg h2] at h
        rw [if_neg h1, if_neg h2]
        exact keyLtB_asymm as bs h

theorem keyLtB_trans : ∀ a b c : List Char,
    keyLtB a b = true → keyLtB b c = true → keyLtB a c = true
  | [], [], _, h, _ => by cases h
  | [], _ :: _, [], _, h => by cases h
  | [], _ :: _, _ :: _, _, _ => rfl
  | _ :: _, [], _, h, _ => by cases h
  | _ :: _, _ :: _, [], _, h => by cases h
  | a :: as, b :: bs, c :: cs, h1, h2 => by
    rw [keyLtB] at h1 h2 ⊢
    by_cases hab : a.toNat < b.toNat
    · by_cases hbc : b.toNat < c.toNat
      · rw [if_pos (by omega)]
      · rw [if_neg hbc] at h2
        by_cases hcb : c.toNat < b.toNat
        · rw [if_pos hcb] at h2
          cases h2
        · rw [if_pos (by omega)]
    · rw [if_neg hab] at h1
      by_cases hba : b.toNat < a.toNat
      · rw [if_pos hba] at h1
        cases h1
      · rw [if_neg hba] at h1
        by_cases hbc : b.toNat < c.toNat
        · rw [if_pos (by omega)]
        · rw [if_neg hbc] at h2
          by_cases hcb : c.toNat < b.toNat
          · rw [if_pos hcb] at h2
            cases h2
          · rw [if_neg hcb] at h2
            rw [if_neg (by omega), if_neg (by omega)]
            exact keyLtB_trans as bs cs h1 h2

theorem strLtB_irrefl (s : String) : strLtB s s = false := keyLtB_irrefl s.data

theorem strLtB_asymm (a b : String) (h : strLtB a b = true) : strLtB b a = false :=
  keyLtB_asymm a.data b.data h

theorem strLtB_trans (a b c : String) (h1 : strLtB a b = true)
    (h2 : strLtB b c = true) : strLtB a c = true :=
  keyLtB_trans a.data b.data c.data h1 h2

/-- Insert `x` into a list kept sorted by `key`, replacing an element with an
equal key (model of `BTreeMap::insert`). -/
def insertSortedBy (key : α → String) (x : α) : List α → List α
  | [] => [x]
  | y :: rest =>
    if key x = key y then x :: rest
    else if strLtB (key x) (key y) then x :: y :: rest
    else y :: insertSortedBy key x rest

/-- Strictly-increasing-key check (the representation invariant of a
`BTreeMap` rendered as a list). -/
def sortedByB (key : α → String) : List α → Bool
  | [] => true
  | [_] => true
  | x :: y :: rest => strLtB (key x) (key y) && sortedByB key (y :: rest)

/-- `HashMap::insert` model on an association list: replace in place if the
key is present, otherwise append. -/
def insertRep (k : String) (v : β) : List (String × β) → List (String × β)
  | [] => [(k, v)]
  | (k', v') :: rest =>
    if k = k' then (k, v) :: rest else (k', v') :: insertRep k v rest

/-- Map lookup (`BTreeMap::get` / `HashMap::get`). -/
def lookupKey (k : String) (m : List (String × β)) : Option β :=
  (m.find? (fun p => p.1 == k)).map Prod.snd

/-- `BTreeMap::remove_entry` model: the removed value and the remainder. -/
def removeEntry (k : String) : List (String × β) → Option (β × List (String × β))
  | [] => none
  | (k', v') :: rest =>
    if k = k' then some (v', rest)
    else match removeEntry k rest with
      | some (v, m) => some (v, (k', v') :: m)
      | none => none

/-- Fold `insertSortedBy` over a list (model of building a `BTreeMap` by
repeated insertion). -/
def buildSortedBy (key : α → String) (l : List α) (init : List α) : List α :=
  l.foldl (fun acc x => insertSortedBy key x acc) init

/-- Duplicate-free check on plain strings. -/
def nodupStr : List String → Bool
  | [] => true
  | x :: rest => !(rest.contains x) && nodupStr rest

/-! ### Basic lemmas about the containers -/

theorem insertSortedBy_append_of_lt (key : α → String) (x : α) (acc : List α)
    (h : ∀ y ∈ acc, strLtB (key y) (key x) = true) :
    insertSortedBy key x acc = acc ++ [x] := by
  induction acc with
  | nil => rfl
  | cons y rest ih =>
    have hy : strLtB (key y) (key x) = true := h y (List.mem_cons_self y rest)
    rw [insertSortedBy]
    rw [if_neg (by intro he; rw [he] at hy; rw [strLtB_irrefl] at hy; cases hy)]
    rw [if_neg (by intro hlt; rw [strLtB_asymm _ _ hlt] at hy; cases hy)]
    rw [ih (fun z hz => h z (List.mem_cons_of_mem _ hz))]
    rfl

theorem sortedByB_cons (key : α → String) (x : α) (rest : List α)
    (h : sortedByB key (x :: rest) = true) :
    sortedByB key rest = true ∧ ∀ z ∈ rest, strLtB (key x) (key z) = true := by
  induction rest generalizing x with
  | nil => exact ⟨rfl, by intro z hz; cases hz⟩
  | cons y t ih =>
    rw [sortedByB, Bool.and_eq_true] at h
    obtain ⟨hxy, hrest⟩ := h
    obtain ⟨ht, hall⟩ := ih y hrest
    refine ⟨hrest, ?_⟩
    intro z hz
    rcases List.mem_cons.1 hz with rfl | hz'
    · exact hxy
    · exact strLtB_trans _ _ _ hxy (hall z hz')

theorem buildSortedBy_sorted_eq (key : α → String) (l : List α) (init : List α)
    (hl : sortedByB key l = true)
    (hcross : ∀ y ∈ init, ∀ x ∈ l, strLtB (key y) (key x) = true) :
    buildSortedBy key l init = init ++ l := by
  induction l generalizing init with
  | nil => simp [buildSortedBy]
  | cons x t ih =>
    obtain ⟨ht, hxall⟩ := sortedByB_cons key x t hl
    have step : insertSortedBy key x init = init ++ [x] :=
      insertSortedBy_append_of_lt key x init
        (fun y hy => hcross y hy x (List.mem_cons_self x t))
    have hcross' : ∀ y ∈ init ++ [x], ∀ z ∈ t, strLtB (key y) (key z) = true := by
      intro y hy z hz
      rcases List.mem_append.1 hy with hy' | hy'
      · exact hcross y hy' z (List.mem_cons_of_mem _ hz)
      · rcases List.mem_singleton.1 hy' with rfl
        exact hxall z hz
    calc buildSortedBy key (x :: t) init
        = buildSortedBy key t (insertSortedBy key x init) := rfl
      _ = buildSortedBy key t (init ++ [x]) := by rw [step]
      _ = (init ++ [x]) ++ t := ih (init ++ [x]) ht hcross'
      _ = init ++ (x :: t) := by simp

theorem buildSortedBy_sorted_eq_nil (key : α → String) (l : List α)
    (hl : sortedByB key l = true) : buildSortedBy key l [] = l := by
  simpa using buildSortedBy_sorted_eq key l [] hl (by intro y hy; cases hy)

/-! ## `util.rs`: the file-naming algorithm (`user_name_to_file_name`)

Rust strings are UTF-8; we work over `List Char` and measure lengths in
characters.  For the character repertoire the algorithm manipulates this
agrees with Rust's byte counting on ASCII; the char-boundary adjustment
loops of the original are the identity in this representation.  Rust's
Unicode `char::is_uppercase`/`to_lowercase` are modelled by `Char.isUpper` /
`Char.toLower`, which agree on ASCII. -/

def SPECIAL_ILLEGAL : List Char :=
  [':', '?', '\"', '(', ')', '[', ']', '*', '/', '\\', '+', '<', '>', '|']

def SPECIAL_RESERVED : List String :=
  ["con", "prn", "aux", "nul", "com1", "com2", "com3", "com4", "com5", "com6",
   "com7", "com8", "com9", "lpt1", "lpt2", "lpt3", "lpt4", "lpt5", "lpt6",
   "lpt7", "lpt8", "lpt9"]

/-- One step of the character filter loop of `user_name_to_file_name`. -/
def translitChar (acc : List Char) (c : Char) : List Char :=
  if c = '.' ∧ acc = [] then acc ++ ['_']
  else if c ∈ SPECIAL_ILLEGAL then acc ++ ['_']
  else if c.isUpper then acc ++ [c, '_']
  else acc ++ [c]

/-- The stem used for the reserved-name test: `result.split('.').next()`. -/
def stemOf (l : List Char) : List Char := l.takeWhile (fun c => c ≠ '.')

/-- Reserved-device-name fixup: prepend an underscore when the stem is one of
the Windows reserved names. -/
def reservedFix (r : List Char) : List Char :=
  if String.mk (stemOf r) ∈ SPECIAL_RESERVED then '_' :: r else r

/-- Clip prefix + name to 255 characters, leaving room for the suffix. -/
def truncateFix (r : List Char) (suf : List Char) : List Char :=
  if r.length + suf.length > 255 then r.take (255 - suf.length) else r

/-- Replace a trailing run of periods and spaces by underscores when there is
no suffix. -/
def trailingFix (r : List Char) (suf : List Char) : List Char :=
  let bad : Char → Bool := fun c => c == '.' || c == ' '
  if suf.isEmpty && (match r.getLast? with | some c => bad c | none => false) then
    let k := (r.reverse.takeWhile bad).length
    r.take (r.length - k) ++ List.replicate k '_'
  else r

/-- The candidate file name before clash resolution (steps 1-6 of the
algorithm: prefix, transliteration, reserved names, truncation, trailing
periods/spaces, suffix). -/
def buildCandidate (name pre suf : List Char) : List Char :=
  trailingFix (truncateFix (reservedFix (name.foldl translitChar pre)) suf) suf ++ suf

def lowerL (l : List Char) : List Char := l.map Char.toLower

def lowerStr (l : List Char) : String := String.mk (lowerL l)

/-- `str::to_lowercase` on a whole string value. -/
def strLower (s : String) : String := String.mk (lowerL s.data)

/-- `format!("{:0>2}", counter)`. -/
def pad2 (n : Nat) : List Char :=
  if n < 10 then '0' :: (Nat.repr n).data else (Nat.repr n).data

/-- The stem kept when entering the clash-resolution loop: the candidate with
its suffix cut off, truncated further if adding the two counter digits would
overflow 255. -/
def counterStem (cand suf : List Char) : List Char :=
  if cand.length - suf.length + 2 > 255 then cand.take (255 - suf.length - 2)
  else cand.take (cand.length - suf.length)

/-- The body of the `for counter in 1..100` clash-resolution loop, recursing
on the number of counters still available (`100 - counter`), so that the
function evaluates by structural recursion. -/
def tryCountersGo (stem suf : List Char) (existing : List String) :
    Nat → Nat → Option (List Char)
  | _, 0 => none
  | c, r + 1 =>
    if lowerStr (stem ++ pad2 c ++ suf) ∈ existing then
      tryCountersGo stem suf existing (c + 1) r
    else some (stem ++ pad2 c ++ suf)

/-- The `for counter in 1..100` clash-resolution loop; `none` models the
`panic!` after 99 failed attempts. -/
def tryCounters (stem suf : List Char) (existing : List String) (counter : Nat) :
    Option (List Char) :=
  tryCountersGo stem suf existing counter (100 - counter)

/-- `user_name_to_file_name` from `util.rs`.  `existing` is the
caller-supplied set of existing names; the result is `none` exactly where the
original panics (no free name after 99 attempts). -/
def userNameToFileName (name pre suf : String) (existing : List String) :
    Option String :=
  let cand := buildCandidate name.data pre.data suf.data
  if lowerStr cand ∈ existing then
    (tryCounters (counterStem cand suf.data) suf.data existing 1).map String.mk
  else some (String.mk cand)

/-- `default_file_name_for_glyph_name`. -/
def defaultFileNameForGlyphName (name : String) (existing : List String) :
    Option String :=
  userNameToFileName name "" ".glif" existing

/-- `default_file_name_for_layer_name`. -/
def defaultFileNameForLayerName (name : String) (existing : List String) :
    Option String :=
  userNameToFileName name "glyphs." "" existing

/-! ## `util.rs`: composite closure (`glyphset_follow_composites`)

The component lookup the Rust callers pass is always of the form "look the
name up in a finite glyph table, return its component base names, or `[]` if
absent"; the table is the parameter here. -/

/-- The component function induced by a finite glyph table
(`layer.get_glyph(name).map(components).unwrap_or_default()`). -/
def compOf (table : List (String × List String)) (n : String) : List String :=
  match table.find? (fun p => p.1 == n) with
  | some p => p.2
  | none => []

theorem compOf_eq_nil_of_not_mem (table : List (String × List String)) (n : String)
    (h : n ∉ table.map Prod.fst) : compOf table n = [] := by
  unfold compOf
  cases hf : table.find? (fun p => p.1 == n) with
  | none => rfl
  | some p =>
    exfalso
    have hp := List.find?_some hf
    have hmem := List.mem_of_find?_eq_some hf
    simp at hp
    exact h (hp ▸ List.mem_map_of_mem Prod.fst hmem)

theorem filter_length_le (l : List α) (p q : α → Bool)
    (h : ∀ x ∈ l, p x = true → q x = true) :
    (l.filter p).length ≤ (l.filter q).length := by
  induction l with
  | nil => simp
  | cons a t ih =>
    have ht : ∀ x ∈ t, p x = true → q x = true :=
      fun x hx => h x (List.mem_cons_of_mem _ hx)
    by_cases hp : p a = true
    · have hq : q a = true := h a (List.mem_cons_self a t) hp
      simp [List.filter, hp, hq]
      exact ih ht
    · simp only [List.filter]
      cases hq : q a
      · simp [hp]
        exact ih ht
      · simp [hp]
        exact Nat.le_succ_of_le (ih ht)

theorem filter_length_lt (l : List α) (p q : α → Bool)
    (h : ∀ x ∈ l, p x = true → q x = true) (a : α) (ha : a ∈ l)
    (hqa : q a = true) (hpa : ¬ p a = true) :
    (l.filter p).length < (l.filter q).length := by
  induction l with
  | nil => cases ha
  | cons b t ih =>
    have ht : ∀ x ∈ t, p x = true → q x = true :=
      fun x hx => h x (List.mem_cons_of_mem _ hx)
    rcases List.mem_cons.1 ha with rfl | hat
    · simp only [List.filter, hqa]
      simp [hpa]
      calc (t.filter p).length ≤ (t.filter q).length := filter_length_le t p q ht
        _ < (t.filter q).length + 1 := Nat.lt_succ_self _
    · by_cases hpb : p b = true
      · have hqb : q b = true := h b (List.mem_cons_self b t) hpb
        simp only [List.filter, hpb, hqb]
        simpa using ih ht hat
      · simp only [List.filter]
        cases hqb : q b
        · simp [hpb]
          exact ih ht hat
        · simp [hpb]
          calc (t.filter p).length < (t.filter q).length := ih ht hat
            _ ≤ (t.filter q).length + 1 := Nat.le_succ _

/-- Upper bound on the component pushes still possible: the total component
count of table entries whose key is undiscovered.  `stack.length +
compBudget` bounds the remaining loop iterations and serves as structural
fuel, so the traversal stays kernel-evaluable. -/
def compBudget (table : List (String × List String)) (disc : List String) : Nat :=
  ((table.filter (fun p => decide (p.1 ∉ disc))).map (fun p => p.2.length)).sum

/-- The `while let Some(component) = stack.pop()` loop body, recursing on
fuel.  The stack is a list with its head on top; pushing
`stack.extend(xs.rev())` is `xs ++ stack`.  With the fuel supplied by
`popLoop` the `0` case is never reached. -/
def popLoopGo (table : List (String × List String)) :
    Nat → List String → List String → List String
  | 0, disc, _ => disc
  | _ + 1, disc, [] => disc
  | fuel + 1, disc, c :: rest =>
    if c ∈ disc then popLoopGo table fuel disc rest
    else popLoopGo table fuel (c :: disc) (compOf table c ++ rest)

/-- The `while let Some(component) = stack.pop()` loop. -/
def popLoop (table : List (String × List String)) (disc stack : List String) :
    List String :=
  popLoopGo table (stack.length + compBudget table disc) disc stack

/-- `glyphset_follow_composites`: start from the import set, then for each
seed push its direct components (`stack.extend(components)`, so in the
head-on-top representation the initial stack is the reversed component list)
and run the pop loop. -/
def glyphsetFollowComposites (table : List (String × List String))
    (importGlyphs : List String) : List String :=
  importGlyphs.foldl
    (fun disc name => popLoop table disc (compOf table name).reverse)
    importGlyphs

/-! ## `structs.rs`: the data model -/

inductive OpenTypeCategory
  | Unassigned
  | Base
  | Ligature
  | Mark
  | Component
deriving DecidableEq, Repr

instance : Inhabited OpenTypeCategory := ⟨.Unassigned⟩

/-- Per-glyph metadata.  The Rust field `export` is spelled `exportFlag`
because `export` is a Lean keyword. -/
structure GlyphRecord where
  postscript_name : Option String
  codepoints : List Char
  opentype_category : OpenTypeCategory
  exportFlag : Bool
deriving DecidableEq, Repr

/-- A `norad::Glyph`: its name, component base names, codepoints, the
`public.markColor` lib key (a color string; the external color type
round-trips through strings exactly), and an opaque payload standing for the
rest of the glif data. -/
structure Glyph where
  name : String
  components : List String
  codepoints : List Char
  markColor : Option String
  payload : Nat
deriving DecidableEq, Repr

/-- A Fontgarden layer.  `glyphs` models `BTreeMap<Name, norad::Glyph>`
(keyed by glyph name, name-sorted); `color_marks` models
`BTreeMap<Name, Color>` with colors as strings. -/
structure Layer where
  glyphs : List Glyph
  color_marks : List (String × String)
  default : Bool
deriving DecidableEq, Repr

/-- `Layer::default()`. -/
def Layer.defaultVal : Layer := { glyphs := [], color_marks := [], default := false }

structure Source where
  layers : List (String × Layer)
deriving DecidableEq, Repr

structure Set where
  glyph_data : List (String × GlyphRecord)
  sources : List (String × Source)
deriving DecidableEq, Repr

/-- `Set::default()`. -/
def Set.defaultVal : Set := { glyph_data := [], sources := [] }

structure Fontgarden where
  sets : List (String × Set)
deriving DecidableEq, Repr

/-- `Fontgarden::new()`. -/
def Fontgarden.new : Fontgarden := { sets := [] }

def Layer.glyphNames (l : Layer) : List String := l.glyphs.map (fun g => g.name)

def Layer.getGlyph (l : Layer) (n : String) : Option Glyph :=
  l.glyphs.find? (fun g => g.name == n)

def glyphKey (g : Glyph) : String := g.name

def insertGlyph (g : Glyph) (gs : List Glyph) : List Glyph :=
  insertSortedBy glyphKey g gs

/-- `BTreeMap::extend` on glyph maps: insert every incoming glyph, replacing
same-named ones. -/
def extendGlyphs (dst src : List Glyph) : List Glyph :=
  src.foldl (fun acc g => insertGlyph g acc) dst

/-- `BTreeMap::extend` on string-keyed maps. -/
def extendMapSorted (dst src : List (String × β)) : List (String × β) :=
  src.foldl (fun acc p => insertSortedBy Prod.fst p acc) dst

/-- All glyph names drawn anywhere in a source. -/
def Source.glyphNames (src : Source) : List String :=
  (src.layers.map (fun q => q.2.glyphNames)).flatten

/-- `Set::glyph_coverage`: metadata keys plus every glyph name in any layer
of any source (a `HashSet`, modelled as a list up to membership). -/
def Set.glyphCoverage (s : Set) : List String :=
  s.glyph_data.map Prod.fst ++ (s.sources.map (fun p => p.2.glyphNames)).flatten

/-- `Source::new_with_default_layer_name`. -/
def Source.newWithDefaultLayerName (name : String) : Source :=
  { layers := [(name, { Layer.defaultVal with default := true })] }

/-- `Source::default()`: one empty default layer named `public.default`. -/
def Source.defaultVal : Source :=
  { layers := [("public.default", { Layer.defaultVal with default := true })] }

def countDefaultLayers (src : Source) : Nat :=
  (src.layers.filter (fun p => p.2.default)).length

/-- Apply `f` to the first default-flagged layer, in key order
(`get_default_layer_mut` followed by a mutation; the Rust code `unwrap`s,
which under the one-default invariant never fails — with no default layer
this is a no-op where Rust would panic). -/
def updateFirstDefault (f : Layer → Layer) : List (String × Layer) → List (String × Layer)
  | [] => []
  | (n, l) :: rest =>
    if l.default then (n, f l) :: rest else (n, l) :: updateFirstDefault f rest

def Source.updateDefaultLayer (src : Source) (f : Layer → Layer) : Source :=
  { layers := updateFirstDefault f src.layers }

/-- `get_or_create_layer` (`layers.entry(name).or_default()`) followed by a
mutation of the returned layer. -/
def Source.getOrCreateUpdate (src : Source) (lname : String) (f : Layer → Layer) :
    Source :=
  match lookupKey lname src.layers with
  | some l => { layers := insertSortedBy Prod.fst (lname, f l) src.layers }
  | none => { layers := insertSortedBy Prod.fst (lname, f Layer.defaultVal) src.layers }

/-! ## External font documents (`norad::Font`, as seen by import) -/

/-- A `norad::Layer`: name plus glyphs. -/
structure UfoLayer where
  name : String
  glyphs : List Glyph
deriving DecidableEq, Repr

/-- A `norad::Font` restricted to what import reads: the layer list (default
layer first, as `LayerSet` iterates), and the three lib tables.  Category
strings of `public.openTypeCategories` are carried already parsed. -/
structure UfoFont where
  defaultLayer : UfoLayer
  otherLayers : List UfoLayer
  libPostscriptNames : List (String × String)
  libCategories : List (String × OpenTypeCategory)
  libSkipExport : List String
deriving DecidableEq, Repr

def UfoFont.iterLayers (f : UfoFont) : List UfoLayer := f.defaultLayer :: f.otherLayers

def UfoLayer.getGlyph (l : UfoLayer) (n : String) : Option Glyph :=
  l.glyphs.find? (fun g => g.name == n)

/-- `Font::get_glyph` (looks in the default layer). -/
def UfoFont.getGlyph (f : UfoFont) (n : String) : Option Glyph :=
  f.defaultLayer.getGlyph n

/-- The component table of the closure `|name| layer.get_glyph(&name).map(|g|
g.components ...).unwrap_or_default()`. -/
def UfoLayer.compTable (l : UfoLayer) : List (String × List String) :=
  l.glyphs.map (fun g => (g.name, g.components))

def Layer.compTable (l : Layer) : List (String × List String) :=
  l.glyphs.map (fun g => (g.name, g.components))

/-- `HashSet::extend`: add the members of `new` not already present. -/
def extendU (old new : List String) : List String :=
  old ++ new.filter (fun x => !(old.contains x))

/-- The composite-expansion loop at the top of `Fontgarden::import`: for each
font layer, extend the glyph set by its composite closure in that layer. -/
def expandImportGlyphs (font : UfoFont) (glyphs : List String) : List String :=
  font.iterLayers.foldl
    (fun gs l => extendU gs (glyphsetFollowComposites l.compTable gs)) glyphs

/-- `util::extract_glyph_data`. -/
def extractGlyphData (font : UfoFont) (glyphs : List String) :
    List (String × GlyphRecord) :=
  glyphs.foldl
    (fun gd name =>
      insertSortedBy Prod.fst
        (name,
          { postscript_name := lookupKey name font.libPostscriptNames
            codepoints := ((font.getGlyph name).map (fun g => g.codepoints)).getD []
            opentype_category := (lookupKey name font.libCategories).getD .Unassigned
            exportFlag := !(font.libSkipExport.contains name) })
        gd)
    []

/-- `Layer::from_ufo_layer`: keep only the requested glyphs, move each
`public.markColor` out of the glyph into the color-mark table (the color
string round-trip of the original is exact here). -/
def Layer.fromUfoLayer (l : UfoLayer) (glyphNames : List String) : Layer :=
  let acc := l.glyphs.foldl
    (fun (acc : List Glyph × List (String × String)) g =>
      if glyphNames.contains g.name then
        let cm := match g.markColor with
          | some c => insertSortedBy Prod.fst (g.name, c) acc.2
          | none => acc.2
        (insertGlyph { g with markColor := none } acc.1, cm)
      else acc)
    ([], [])
  { glyphs := acc.1, color_marks := acc.2, default := false }

/-- `target_layer.glyphs.extend(our_layer.glyphs)` and the same for the color
marks. -/
def Layer.mergeFrom (dst our : Layer) : Layer :=
  { dst with
    glyphs := extendGlyphs dst.glyphs our.glyphs
    color_marks := extendMapSorted dst.color_marks our.color_marks }

/-- The per-set layer loop of `Fontgarden::import`: for every font layer,
extract the routed glyphs and merge them into the matching repository layer
(the font's default layer goes to the source's default layer, all others to
a same-named layer, created on demand). -/
def importLayersStep (font : UfoFont) (glyphNames : List String) (src : Source) :
    Source :=
  font.iterLayers.foldl
    (fun src l =>
      let our := Layer.fromUfoLayer l glyphNames
      if our.glyphs.isEmpty then src
      else if l = font.defaultLayer then
        src.updateDefaultLayer (fun dst => dst.mergeFrom our)
      else src.getOrCreateUpdate l.name (fun dst => dst.mergeFrom our))
    src

/-- One set's turn in the routing loop: intersect the expanded glyph list
with the set's coverage; a nonempty intersection claims those glyphs for the
set and removes them from the leftovers. -/
def routeStep (glyphs : List String)
    (acc : List (String × List String) × List String) (p : String × Set) :
    List (String × List String) × List String :=
  let cov := p.2.glyphCoverage
  let inter := glyphs.filter (fun g => cov.contains g)
  if inter.isEmpty then acc
  else (insertRep p.1 inter acc.1, acc.2.filter (fun n => !(inter.contains n)))

/-- The routing table construction of `Fontgarden::import`: intersect the
expanded glyph set with every existing set's coverage, removing claimed
glyphs from the leftovers; route nonempty leftovers to the target set
(`set_to_glyphs` is a `HashMap`; note that its `insert` replaces an existing
entry for the target set). -/
def routeGlyphs (fg : Fontgarden) (glyphs : List String) (target : String) :
    List (String × List String) :=
  let acc := fg.sets.foldl (routeStep glyphs) ([], glyphs)
  if acc.2.isEmpty then acc.1 else insertRep target acc.2 acc.1

/-- One step of the `glyph_data.remove_entry` / `set.glyph_data.insert` move
loop of `Fontgarden::import`: take the record for `n` out of the pending pool
(when present) and file it under the set's metadata. -/
def moveGlyphData (p : List (String × GlyphRecord) × Set) (n : String) :
    List (String × GlyphRecord) × Set :=
  match removeEntry n p.1 with
  | some (v, rest) =>
    (rest, { p.2 with glyph_data := insertSortedBy Prod.fst (n, v) p.2.glyph_data })
  | none => p

/-- Processing of one routed `(set name, glyph names)` entry: move the
extracted records into the set's metadata, get-or-create the source
(`or_insert_with(Source::new_with_default_layer_name(..))`), then merge the
font layers. -/
def importRoutedStep (font : UfoFont) (source_name : String)
    (st : Fontgarden × List (String × GlyphRecord)) (entry : String × List String) :
    Fontgarden × List (String × GlyphRecord) :=
  let set0 := (lookupKey entry.1 st.1.sets).getD Set.defaultVal
  let moved := entry.2.foldl moveGlyphData (st.2, set0)
  let src0 := (lookupKey source_name moved.2.sources).getD
    (Source.newWithDefaultLayerName font.defaultLayer.name)
  let src1 := importLayersStep font entry.2 src0
  let set2 := { moved.2 with
    sources := insertSortedBy Prod.fst (source_name, src1) moved.2.sources }
  ({ sets := insertSortedBy Prod.fst (entry.1, set2) st.1.sets }, moved.1)

/-- `Fontgarden::import`, as the pure state transformer (the Rust body never
returns an error). -/
def Fontgarden.importCore (fg : Fontgarden) (font : UfoFont) (glyphs : List String)
    (set_name source_name : String) : Fontgarden :=
  let expanded := expandImportGlyphs font glyphs
  let gd := extractGlyphData font expanded
  let routed := routeGlyphs fg expanded set_name
  (routed.foldl (importRoutedStep font source_name) (fg, gd)).1

/-! ## Error taxonomy (`errors.rs`, constructors as used by `structs.rs`) -/

inductive LoadGlyphDataError
  | csv
  | invalidGlyphName (raw : String)
  | invalidCodepoint (glyph : String)
  | invalidOpenTypeCategory (glyph : String)
deriving DecidableEq, Repr

inductive LoadLayerError
  | io
  | loadLayerInfo
  | loadColorMarks
  | loadGlyph (path : String)
deriving DecidableEq, Repr

inductive LoadSourceError
  | io
  | noDefaultLayer
  | loadLayer (path : String) (e : LoadLayerError)
deriving DecidableEq, Repr

inductive LoadSetError
  | io
  | loadGlyphData (e : LoadGlyphDataError)
  | namingError (raw : String)
  | loadSource (name : String) (e : LoadSourceError)
deriving DecidableEq, Repr

inductive LoadError
  | io
  | notAFontgarden
  | namingError (raw : String)
  | duplicateGlyphs (set_name : String) (overlapping : List String)
  | loadSet (name : String) (e : LoadSetError)
deriving DecidableEq, Repr

inductive SaveLayerError
  | createDir
  | writeLayerInfo
  | writeColorMarks
  | saveGlyph (name : String)
  /-- Models the `panic!` of `user_name_to_file_name` after 99 attempts. -/
  | nameExhausted (name : String)
deriving DecidableEq, Repr

inductive SaveSourceError
  | createDir
  | saveLayer (name : String) (e : SaveLayerError)
deriving DecidableEq, Repr

inductive SaveSetError
  | createDir
  | writeGlyphData
  | saveSource (name : String) (e : SaveSourceError)
deriving DecidableEq, Repr

inductive SaveError
  | cleanup
  | createDir
  | saveSet (name : String) (e : SaveSetError)
deriving DecidableEq, Repr

inductive ExportError
  | other
deriving DecidableEq, Repr

/-- `Fontgarden::import` as written: `Result<(), LoadError>` that is always
`Ok` (routing absorbs every conflict), paired with the mutated garden. -/
def Fontgarden.importFg (fg : Fontgarden) (font : UfoFont) (glyphs : List String)
    (set_name source_name : String) : Except LoadError Fontgarden :=
  .ok (fg.importCore font glyphs set_name source_name)

/-! ## `Fontgarden::export` and `assemble_sources` -/

/-- Output documents (`norad::Font` as constructed by export): a default
layer plus the other layers in creation order. -/
structure OutFont where
  defaultLayer : UfoLayer
  otherLayers : List UfoLayer
deriving DecidableEq, Repr

/-- `norad::Font::default()`: an empty default layer named
`public.default`. -/
def OutFont.defaultVal : OutFont :=
  { defaultLayer := { name := "public.default", glyphs := [] }, otherLayers := [] }

/-- `assemble_sources`: union same-named sources across sets into one
accumulator (`HashMap`), merging layers by name and overwriting the default
flag with the last-seen one. -/
def assembleSources (fg : Fontgarden) (source_names : List String) :
    List (String × Source) :=
  fg.sets.foldl
    (fun asm p =>
      (p.2.sources.filter (fun q => source_names.contains q.1)).foldl
        (fun asm q =>
          let a0 := (lookupKey q.1 asm).getD Source.defaultVal
          let merged := q.2.layers.foldl
            (fun (a : Source) r =>
              let al := (lookupKey r.1 a.layers).getD Layer.defaultVal
              let al2 :=
                { glyphs := extendGlyphs al.glyphs r.2.glyphs
                  color_marks := extendMapSorted al.color_marks r.2.color_marks
                  default := r.2.default }
              { layers := insertSortedBy Prod.fst (r.1, al2) a.layers })
            a0
          insertRep q.1 merged asm)
        asm)
    []

/-- The composite-expansion loop of `export`, over the assembled sources. -/
def exportExpand (sources : List (String × Source)) (gn : List String) :
    List String :=
  sources.foldl
    (fun gn p =>
      p.2.layers.foldl
        (fun gn q => extendU gn (glyphsetFollowComposites q.2.compTable gn))
        gn)
    gn

/-- The pruning pass of `export`. -/
def pruneSource (gn : List String) (src : Source) : Source :=
  { layers := src.layers.map (fun p =>
      (p.1,
        { p.2 with
          glyphs := p.2.glyphs.filter (fun g => gn.contains g.name)
          color_marks := p.2.color_marks.filter (fun q => gn.contains q.1) })) }

/-- `norad::Layer::insert_glyph` storage model: replace by name or append. -/
def insertRepGlyph (g : Glyph) : List Glyph → List Glyph
  | [] => [g]
  | h :: rest => if h.name = g.name then g :: rest else h :: insertRepGlyph g rest

/-- `Layer::into_ufo_layer`: re-embed each glyph's color mark into its lib
and insert it into the target layer. -/
def Layer.intoUfoLayer (l : Layer) (dst : UfoLayer) : UfoLayer :=
  { dst with
    glyphs := l.glyphs.foldl
      (fun acc g =>
        let g2 := match lookupKey g.name l.color_marks with
          | some c => { g with markColor := some c }
          | none => g
        insertRepGlyph g2 acc)
      dst.glyphs }

/-- Apply `f` to the first other-layer named `lname`. -/
def updateOtherLayer (lname : String) (f : UfoLayer → UfoLayer) :
    List UfoLayer → List UfoLayer
  | [] => []
  | h :: rest =>
    if h.name = lname then f h :: rest else h :: updateOtherLayer lname f rest

/-- The emit loop body of `export` for one assembled, pruned source. -/
def emitSource (ufo : OutFont) (source : Source) : OutFont :=
  source.layers.foldl
    (fun ufo p =>
      if p.2.glyphs.isEmpty then ufo
      else if p.2.default then
        let ufo1 := { ufo with defaultLayer := p.2.intoUfoLayer ufo.defaultLayer }
        if p.1 ≠ ufo1.defaultLayer.name then
          { ufo1 with defaultLayer := { ufo1.defaultLayer with name := p.1 } }
        else ufo1
      else if ufo.defaultLayer.name = p.1 then
        { ufo with defaultLayer := p.2.intoUfoLayer ufo.defaultLayer }
      else if (ufo.otherLayers.find? (fun ol => ol.name == p.1)).isSome then
        { ufo with otherLayers := updateOtherLayer p.1 (fun ol => p.2.intoUfoLayer ol) ufo.otherLayers }
      else
        { ufo with otherLayers := ufo.otherLayers ++ [p.2.intoUfoLayer { name := p.1, glyphs := [] }] })
    ufo

/-- `Fontgarden::export`: assemble, close over composites, prune, emit.  Note
that the output map entry for a source is created (`ufos.entry(..).or_default()`)
before any check that the source still has glyphs. -/
def Fontgarden.export (fg : Fontgarden) (glyph_names source_names : List String) :
    Except ExportError (List (String × OutFont)) :=
  let sources := assembleSources fg source_names
  let gn := exportExpand sources glyph_names
  let pruned := sources.map (fun p => (p.1, pruneSource gn p.2))
  .ok (pruned.foldl
    (fun ufos p =>
      let ufo := (lookupKey p.1 ufos).getD OutFont.defaultVal
      insertSortedBy Prod.fst (p.1, emitSource ufo p.2) ufos)
    [])

/-! ## The storage codec: directory trees written by `save`, read by `load`

Directories are association lists from entry name to content, in creation
(resp. read) order.  The `glyph_data.csv` table is modelled at the row level:
one `GlyphRow` per data row, each cell still optional the way the CSV reader
sees it (an empty cell deserializes to `None`; a `none` in `exportCell`
stands for a row without an export column, which the five-tuple
deserialization of `load_glyph_data` rejects).  A `none` glyph-data file
models an absent `glyph_data.csv` (`csv::Reader::from_path` fails).  The
glif and layerinfo codecs of the external library are exact. -/

structure GlyphRow where
  name : String
  postscript : Option String
  codepointsCell : Option (List Char)
  categoryCell : Option OpenTypeCategory
  exportCell : Option Bool
deriving DecidableEq, Repr

structure LayerDir where
  layerinfoName : String
  colorMarks : List (String × String)
  glifs : List (String × Glyph)
deriving DecidableEq, Repr

structure SourceDir where
  layers : List (String × LayerDir)
deriving DecidableEq, Repr

structure SetDir where
  glyphData : Option (List GlyphRow)
  sources : List (String × SourceDir)
deriving DecidableEq, Repr

structure FgDir where
  entries : List (String × SetDir)
deriving DecidableEq, Repr

/-! ### Saving -/

/-- One row of `write_glyph_data`, with CSV cell semantics applied: an empty
production name, like a missing one, serializes to an empty cell, and an
empty codepoint list to an empty cell. -/
def writeGlyphRow (p : String × GlyphRecord) : GlyphRow :=
  { name := p.1
    postscript := match p.2.postscript_name with
      | some s => if s = "" then none else some s
      | none => none
    codepointsCell := if p.2.codepoints.isEmpty then none else some p.2.codepoints
    categoryCell := some p.2.opentype_category
    exportCell := some p.2.exportFlag }

/-- The glyph-file loop of `Layer::save`: name each glyph with
`default_file_name_for_glyph_name`, tracking raw (not lowercased) names in
`existing`, and write the file (same path twice overwrites). -/
def saveGlifs : List Glyph → List (String × Glyph) → List String →
    Except SaveLayerError (List (String × Glyph))
  | [], acc, _ => .ok acc
  | g :: rest, acc, existing =>
    match defaultFileNameForGlyphName g.name existing with
    | none => .error (.nameExhausted g.name)
    | some fname => saveGlifs rest (insertRep fname g acc) (existing ++ [fname])

/-- `Layer::save`: an empty layer writes nothing at all; the default layer
goes to `glyphs`, others to a generated directory name which is recorded in
`existing_layer_names` as a full path. -/
def Layer.save (l : Layer) (layer_name source_path : String)
    (existingLayerNames : List String) :
    Except SaveLayerError (Option (String × LayerDir) × List String) :=
  if l.glyphs.isEmpty then .ok (none, existingLayerNames)
  else
    let dirAndNames : Option (String × List String) :=
      if l.default then some ("glyphs", existingLayerNames)
      else match defaultFileNameForLayerName layer_name existingLayerNames with
        | some d => some (d, existingLayerNames ++ [source_path ++ "/" ++ d])
        | none => none
    match dirAndNames with
    | none => .error (.nameExhausted layer_name)
    | some (dirname, ex2) =>
      match saveGlifs l.glyphs [] [] with
      | .error e => .error e
      | .ok glifs =>
        .ok (some (dirname,
          { layerinfoName := layer_name, colorMarks := l.color_marks, glifs }), ex2)

/-- The layer loop of `Source::save`; creating an already-created directory
fails (`create_dir`). -/
def saveSourceLayers (source_path : String) :
    List (String × Layer) → List (String × LayerDir) → List String →
    Except SaveSourceError (List (String × LayerDir))
  | [], entries, _ => .ok entries
  | (lname, l) :: rest, entries, existing =>
    match l.save lname source_path existing with
    | .error e => .error (.saveLayer lname e)
    | .ok (none, ex2) => saveSourceLayers source_path rest entries ex2
    | .ok (some (dirname, ld), ex2) =>
      if (entries.map Prod.fst).contains dirname then
        .error (.saveLayer lname .createDir)
      else saveSourceLayers source_path rest (entries ++ [(dirname, ld)]) ex2

/-- `Source::save`. -/
def Source.save (src : Source) (source_name set_path : String) :
    Except SaveSourceError SourceDir :=
  let source_path := set_path ++ "/source." ++ source_name
  match saveSourceLayers source_path src.layers [] [] with
  | .error e => .error e
  | .ok entries => .ok { layers := entries }

def saveSetSources (set_path : String) :
    List (String × Source) → List (String × SourceDir) →
    Except SaveSetError (List (String × SourceDir))
  | [], acc => .ok acc
  | (n, src) :: rest, acc =>
    match src.save n set_path with
    | .error e => .error (.saveSource n e)
    | .ok d => saveSetSources set_path rest (acc ++ [("source." ++ n, d)])

/-- `Set::save`. -/
def Set.save (s : Set) (set_name root_path : String) :
    Except SaveSetError SetDir :=
  let set_path := root_path ++ "/set." ++ set_name
  match saveSetSources set_path s.sources [] with
  | .error e => .error e
  | .ok srcs => .ok { glyphData := some (s.glyph_data.map writeGlyphRow), sources := srcs }

def saveFgSets (root_path : String) :
    List (String × Set) → List (String × SetDir) →
    Except SaveError (List (String × SetDir))
  | [], acc => .ok acc
  | (n, s) :: rest, acc =>
    match s.save n root_path with
    | .error e => .error (.saveSet n e)
    | .ok d => saveFgSets root_path rest (acc ++ [("set." ++ n, d)])

/-- `Fontgarden::save` (the pre-existing target directory has already been
removed; its recreation is the fresh `FgDir`). -/
def Fontgarden.save (fg : Fontgarden) (root_path : String) :
    Except SaveError FgDir :=
  match saveFgSets root_path fg.sets [] with
  | .error e => .error e
  | .ok entries => .ok { entries }

/-! ### Loading -/

/-- `Set::parse_codepoints` on an already-tokenized cell: deduplicate,
keeping first occurrences in order. -/
def dedupChars (l : List Char) : List Char :=
  l.foldl (fun acc c => if acc.contains c then acc else acc ++ [c]) []

/-- One row of `load_glyph_data`.  The row is deserialized into
`(String, Option<String>, Option<String>, Option<String>, bool)`: a row with
no export column fails deserialization (`exportCell = none` → CSV error),
the `#[serde(default = "default_true")]` on `GlyphRecord` notwithstanding.
`Name::new` is modelled as rejecting the empty string. -/
def parseGlyphRow (row : GlyphRow) : Except LoadGlyphDataError (String × GlyphRecord) :=
  match row.exportCell with
  | none => .error .csv
  | some e =>
    if row.name = "" then .error (.invalidGlyphName row.name)
    else
      .ok (row.name,
        { postscript_name := row.postscript
          codepoints := dedupChars (row.codepointsCell.getD [])
          opentype_category := row.categoryCell.getD .Unassigned
          exportFlag := e })

def loadRows : List GlyphRow → List (String × GlyphRecord) →
    Except LoadGlyphDataError (List (String × GlyphRecord))
  | [], acc => .ok acc
  | r :: rest, acc =>
    match parseGlyphRow r with
    | .error e => .error e
    | .ok p => loadRows rest (insertSortedBy Prod.fst p acc)

/-- `Set::load_glyph_data`; an absent file is a CSV error
(`csv::Reader::from_path`). -/
def Set.loadGlyphData (file : Option (List GlyphRow)) :
    Except LoadGlyphDataError (List (String × GlyphRecord)) :=
  match file with
  | none => .error .csv
  | some rows => loadRows rows []

/-- `path.extension() == Some("glif")`. -/
def hasGlifExt (s : String) : Bool :=
  decide (5 < s.data.length) && (s.data.drop (s.data.length - 5) == ".glif".data)

def strStartsWith (s p : String) : Bool :=
  s.data.take p.data.length == p.data

def strStrip (p s : String) : Option String :=
  if s.data.take p.data.length = p.data then some (String.mk (s.data.drop p.data.length))
  else none

/-- `Layer::from_path`: read every `.glif` file, keyed by the glyph name
stored in it; the layer is default iff its directory is named `glyphs`. -/
def Layer.fromPath (dirname : String) (d : LayerDir) :
    Except LoadLayerError (Layer × String) :=
  let glyphs := d.glifs.foldl
    (fun acc p => if hasGlifExt p.1 then insertGlyph p.2 acc else acc) []
  .ok ({ glyphs, color_marks := d.colorMarks, default := dirname == "glyphs" },
    d.layerinfoName)

def loadSourceLayers : List (String × LayerDir) → List (String × Layer) → Bool →
    Except LoadSourceError Source
  | [], layers, foundDefault =>
    if foundDefault then .ok { layers } else .error .noDefaultLayer
  | (fname, ld) :: rest, layers, foundDefault =>
    if fname == "glyphs" || strStartsWith fname "glyphs." then
      match Layer.fromPath fname ld with
      | .error e => .error (.loadLayer fname e)
      | .ok (layer, lname) =>
        loadSourceLayers rest (insertSortedBy Prod.fst (lname, layer) layers)
          (foundDefault || fname == "glyphs")
    else loadSourceLayers rest layers foundDefault

/-- `Source::from_path`. -/
def Source.fromPath (d : SourceDir) : Except LoadSourceError Source :=
  loadSourceLayers d.layers [] false

def loadSetSources : List (String × SourceDir) → List (String × Source) →
    Except LoadSetError (List (String × Source))
  | [], sources => .ok sources
  | (fname, sd) :: rest, sources =>
    match strStrip "source." fname with
    | none => loadSetSources rest sources
    | some sname =>
      if sname = "" then .error (.namingError sname)
      else match Source.fromPath sd with
        | .error e => .error (.loadSource sname e)
        | .ok src => loadSetSources rest (insertSortedBy Prod.fst (sname, src) sources)

/-- `Set::from_path`. -/
def Set.fromPath (d : SetDir) : Except LoadSetError Set :=
  match Set.loadGlyphData d.glyphData with
  | .error e => .error (.loadGlyphData e)
  | .ok gd =>
    match loadSetSources d.sources [] with
    | .error e => .error e
    | .ok sources => .ok { glyph_data := gd, sources }

def loadFgSets : List (String × SetDir) → List (String × Set) → List String →
    Except LoadError Fontgarden
  | [], sets, _ => .ok { sets }
  | (fname, sd) :: rest, sets, seen =>
    match strStrip "set." fname with
    | none => loadFgSets rest sets seen
    | some sname =>
      if sname = "" then .error (.namingError sname)
      else match Set.fromPath sd with
        | .error e => .error (.loadSet sname e)
        | .ok set =>
          let cov := set.glyphCoverage
          let overlapping := cov.filter (fun g => seen.contains g)
          if overlapping.isEmpty then
            loadFgSets rest (insertSortedBy Prod.fst (sname, set) sets) (seen ++ cov)
          else .error (.duplicateGlyphs sname overlapping)

/-- `Fontgarden::from_path` on a directory tree. -/
def Fontgarden.fromPath (d : FgDir) : Except LoadError Fontgarden :=
  loadFgSets d.entries [] []

/-- Specification-side reading of the directory: the `(set name, Set)` list
that `from_path` would load, with no duplicate-coverage check (`none` when a
set fails to parse or load at all). -/
def loadSetsPlain : List (String × SetDir) → Option (List (String × Set))
  | [] => some []
  | (f, sd) :: rest =>
    match strStrip "set." f with
    | none => loadSetsPlain rest
    | some n =>
      if n = "" then none
      else match Set.fromPath sd with
        | .ok st => (loadSetsPlain rest).map (fun L => (n, st) :: L)
        | .error _ => none

/-- The first set (in directory order) whose coverage meets the union of the
coverages seen before it, together with the overlap. -/
def firstOverlap : List (String × Set) → List String → Option (String × List String)
  | [], _ => none
  | (n, st) :: rest, seen =>
    let ov := st.glyphCoverage.filter (fun g => seen.contains g)
    if ov.isEmpty then firstOverlap rest (seen ++ st.glyphCoverage)
    else some (n, ov)

/-! ## Derived queries and well-formedness used by the import claims -/

/-- The coverage of the set named `s` (empty when there is no such set). -/
def covOf (fg : Fontgarden) (s : String) : List String :=
  match lookupKey s fg.sets with
  | some st => st.glyphCoverage
  | none => []

/-- Representation invariant of the model: the set, source and layer maps
are strictly key-sorted, as the corresponding Rust `BTreeMap`s always
are. -/
def Source.wfSorted (src : Source) : Bool :=
  sortedByB Prod.fst src.layers

def Set.wfSorted (st : Set) : Bool :=
  sortedByB Prod.fst st.sources && st.sources.all (fun p => p.2.wfSorted)

def Fontgarden.wfSorted (fg : Fontgarden) : Bool :=
  sortedByB Prod.fst fg.sets && fg.sets.all (fun p => p.2.wfSorted)

/-- Decidable pairwise disjointness of the coverages of the sets. -/
def covDisjAux : List (String × Set) → Bool
  | [] => true
  | p :: rest =>
    rest.all (fun q => p.2.glyphCoverage.all (fun g => !(q.2.glyphCoverage.contains g))) &&
      covDisjAux rest

def covDisjB (fg : Fontgarden) : Bool := covDisjAux fg.sets

/-- Coverage disjointness as a proposition over set names. -/
def CovDisj (fg : Fontgarden) : Prop :=
  ∀ a b, a ≠ b → ∀ g, g ∈ covOf fg a → g ∉ covOf fg b

/-- One import request. -/
structure ImportCall where
  font : UfoFont
  glyphs : List String
  set_name : String
  source_name : String

/-- A finite sequence of imports applied to the empty Fontgarden. -/
def importSeq (calls : List ImportCall) : Fontgarden :=
  calls.foldl (fun fg c => fg.importCore c.font c.glyphs c.set_name c.source_name)
    Fontgarden.new

/-! # Theorems

First the library of lemmas about the embedded operations, then one theorem
(plus witness / counterexample where applicable) per specification claim. -/

/-! ## The composite-closure traversal -/

theorem compBudget_filter_in (disc : List String) (p : String × List String)
    (rest : List (String × List String)) (hp : p.1 ∈ disc) :
    List.filter (fun q => decide (q.1 ∉ disc)) (p :: rest) =
      List.filter (fun q => decide (q.1 ∉ disc)) rest :=
  List.filter_cons_of_neg (by simp [hp])

theorem compBudget_filter_out (disc : List String) (p : String × List String)
    (rest : List (String × List String)) (hp : p.1 ∉ disc) :
    List.filter (fun q => decide (q.1 ∉ disc)) (p :: rest) =
      p :: List.filter (fun q => decide (q.1 ∉ disc)) rest :=
  List.filter_cons_of_pos (by simp [hp])

theorem compBudget_cons_le (table : List (String × List String))
    (disc : List String) (c : String) :
    compBudget table (c :: disc) ≤ compBudget table disc := by
  induction table with
  | nil => exact le_refl _
  | cons p rest ih =>
    unfold compBudget at ih ⊢
    by_cases hp : p.1 ∈ disc
    · rw [compBudget_filter_in disc p rest hp,
        compBudget_filter_in (c :: disc) p rest (List.mem_cons_of_mem _ hp)]
      exact ih
    · by_cases hpc : p.1 = c
      · rw [compBudget_filter_out disc p rest hp,
          compBudget_filter_in (c :: disc) p rest (by simp [hpc])]
        simp only [List.map_cons, List.sum_cons]
        omega
      · rw [compBudget_filter_out disc p rest hp,
          compBudget_filter_out (c :: disc) p rest (by simp [hp, hpc])]
        simp only [List.map_cons, List.sum_cons]
        omega

theorem compBudget_insert_le (table : List (String × List String))
    (disc : List String) (c : String) (hc : c ∉ disc) :
    compBudget table (c :: disc) + (compOf table c).length ≤
      compBudget table disc := by
  induction table with
  | nil => simp [compBudget, compOf]
  | cons p rest ih =>
    by_cases hpc : p.1 = c
    · have hcomp : compOf (p :: rest) c = p.2 := by
        unfold compOf
        rw [List.find?_cons_of_pos _ (by simp [hpc])]
      rw [hcomp]
      unfold compBudget
      rw [compBudget_filter_out disc p rest (by rw [hpc]; exact hc),
        compBudget_filter_in (c :: disc) p rest (by simp [hpc])]
      simp only [List.map_cons, List.sum_cons]
      have := compBudget_cons_le rest disc c
      unfold compBudget at this
      omega
    · have hcomp : compOf (p :: rest) c = compOf rest c := by
        unfold compOf
        rw [List.find?_cons_of_neg _ (by simp [hpc])]
      rw [hcomp]
      unfold compBudget at ih ⊢
      by_cases hp : p.1 ∈ disc
      · rw [compBudget_filter_in disc p rest hp,
          compBudget_filter_in (c :: disc) p rest (List.mem_cons_of_mem _ hp)]
        exact ih
      · rw [compBudget_filter_out disc p rest hp,
          compBudget_filter_out (c :: disc) p rest (by simp [hp, hpc])]
        simp only [List.map_cons, List.sum_cons]
        omega

theorem popLoopGo_superset (table : List (String × List String)) :
    ∀ fuel disc stack, ∀ x ∈ disc, x ∈ popLoopGo table fuel disc stack := by
  intro fuel
  induction fuel with
  | zero => intro disc stack x hx; exact hx
  | succ n ih =>
    intro disc stack x hx
    cases stack with
    | nil => exact hx
    | cons c rest =>
      rw [popLoopGo]
      by_cases hmem : c ∈ disc
      · rw [if_pos hmem]
        exact ih disc rest x hx
      · rw [if_neg hmem]
        exact ih (c :: disc) _ x (List.mem_cons_of_mem _ hx)

theorem popLoopGo_fuel_step (table : List (String × List String))
    (disc rest : List String) (c : String) (hc : c ∉ disc) (n : Nat)
    (hfuel : (c :: rest).length + compBudget table disc ≤ n + 1) :
    (compOf table c ++ rest).length + compBudget table (c :: disc) ≤ n := by
  have h1 := compBudget_insert_le table disc c hc
  simp only [List.length_cons, List.length_append] at hfuel ⊢
  omega

theorem popLoopGo_stack_subset (table : List (String × List String)) :
    ∀ fuel disc stack, stack.length + compBudget table disc ≤ fuel →
      ∀ x ∈ stack, x ∈ popLoopGo table fuel disc stack := by
  intro fuel
  induction fuel with
  | zero =>
    intro disc stack hfuel x hx
    have : stack.length = 0 := by omega
    rw [List.length_eq_zero] at this
    subst this
    cases hx
  | succ n ih =>
    intro disc stack hfuel x hx
    cases stack with
    | nil => cases hx
    | cons c rest =>
      rw [popLoopGo]
      by_cases hmem : c ∈ disc
      · rw [if_pos hmem]
        rcases List.mem_cons.1 hx with rfl | hx'
        · exact popLoopGo_superset table n disc rest x hmem
        · refine ih disc rest ?_ x hx'
          simp only [List.length_cons] at hfuel
          omega
      · rw [if_neg hmem]
        have hfuel' := popLoopGo_fuel_step table disc rest c hmem n hfuel
        rcases List.mem_cons.1 hx with rfl | hx'
        · exact popLoopGo_superset table n _ _ x (List.mem_cons_self x disc)
        · exact ih _ _ hfuel' x (List.mem_append_right _ hx')

theorem popLoopGo_closedExcept (table : List (String × List String))
    (E : List String) :
    ∀ fuel disc stack, stack.length + compBudget table disc ≤ fuel →
      (∀ g ∈ disc, g ∈ E ∨ ∀ d ∈ compOf table g, d ∈ disc ∨ d ∈ stack) →
      ∀ g ∈ popLoopGo table fuel disc stack,
        g ∈ E ∨ ∀ d ∈ compOf table g, d ∈ popLoopGo table fuel disc stack := by
  intro fuel
  induction fuel with
  | zero =>
    intro disc stack hfuel h g hg
    have : stack.length = 0 := by omega
    rw [List.length_eq_zero] at this
    subst this
    rcases h g hg with hE | hcl
    · exact Or.inl hE
    · refine Or.inr (fun d hd => ?_)
      rcases hcl d hd with hd' | hd'
      · exact hd'
      · cases hd'
  | succ n ih =>
    intro disc stack hfuel h g hg
    cases stack with
    | nil =>
      rcases h g hg with hE | hcl
      · exact Or.inl hE
      · refine Or.inr (fun d hd => ?_)
        rcases hcl d hd with hd' | hd'
        · exact hd'
        · cases hd'
    | cons c rest =>
      rw [popLoopGo] at hg ⊢
      by_cases hmem : c ∈ disc
      · rw [if_pos hmem] at hg ⊢
        refine ih disc rest ?_ ?_ g hg
        · simp only [List.length_cons] at hfuel
          omega
        · intro g' hg'
          rcases h g' hg' with hE | hcl
          · exact Or.inl hE
          · refine Or.inr (fun d hd => ?_)
            rcases hcl d hd with hd' | hd'
            · exact Or.inl hd'
            · rcases List.mem_cons.1 hd' with rfl | hd''
              · exact Or.inl hmem
              · exact Or.inr hd''
      · rw [if_neg hmem] at hg ⊢
        have hfuel' := popLoopGo_fuel_step table disc rest c hmem n hfuel
        refine ih _ _ hfuel' ?_ g hg
        intro g' hg'
        rcases List.mem_cons.1 hg' with rfl | hg''
        · exact Or.inr (fun d hd => Or.inr (List.mem_append_left _ hd))
        · rcases h g' hg'' with hE | hcl
          · exact Or.inl hE
          · refine Or.inr (fun d hd => ?_)
            rcases hcl d hd with hd' | hd'
            · exact Or.inl (List.mem_cons_of_mem _ hd')
            · rcases List.mem_cons.1 hd' with rfl | hd''
              · exact Or.inl (List.mem_cons_self d disc)
              · exact Or.inr (List.mem_append_right _ hd'')

theorem popLoop_superset (table : List (String × List String))
    (disc stack : List String) : ∀ x ∈ disc, x ∈ popLoop table disc stack :=
  popLoopGo_superset table _ disc stack

theorem popLoop_stack_subset (table : List (String × List String))
    (disc stack : List String) : ∀ x ∈ stack, x ∈ popLoop table disc stack :=
  popLoopGo_stack_subset table _ disc stack (le_refl _)

theorem popLoop_closedExcept (table : List (String × List String))
    (E : List String) (disc stack : List String)
    (h : ∀ g ∈ disc, g ∈ E ∨ ∀ d ∈ compOf table g, d ∈ disc ∨ d ∈ stack) :
    ∀ g ∈ popLoop table disc stack,
      g ∈ E ∨ ∀ d ∈ compOf table g, d ∈ popLoop table disc stack :=
  popLoopGo_closedExcept table E _ disc stack (le_refl _) h

theorem followAux_superset (table : List (String × List String))
    (seeds disc : List String) :
    ∀ x ∈ disc,
      x ∈ seeds.foldl (fun d n => popLoop table d (compOf table n).reverse) disc := by
  induction seeds generalizing disc with
  | nil => intro x hx; simpa using hx
  | cons s rest ih =>
    intro x hx
    simp only [List.foldl_cons]
    exact ih _ x (popLoop_superset table disc _ x hx)

theorem followAux_closed (table : List (String × List String))
    (seeds disc : List String)
    (h : ∀ g ∈ disc, g ∈ seeds ∨ ∀ d ∈ compOf table g, d ∈ disc) :
    ∀ g ∈ seeds.foldl (fun d n => popLoop table d (compOf table n).reverse) disc,
      ∀ d ∈ compOf table g,
        d ∈ seeds.foldl (fun d n => popLoop table d (compOf table n).reverse) disc := by
  induction seeds generalizing disc with
  | nil =>
    intro g hg d hd
    simp only [List.foldl_nil] at hg ⊢
    rcases h g hg with hE | hcl
    · cases hE
    · exact hcl d hd
  | cons s rest ih =>
    simp only [List.foldl_cons]
    apply ih
    have step := popLoop_closedExcept table rest disc (compOf table s).reverse ?_
    · intro g hg
      rcases step g hg with hE | hcl
      · exact Or.inl hE
      · exact Or.inr hcl
    · intro g hg
      rcases h g hg with hE | hcl
      · rcases List.mem_cons.1 hE with rfl | hE'
        · refine Or.inr (fun d hd => Or.inr (List.mem_reverse.2 hd))
        · exact Or.inl hE'
      · exact Or.inr (fun d hd => Or.inl (hcl d hd))

/-- **C4.**  For every component table `c` and seed set `S`, the composite
closure `glyphset_follow_composites(S, c)` contains `S`, and it is closed:
the components of every member are members. -/
theorem c4_closure_superset_and_closed (table : List (String × List String))
    (seeds : List String) :
    (∀ s ∈ seeds, s ∈ glyphsetFollowComposites table seeds) ∧
    (∀ g ∈ glyphsetFollowComposites table seeds, ∀ d ∈ compOf table g,
      d ∈ glyphsetFollowComposites table seeds) := by
  constructor
  · intro s hs
    exact followAux_superset table seeds seeds s hs
  · exact followAux_closed table seeds seeds (fun g hg => Or.inl hg)

/-! ## The clash-resolution loop of the naming algorithm -/

theorem tryCountersGo_some_spec (stem suf : List Char) (existing : List String) :
    ∀ r c v, tryCountersGo stem suf existing c r = some v →
      lowerStr v ∉ existing ∧
      ∃ k, c ≤ k ∧ k < c + r ∧ v = stem ++ pad2 k ++ suf ∧
        ∀ j, c ≤ j → j < k → lowerStr (stem ++ pad2 j ++ suf) ∈ existing := by
  intro r
  induction r with
  | zero => intro c v hv; cases hv
  | succ r ih =>
    intro c v hv
    rw [tryCountersGo] at hv
    by_cases htaken : lowerStr (stem ++ pad2 c ++ suf) ∈ existing
    · rw [if_pos htaken] at hv
      obtain ⟨hfree, k, hck, hkr, hvk, hfirst⟩ := ih (c + 1) v hv
      refine ⟨hfree, k, by omega, by omega, hvk, ?_⟩
      intro j hcj hjk
      rcases Nat.eq_or_lt_of_le hcj with rfl | hlt
      · exact htaken
      · exact hfirst j hlt hjk
    · rw [if_neg htaken] at hv
      cases hv
      exact ⟨htaken, c, le_refl c, by omega, rfl, fun j hcj hjc => by omega⟩

theorem tryCountersGo_isSome (stem suf : List Char) (existing : List String) :
    ∀ r c, (∃ k, c ≤ k ∧ k < c + r ∧ lowerStr (stem ++ pad2 k ++ suf) ∉ existing) →
      (tryCountersGo stem suf existing c r).isSome = true := by
  intro r
  induction r with
  | zero =>
    rintro c ⟨k, hck, hkr, _⟩
    omega
  | succ r ih =>
    rintro c ⟨k, hck, hkr, hfree⟩
    rw [tryCountersGo]
    by_cases htaken : lowerStr (stem ++ pad2 c ++ suf) ∈ existing
    · rw [if_pos htaken]
      apply ih
      refine ⟨k, ?_, by omega, hfree⟩
      rcases Nat.eq_or_lt_of_le hck with rfl | hlt
      · exact absurd htaken hfree
      · omega
    · rw [if_neg htaken]
      rfl

theorem tryCountersGo_exhausted (stem suf : List Char) (existing : List String) :
    ∀ r c, (∀ k, c ≤ k → k < c + r → lowerStr (stem ++ pad2 k ++ suf) ∈ existing) →
      tryCountersGo stem suf existing c r = none := by
  intro r
  induction r with
  | zero => intro c _; rfl
  | succ r ih =>
    intro c h
    rw [tryCountersGo]
    rw [if_pos (h c (le_refl c) (by omega))]
    exact ih (c + 1) (fun k hk hkr => h k (by omega) (by omega))

/-- **C8.**  In `user_name_to_file_name`: (a) any returned name's lowercase
form is absent from the caller-supplied `existing` set; (b) when the
candidate's lowercase form is taken, the returned name is the first free
two-digit-numbered variant, counters 1..99 placed before the suffix; (c) if
some numbered variant in 01..99 is free, the fatal exhaustion branch is not
reached; (d) if all 99 are taken, the outcome is the fatal condition
(modelled as `none`). -/
theorem c8_collision_counter (name pre suf : String) (existing : List String) :
    (∀ r, userNameToFileName name pre suf existing = some r → strLower r ∉ existing) ∧
    (lowerStr (buildCandidate name.data pre.data suf.data) ∈ existing →
      ∀ r, userNameToFileName name pre suf existing = some r →
        ∃ k, 1 ≤ k ∧ k ≤ 99 ∧
          r = String.mk
            (counterStem (buildCandidate name.data pre.data suf.data) suf.data ++
              pad2 k ++ suf.data) ∧
          ∀ j, 1 ≤ j → j < k →
            lowerStr
              (counterStem (buildCandidate name.data pre.data suf.data) suf.data ++
                pad2 j ++ suf.data) ∈ existing) ∧
    (lowerStr (buildCandidate name.data pre.data suf.data) ∈ existing →
      (∃ k, 1 ≤ k ∧ k ≤ 99 ∧
        lowerStr
          (counterStem (buildCandidate name.data pre.data suf.data) suf.data ++
            pad2 k ++ suf.data) ∉ existing) →
      (userNameToFileName name pre suf existing).isSome = true) ∧
    ((∀ k, 1 ≤ k → k ≤ 99 →
        lowerStr
          (counterStem (buildCandidate name.data pre.data suf.data) suf.data ++
            pad2 k ++ suf.data) ∈ existing) →
      lowerStr (buildCandidate name.data pre.data suf.data) ∈ existing →
      userNameToFileName name pre suf existing = none) := by
  have hconv : tryCounters (counterStem (buildCandidate name.data pre.data suf.data)
      suf.data) suf.data existing 1 =
      tryCountersGo (counterStem (buildCandidate name.data pre.data suf.data)
        suf.data) suf.data existing 1 99 := rfl
  refine ⟨?_, ?_, ?_, ?_⟩
  · intro r hr
    unfold userNameToFileName at hr
    by_cases hcoll : lowerStr (buildCandidate name.data pre.data suf.data) ∈ existing
    · rw [if_pos hcoll, hconv] at hr
      cases htc : tryCountersGo (counterStem (buildCandidate name.data pre.data suf.data)
          suf.data) suf.data existing 1 99 with
      | none => rw [htc] at hr; cases hr
      | some v =>
        rw [htc] at hr
        cases hr
        have := (tryCountersGo_some_spec _ _ existing 99 1 v htc).1
        simpa [strLower, lowerStr] using this
    · rw [if_neg hcoll] at hr
      cases hr
      simpa [strLower, lowerStr] using hcoll
  · intro hcoll r hr
    unfold userNameToFileName at hr
    rw [if_pos hcoll, hconv] at hr
    cases htc : tryCountersGo (counterStem (buildCandidate name.data pre.data suf.data)
        suf.data) suf.data existing 1 99 with
    | none => rw [htc] at hr; cases hr
    | some v =>
      rw [htc] at hr
      cases hr
      obtain ⟨_, k, h1k, hk100, rfl, hfirst⟩ :=
        tryCountersGo_some_spec _ _ existing 99 1 v htc
      exact ⟨k, h1k, by omega, rfl, fun j h1j hjk => hfirst j h1j hjk⟩
  · intro hcoll hex
    unfold userNameToFileName
    rw [if_pos hcoll, hconv]
    obtain ⟨k, h1k, hk99, hfree⟩ := hex
    have := tryCountersGo_isSome
      (counterStem (buildCandidate name.data pre.data suf.data) suf.data) suf.data
      existing 99 1 ⟨k, h1k, by omega, hfree⟩
    cases htc : tryCountersGo (counterStem (buildCandidate name.data pre.data suf.data)
        suf.data) suf.data existing 1 99 with
    | none => rw [htc] at this; cases this
    | some v => simp [htc]
  · intro hall hcoll
    unfold userNameToFileName
    rw [if_pos hcoll, hconv]
    rw [tryCountersGo_exhausted _ _ existing 99 1
      (fun k h1k hk100 => hall k h1k (by omega))]
    rfl

/-- Witness for C8 (the scenario of the spec's testable property 6): glyph
"A" with `existing = {"a_.glif"}` resolves to the numbered variant
`A_01.glif`, whose lowercase form is fresh. -/
theorem c8_collision_counter_witness :
    userNameToFileName "A" "" ".glif" ["a_.glif"] = some "A_01.glif" ∧
    strLower "A_01.glif" ∉ ["a_.glif"] := by
  refine ⟨by decide, ?_⟩
  exact (c8_collision_counter "A" "" ".glif" ["a_.glif"]).1 "A_01.glif" (by decide)

/-! ## Glyph-metadata parsing (C6) -/

/-- **C6** (the code contradicts this claim).  `load_glyph_data` deserializes
each row into `(String, Option<String>, Option<String>, Option<String>, bool)`:
the export field is a plain `bool`, so a row without an export column is a
CSV deserialization error rather than a default-true record, and a wholly
absent `glyph_data.csv` makes `csv::Reader::from_path` fail — even though
`GlyphRecord` itself declares `#[serde(default = "default_true")] export`.
This theorem evaluates the embedded parser at both failing inputs. -/
theorem c6_export_default_not_implemented :
    Set.loadGlyphData
        (some [{ name := "A", postscript := none, codepointsCell := none,
                 categoryCell := none, exportCell := none }]) =
      .error .csv ∧
    Set.loadGlyphData none = .error .csv :=
  ⟨rfl, rfl⟩

/-! ## Key-membership lemmas for the export result (C5) -/

theorem mem_keys_insertSortedBy (k : String) (v : β) (m : List (String × β))
    (n : String) :
    (n ∈ (insertSortedBy Prod.fst (k, v) m).map Prod.fst) ↔
      n = k ∨ n ∈ m.map Prod.fst := by
  induction m with
  | nil => simp [insertSortedBy]
  | cons y rest ih =>
    rw [insertSortedBy]
    by_cases h1 : k = y.1
    · rw [if_pos h1]
      subst h1
      simp
    · rw [if_neg h1]
      by_cases h2 : strLtB k y.1 = true
      · rw [if_pos h2]
        simp only [List.map_cons, List.mem_cons]
      · rw [if_neg h2]
        simp only [List.map_cons, List.mem_cons] at ih ⊢
        rw [ih]
        tauto

theorem mem_keys_insertRep (k : String) (v : β) (m : List (String × β))
    (n : String) :
    (n ∈ (insertRep k v m).map Prod.fst) ↔ n = k ∨ n ∈ m.map Prod.fst := by
  induction m with
  | nil => simp [insertRep]
  | cons y rest ih =>
    rw [insertRep]
    by_cases h1 : k = y.1
    · rw [if_pos h1]
      subst h1
      simp
    · rw [if_neg h1]
      simp at ih ⊢
      rw [ih]
      tauto

theorem mem_keys_emit_fold (fval : List (String × OutFont) → (String × Source) → OutFont)
    (l : List (String × Source)) (acc : List (String × OutFont)) (n : String) :
    (n ∈ (l.foldl (fun ufos p => insertSortedBy Prod.fst (p.1, fval ufos p) ufos)
        acc).map Prod.fst) ↔
      n ∈ acc.map Prod.fst ∨ n ∈ l.map Prod.fst := by
  induction l generalizing acc with
  | nil => simp
  | cons p rest ih =>
    simp only [List.foldl_cons]
    rw [ih]
    rw [mem_keys_insertSortedBy]
    simp
    tauto

theorem mem_keys_assemble_inner (sources : List (String × Source))
    (asm : List (String × Source)) (n : String) :
    (n ∈ (sources.foldl
        (fun asm q =>
          let a0 := (lookupKey q.1 asm).getD Source.defaultVal
          let merged := q.2.layers.foldl
            (fun (a : Source) r =>
              let al := (lookupKey r.1 a.layers).getD Layer.defaultVal
              let al2 :=
                { glyphs := extendGlyphs al.glyphs r.2.glyphs
                  color_marks := extendMapSorted al.color_marks r.2.color_marks
                  default := r.2.default }
              { layers := insertSortedBy Prod.fst (r.1, al2) a.layers })
            a0
          insertRep q.1 merged asm)
        asm).map Prod.fst) ↔
      n ∈ asm.map Prod.fst ∨ n ∈ sources.map Prod.fst := by
  induction sources generalizing asm with
  | nil => simp
  | cons q rest ih =>
    simp only [List.foldl_cons]
    rw [ih]
    rw [mem_keys_insertRep]
    simp
    tauto

theorem mem_keys_assembleSources (fg : Fontgarden) (source_names : List String)
    (n : String) :
    (n ∈ (assembleSources fg source_names).map Prod.fst) ↔
      (source_names.contains n = true ∧
        ∃ p ∈ fg.sets, n ∈ p.2.sources.map Prod.fst) := by
  unfold assembleSources
  suffices h : ∀ (acc : List (String × Source)),
      (n ∈ (fg.sets.foldl
        (fun asm p =>
          (p.2.sources.filter (fun q => source_names.contains q.1)).foldl
            (fun asm q =>
              let a0 := (lookupKey q.1 asm).getD Source.defaultVal
              let merged := q.2.layers.foldl
                (fun (a : Source) r =>
                  let al := (lookupKey r.1 a.layers).getD Layer.defaultVal
                  let al2 :=
                    { glyphs := extendGlyphs al.glyphs r.2.glyphs
                      color_marks := extendMapSorted al.color_marks r.2.color_marks
                      default := r.2.default }
                  { layers := insertSortedBy Prod.fst (r.1, al2) a.layers })
                a0
              insertRep q.1 merged asm)
            asm)
        acc).map Prod.fst) ↔
      (n ∈ acc.map Prod.fst ∨
        (source_names.contains n = true ∧ ∃ p ∈ fg.sets, n ∈ p.2.sources.map Prod.fst)) by
    rw [h []]
    simp
  induction fg.sets with
  | nil => intro acc; simp
  | cons p rest ih =>
    intro acc
    simp only [List.foldl_cons]
    rw [ih]
    rw [mem_keys_assemble_inner]
    constructor
    · rintro (⟨hacc | hfilt⟩ | hrest)
      · exact Or.inl hacc
      · rcases List.mem_map.1 hfilt with ⟨q, hq, rfl⟩
        rcases List.mem_filter.1 hq with ⟨hqsrc, hqname⟩
        exact Or.inr ⟨hqname, p, List.mem_cons_self p rest,
          List.mem_map_of_mem Prod.fst hqsrc⟩
      · rcases hrest with ⟨hname, p', hp', hmem⟩
        exact Or.inr ⟨hname, p', List.mem_cons_of_mem _ hp', hmem⟩
    · rintro (hacc | ⟨hname, p', hp', hmem⟩)
      · exact Or.inl (Or.inl hacc)
      · rcases List.mem_cons.1 hp' with rfl | hp''
        · rcases List.mem_map.1 hmem with ⟨q, hq, rfl⟩
          refine Or.inl (Or.inr ?_)
          exact List.mem_map_of_mem Prod.fst (List.mem_filter.2 ⟨hq, hname⟩)
        · exact Or.inr ⟨hname, p', hp'', hmem⟩

/-- Fixture for the C5 counterexample: one set with one source `s` whose only
layer holds the single glyph `x`. -/
def c5Fg : Fontgarden :=
  { sets := [("A",
      { glyph_data := []
        sources := [("s",
          { layers := [("fg",
              { glyphs := [{ name := "x", components := [], codepoints := [],
                             markColor := none, payload := 0 }]
                color_marks := []
                default := true })] })] })] }

/-- **C5, counterexample.**  Exporting the glyph set `{y}` from source `s`
(which only has `x`) prunes everything, yet the result still contains an
entry for `s` — an empty output document — because `export` creates
`ufos.entry(source_name).or_default()` before checking for surviving glyphs.
This contradicts the claim that such sources are omitted. -/
theorem c5_counterexample :
    c5Fg.export ["y"] ["s"] = .ok [("s", OutFont.defaultVal)] ∧
    OutFont.defaultVal.defaultLayer.glyphs = [] ∧
    OutFont.defaultVal.otherLayers = [] :=
  ⟨by decide, rfl, rfl⟩

/-- **C5, amended.**  `export` always succeeds and its result has exactly one
entry per requested source name that occurs in at least one set — including
sources whose glyphs were all pruned away, which yield empty documents (only
layers with surviving glyphs are materialized). -/
theorem c5_amended_export_keys (fg : Fontgarden)
    (glyph_names source_names : List String) :
    ∃ m, fg.export glyph_names source_names = .ok m ∧
      ∀ n, n ∈ m.map Prod.fst ↔
        (source_names.contains n = true ∧
          ∃ p ∈ fg.sets, n ∈ p.2.sources.map Prod.fst) := by
  refine ⟨_, rfl, ?_⟩
  intro n
  rw [mem_keys_emit_fold]
  have hmap :
      ((assembleSources fg source_names).map
          (fun p => (p.1, pruneSource
            (exportExpand (assembleSources fg source_names) glyph_names) p.2))).map
        Prod.fst =
      (assembleSources fg source_names).map Prod.fst := by
    rw [List.map_map]
    rfl
  rw [hmap]
  simp only [List.map_nil, List.not_mem_nil, false_or]
  exact mem_keys_assembleSources fg source_names n

/-! ## Duplicate-coverage detection on load (C7) -/

theorem loadFgSets_firstOverlap :
    ∀ (entries : List (String × SetDir)) (L : List (String × Set))
      (sets : List (String × Set)) (seen : List String),
      loadSetsPlain entries = some L →
      (match firstOverlap L seen with
        | none => ∃ fg, loadFgSets entries sets seen = .ok fg
        | some (s, ov) =>
          loadFgSets entries sets seen = .error (.duplicateGlyphs s ov)) := by
  intro entries
  induction entries with
  | nil =>
    intro L sets seen hL
    cases hL
    exact ⟨_, rfl⟩
  | cons e rest ih =>
    intro L sets seen hL
    obtain ⟨f, sd⟩ := e
    rw [loadSetsPlain] at hL
    cases hstrip : strStrip "set." f with
    | none =>
      simp only [hstrip] at hL
      have h2 := ih L sets seen hL
      rw [loadFgSets, hstrip]
      exact h2
    | some n =>
      simp only [hstrip] at hL
      by_cases hn : n = ""
      · rw [if_pos hn] at hL
        cases hL
      · rw [if_neg hn] at hL
        cases hset : Set.fromPath sd with
        | error e2 =>
          simp only [hset] at hL
          cases hL
        | ok st =>
          simp only [hset] at hL
          cases hrest : loadSetsPlain rest with
          | none =>
            rw [hrest] at hL
            cases hL
          | some L2 =>
            rw [hrest,
              show Option.map (fun L => (n, st) :: L) (some L2) =
                some ((n, st) :: L2) from rfl] at hL
            cases hL
            rw [loadFgSets]
            simp only [hstrip]
            rw [if_neg hn]
            simp only [hset]
            rw [firstOverlap]
            by_cases hov :
                (st.glyphCoverage.filter (fun g => seen.contains g)).isEmpty = true
            · simp only [if_pos hov]
              exact ih L2 _ _ hrest
            · simp only [if_neg hov]

/-- **C7.**  `from_path` fails with `DuplicateGlyphs`, carrying the newly
loaded set's name and the overlapping glyph names, precisely at the first
set (in directory order) whose coverage meets the union of the coverages
loaded before it; when all coverages are disjoint no such error is raised
and the load succeeds. -/
theorem c7_duplicate_glyphs_on_load (d : FgDir) (L : List (String × Set))
    (hL : loadSetsPlain d.entries = some L) :
    (firstOverlap L [] = none → ∃ fg, Fontgarden.fromPath d = .ok fg) ∧
    (∀ s ov, firstOverlap L [] = some (s, ov) →
      Fontgarden.fromPath d = .error (.duplicateGlyphs s ov)) ∧
    (∀ s ov, Fontgarden.fromPath d = .error (.duplicateGlyphs s ov) →
      firstOverlap L [] = some (s, ov)) := by
  have h := loadFgSets_firstOverlap d.entries L [] [] hL
  refine ⟨?_, ?_, ?_⟩
  · intro hnone
    rw [hnone] at h
    exact h
  · intro s ov hsome
    rw [hsome] at h
    exact h
  · intro s ov herr
    cases hfo : firstOverlap L [] with
    | none =>
      rw [hfo] at h
      obtain ⟨fg, hfg⟩ := h
      rw [Fontgarden.fromPath] at herr
      rw [hfg] at herr
      cases herr
    | some p =>
      obtain ⟨s2, ov2⟩ := p
      rw [hfo] at h
      rw [Fontgarden.fromPath] at herr
      rw [h] at herr
      cases herr
      rfl

/-- Fixtures for the C7 witness: two sets whose metadata both cover the
glyph `a`. -/
def c7SetDir : SetDir :=
  { glyphData := some [{ name := "a", postscript := none, codepointsCell := none,
                         categoryCell := none, exportCell := some true }]
    sources := [] }

def c7Dir : FgDir := { entries := [("set.A", c7SetDir), ("set.B", c7SetDir)] }

/-- Witness for C7: on a tree whose two sets both cover `a`, load fails with
`DuplicateGlyphs` naming the second set and the overlap `[a]`; the theorem's
hypothesis is discharged at this concrete directory. -/
theorem c7_duplicate_glyphs_on_load_witness :
    Fontgarden.fromPath c7Dir = .error (.duplicateGlyphs "B" ["a"]) :=
  (c7_duplicate_glyphs_on_load c7Dir _ rfl).2.1 "B" ["a"] (by decide)

/-! ## Container lemmas for the import engine -/

theorem mem_map_key_insertSortedBy (key : α → String) (v : α) (m : List α)
    (n : String) :
    n ∈ (insertSortedBy key v m).map key ↔ n = key v ∨ n ∈ m.map key := by
  induction m with
  | nil => simp [insertSortedBy]
  | cons y rest ih =>
    rw [insertSortedBy]
    by_cases h1 : key v = key y
    · rw [if_pos h1]
      simp only [List.map_cons, List.mem_cons]
      rw [h1]
      tauto
    · rw [if_neg h1]
      by_cases h2 : strLtB (key v) (key y) = true
      · rw [if_pos h2]
        simp only [List.map_cons, List.mem_cons]
      · rw [if_neg h2]
        simp only [List.map_cons, List.mem_cons] at ih ⊢
        rw [ih]
        tauto

theorem mem_insertSortedBy (key : α → String) (v x : α) (m : List α)
    (h : x ∈ insertSortedBy key v m) : x = v ∨ x ∈ m := by
  induction m with
  | nil => simpa [insertSortedBy] using h
  | cons y rest ih =>
    rw [insertSortedBy] at h
    by_cases h1 : key v = key y
    · rw [if_pos h1] at h
      rcases List.mem_cons.1 h with rfl | h'
      · exact Or.inl rfl
      · exact Or.inr (List.mem_cons_of_mem _ h')
    · rw [if_neg h1] at h
      by_cases h2 : strLtB (key v) (key y) = true
      · rw [if_pos h2] at h
        rcases List.mem_cons.1 h with rfl | h'
        · exact Or.inl rfl
        · exact Or.inr h'
      · rw [if_neg h2] at h
        rcases List.mem_cons.1 h with rfl | h'
        · exact Or.inr (List.mem_cons_self _ _)
        · rcases ih h' with h'' | h''
          · exact Or.inl h''
          · exact Or.inr (List.mem_cons_of_mem _ h'')

theorem self_mem_insertSortedBy (key : α → String) (v : α) (m : List α) :
    v ∈ insertSortedBy key v m := by
  induction m with
  | nil => exact List.mem_singleton.2 rfl
  | cons y rest ih =>
    rw [insertSortedBy]
    by_cases h1 : key v = key y
    · rw [if_pos h1]
      exact List.mem_cons_self _ _
    · rw [if_neg h1]
      by_cases h2 : strLtB (key v) (key y) = true
      · rw [if_pos h2]
        exact List.mem_cons_self _ _
      · rw [if_neg h2]
        exact List.mem_cons_of_mem _ ih

theorem mem_insertSortedBy_of_ne (key : α → String) (v x : α) (m : List α)
    (hx : x ∈ m) (hne : key x ≠ key v) : x ∈ insertSortedBy key v m := by
  induction m with
  | nil => cases hx
  | cons y rest ih =>
    rw [insertSortedBy]
    by_cases h1 : key v = key y
    · rw [if_pos h1]
      rcases List.mem_cons.1 hx with rfl | hx'
      · exact absurd (h1.symm) hne
      · exact List.mem_cons_of_mem _ hx'
    · rw [if_neg h1]
      by_cases h2 : strLtB (key v) (key y) = true
      · rw [if_pos h2]
        exact List.mem_cons_of_mem _ hx
      · rw [if_neg h2]
        rcases List.mem_cons.1 hx with rfl | hx'
        · exact List.mem_cons_self _ _
        · exact List.mem_cons_of_mem _ (ih hx')

theorem lookupKey_insertSortedBy_self (k : String) (v : β)
    (m : List (String × β)) :
    lookupKey k (insertSortedBy Prod.fst (k, v) m) = some v := by
  induction m with
  | nil => simp [insertSortedBy, lookupKey]
  | cons y rest ih =>
    rw [insertSortedBy]
    by_cases h1 : k = y.1
    · rw [if_pos h1]
      simp [lookupKey]
    · rw [if_neg h1]
      by_cases h2 : strLtB k y.1 = true
      · rw [if_pos h2]
        simp [lookupKey]
      · rw [if_neg h2]
        unfold lookupKey at ih ⊢
        rw [List.find?_cons_of_neg _ (by simp; exact fun h => absurd h.symm h1)]
        exact ih

theorem lookupKey_insertSortedBy_ne (k k2 : String) (v : β)
    (m : List (String × β)) (h : k ≠ k2) :
    lookupKey k (insertSortedBy Prod.fst (k2, v) m) = lookupKey k m := by
  induction m with
  | nil =>
    unfold lookupKey insertSortedBy
    rw [List.find?_cons_of_neg _ (by simp; exact fun hc => absurd hc.symm h)]
  | cons y rest ih =>
    rw [insertSortedBy]
    by_cases h1 : k2 = y.1
    · rw [if_pos h1]
      unfold lookupKey
      rw [List.find?_cons_of_neg _ (by simp; exact fun hc => absurd hc.symm h),
        List.find?_cons_of_neg _ (by simp; intro hc; rw [← h1] at hc; exact absurd hc.symm h)]
    · rw [if_neg h1]
      by_cases h2 : strLtB k2 y.1 = true
      · rw [if_pos h2]
        unfold lookupKey
        rw [List.find?_cons_of_neg _ (by simp; exact fun hc => absurd hc.symm h)]
      · rw [if_neg h2]
        unfold lookupKey at ih ⊢
        cases hy : (y.1 == k) with
        | true =>
          rw [List.find?_cons_of_pos _ (by simpa using hy),
            List.find?_cons_of_pos _ (by simpa using hy)]
        | false =>
          rw [List.find?_cons_of_neg _ (by simp at hy ⊢; exact hy),
            List.find?_cons_of_neg _ (by simp at hy ⊢; exact hy)]
          exact ih

theorem lookupKey_insertRep_self (k : String) (v : β) (m : List (String × β)) :
    lookupKey k (insertRep k v m) = some v := by
  induction m with
  | nil => simp [insertRep, lookupKey]
  | cons y rest ih =>
    rw [insertRep]
    by_cases h1 : k = y.1
    · rw [if_pos h1]
      simp [lookupKey]
    · rw [if_neg h1]
      unfold lookupKey at ih ⊢
      rw [List.find?_cons_of_neg _ (by simp; exact fun h => absurd h.symm h1)]
      exact ih

theorem lookupKey_insertRep_ne (k k2 : String) (v : β) (m : List (String × β))
    (h : k ≠ k2) : lookupKey k (insertRep k2 v m) = lookupKey k m := by
  induction m with
  | nil =>
    unfold lookupKey insertRep
    rw [List.find?_cons_of_neg _ (by simp; exact fun hc => absurd hc.symm h)]
  | cons y rest ih =>
    rw [insertRep]
    by_cases h1 : k2 = y.1
    · rw [if_pos h1]
      unfold lookupKey
      rw [List.find?_cons_of_neg _ (by simp; exact fun hc => absurd hc.symm h),
        List.find?_cons_of_neg _ (by simp; intro hc; rw [← h1] at hc; exact absurd hc.symm h)]
    · rw [if_neg h1]
      unfold lookupKey at ih ⊢
      cases hy : (y.1 == k) with
      | true =>
        rw [List.find?_cons_of_pos _ (by simpa using hy),
          List.find?_cons_of_pos _ (by simpa using hy)]
      | false =>
        rw [List.find?_cons_of_neg _ (by simp at hy ⊢; exact hy),
          List.find?_cons_of_neg _ (by simp at hy ⊢; exact hy)]
        exact ih

theorem lookup_some_mem (k : String) (v : β) (m : List (String × β))
    (h : lookupKey k m = some v) : (k, v) ∈ m := by
  unfold lookupKey at h
  cases hf : m.find? (fun p => p.1 == k) with
  | none => rw [hf] at h; cases h
  | some p =>
    rw [hf, show Option.map Prod.snd (some p) = some p.2 from rfl] at h
    cases h
    have hp := List.find?_some hf
    have hmem := List.mem_of_find?_eq_some hf
    simp only [beq_iff_eq] at hp
    rw [← hp]
    simpa using hmem

theorem lookup_some_mem_keys (k : String) (v : β) (m : List (String × β))
    (h : lookupKey k m = some v) : k ∈ m.map Prod.fst := by
  have := lookup_some_mem k v m h
  exact List.mem_map.2 ⟨(k, v), this, rfl⟩

theorem lookup_isSome_of_mem_keys (k : String) (m : List (String × β))
    (h : k ∈ m.map Prod.fst) : (lookupKey k m).isSome = true := by
  induction m with
  | nil => cases h
  | cons y rest ih =>
    unfold lookupKey
    by_cases h1 : y.1 = k
    · rw [List.find?_cons_of_pos _ (by simpa using h1)]
      rfl
    · rw [List.find?_cons_of_neg _ (by simpa using h1)]
      have h2 : k ∈ rest.map Prod.fst := by
        rcases List.mem_map.1 h with ⟨q, hq, rfl⟩
        rcases List.mem_cons.1 hq with rfl | hq'
        · exact absurd rfl h1
        · exact List.mem_map.2 ⟨q, hq', rfl⟩
      unfold lookupKey at ih
      exact ih h2

theorem sortedByB_cons_of (key : α → String) (x : α) (l : List α)
    (hl : sortedByB key l = true) (hall : ∀ z ∈ l, strLtB (key x) (key z) = true) :
    sortedByB key (x :: l) = true := by
  cases l with
  | nil => rfl
  | cons y rest =>
    rw [sortedByB, Bool.and_eq_true]
    exact ⟨hall y (List.mem_cons_self y rest), hl⟩

theorem keyLtB_total : ∀ a b : List Char,
    a = b ∨ keyLtB a b = true ∨ keyLtB b a = true
  | [], [] => Or.inl rfl
  | [], _ :: _ => Or.inr (Or.inl rfl)
  | _ :: _, [] => Or.inr (Or.inr rfl)
  | a :: as, b :: bs => by
    by_cases hab : a.toNat < b.toNat
    · refine Or.inr (Or.inl ?_)
      rw [keyLtB, if_pos hab]
    · by_cases hba : b.toNat < a.toNat
      · refine Or.inr (Or.inr ?_)
        rw [keyLtB, if_pos hba]
      · have hn : a.toNat = b.toNat := by omega
        have hc : a = b := Char.ext (UInt32.ext hn)
        subst hc
        rcases keyLtB_total as bs with h | h | h
        · exact Or.inl (by rw [h])
        · refine Or.inr (Or.inl ?_)
          rw [keyLtB, if_neg hab, if_neg hab]
          exact h
        · refine Or.inr (Or.inr ?_)
          rw [keyLtB, if_neg hab, if_neg hab]
          exact h

theorem strLtB_total (a b : String) (h : a ≠ b) :
    strLtB a b = true ∨ strLtB b a = true := by
  rcases keyLtB_total a.data b.data with he | hlt | hgt
  · exfalso
    apply h
    cases a
    cases b
    exact congrArg String.mk (by simpa using he)
  · exact Or.inl hlt
  · exact Or.inr hgt

theorem insertSortedBy_sorted (key : α → String) (v : α) (m : List α)
    (hs : sortedByB key m = true) :
    sortedByB key (insertSortedBy key v m) = true := by
  induction m with
  | nil => rfl
  | cons y rest ih =>
    obtain ⟨hrest, hall⟩ := sortedByB_cons key y rest hs
    rw [insertSortedBy]
    by_cases h1 : key v = key y
    · rw [if_pos h1]
      refine sortedByB_cons_of key v rest hrest ?_
      intro z hz
      rw [h1]
      exact hall z hz
    · rw [if_neg h1]
      by_cases h2 : strLtB (key v) (key y) = true
      · rw [if_pos h2]
        refine sortedByB_cons_of key v (y :: rest) hs ?_
        intro z hz
        rcases List.mem_cons.1 hz with rfl | hz'
        · exact h2
        · exact strLtB_trans _ _ _ h2 (hall z hz')
      · rw [if_neg h2]
        refine sortedByB_cons_of key y (insertSortedBy key v rest) (ih hrest) ?_
        intro z hz
        rcases mem_insertSortedBy key v z rest hz with rfl | hz'
        · rcases strLtB_total (key z) (key y) (h1) with hlt | hgt
          · exact absurd hlt h2
          · exact hgt
        · exact hall z hz'

theorem lookup_entry_of_sorted (m : List (String × β)) (k : String) (v : β)
    (hs : sortedByB Prod.fst m = true) (hmem : (k, v) ∈ m) :
    lookupKey k m = some v := by
  induction m with
  | nil => cases hmem
  | cons y rest ih =>
    obtain ⟨hrest, hall⟩ := sortedByB_cons Prod.fst y rest hs
    rcases List.mem_cons.1 hmem with rfl | hmem'
    · unfold lookupKey
      rw [List.find?_cons_of_pos _ (by simp)]
      rfl
    · have hky : strLtB y.1 k = true := hall (k, v) hmem'
      have hne : y.1 ≠ k := by
        intro he
        rw [he] at hky
        rw [strLtB_irrefl] at hky
        cases hky
      unfold lookupKey at ih ⊢
      rw [List.find?_cons_of_neg _ (by simpa using hne)]
      exact ih hrest hmem'

theorem filterlen_insertSortedBy_new (key : α → String) (v : α) (m : List α)
    (pred : α → Bool) (h : key v ∉ m.map key) :
    ((insertSortedBy key v m).filter pred).length =
      (m.filter pred).length + (if pred v then 1 else 0) := by
  induction m with
  | nil =>
    rw [show insertSortedBy key v [] = [v] from rfl]
    cases hp : pred v <;> simp [List.filter, hp]
  | cons y rest ih =>
    have hne : key v ≠ key y := by
      intro he
      exact h (by simp only [List.map_cons, List.mem_cons]; exact Or.inl he)
    have hrest : key v ∉ rest.map key := by
      intro hmem
      exact h (by simp only [List.map_cons, List.mem_cons]; exact Or.inr hmem)
    rw [insertSortedBy, if_neg hne]
    by_cases h2 : strLtB (key v) (key y) = true
    · rw [if_pos h2]
      cases hpv : pred v <;> cases hpy : pred y <;>
        simp [List.filter, hpv, hpy] <;> omega
    · rw [if_neg h2]
      cases hpy : pred y <;> simp [List.filter, hpy, ih hrest] <;>
        cases hpv : pred v <;> simp [hpv] <;> omega

theorem filterlen_insertSortedBy_replace (key : α → String) (v : α) (m : List α)
    (pred : α → Bool) (hs : sortedByB key m = true) (y : α) (hy : y ∈ m)
    (hkey : key y = key v) (hpred : pred y = pred v) :
    ((insertSortedBy key v m).filter pred).length = (m.filter pred).length := by
  induction m with
  | nil => cases hy
  | cons z rest ih =>
    obtain ⟨hrest, hall⟩ := sortedByB_cons key z rest hs
    rw [insertSortedBy]
    by_cases h1 : key v = key z
    · rw [if_pos h1]
      have hyz : y = z := by
        rcases List.mem_cons.1 hy with rfl | hy'
        · rfl
        · exfalso
          have := hall y hy'
          rw [hkey, h1] at this
          rw [strLtB_irrefl] at this
          cases this
      subst hyz
      cases hpv : pred v
      · have hpy : pred y = false := by rw [hpred, hpv]
        simp [List.filter, hpv, hpy]
      · have hpy : pred y = true := by rw [hpred, hpv]
        simp [List.filter, hpv, hpy]
    · rw [if_neg h1]
      have hyrest : y ∈ rest := by
        rcases List.mem_cons.1 hy with rfl | hy'
        · exact absurd (hkey.symm) h1
        · exact hy'
      by_cases h2 : strLtB (key v) (key z) = true
      · exfalso
        have := hall y hyrest
        rw [hkey] at this
        rw [strLtB_asymm _ _ this] at h2
        cases h2
      · rw [if_neg h2]
        cases hpz : pred z <;>
          simp [List.filter, hpz, ih hrest hyrest]

/-! ## Coverage and import-step lemmas -/

theorem mem_sourceGlyphNames (src : Source) (n : String) :
    n ∈ src.glyphNames ↔ ∃ q ∈ src.layers, n ∈ q.2.glyphNames := by
  unfold Source.glyphNames
  simp only [List.mem_flatten, List.mem_map]
  constructor
  · rintro ⟨l, ⟨q, hq, rfl⟩, hn⟩
    exact ⟨q, hq, hn⟩
  · rintro ⟨q, hq, hn⟩
    exact ⟨q.2.glyphNames, ⟨q, hq, rfl⟩, hn⟩

theorem mem_glyphCoverage (st : Set) (n : String) :
    n ∈ st.glyphCoverage ↔
      n ∈ st.glyph_data.map Prod.fst ∨ ∃ q ∈ st.sources, n ∈ q.2.glyphNames := by
  unfold Set.glyphCoverage
  simp only [List.mem_append, List.mem_flatten, List.mem_map]
  constructor
  · rintro (h | ⟨l, ⟨q, hq, rfl⟩, hn⟩)
    · exact Or.inl h
    · exact Or.inr ⟨q, hq, hn⟩
  · rintro (h | ⟨q, hq, hn⟩)
    · exact Or.inl h
    · exact Or.inr ⟨q.2.glyphNames, ⟨q, hq, rfl⟩, hn⟩

theorem mem_layer_glyphNames (l : Layer) (n : String) :
    n ∈ l.glyphNames ↔ n ∈ l.glyphs.map glyphKey := Iff.rfl

theorem fromUfoLayer_glyphs_sub (l : UfoLayer) (gn : List String) :
    ∀ x ∈ (Layer.fromUfoLayer l gn).glyphs, gn.contains x.name = true := by
  unfold Layer.fromUfoLayer
  suffices h : ∀ (gs : List Glyph) (acc : List Glyph × List (String × String)),
      (∀ x ∈ acc.1, gn.contains x.name = true) →
      ∀ x ∈ (gs.foldl
        (fun (acc : List Glyph × List (String × String)) g =>
          if gn.contains g.name then
            let cm := match g.markColor with
              | some c => insertSortedBy Prod.fst (g.name, c) acc.2
              | none => acc.2
            (insertGlyph { g with markColor := none } acc.1, cm)
          else acc) acc).1,
        gn.contains x.name = true by
    exact h l.glyphs ([], []) (by intro x hx; cases hx)
  intro gs
  induction gs with
  | nil => intro acc hacc x hx; exact hacc x hx
  | cons g rest ih =>
    intro acc hacc x hx
    simp only [List.foldl_cons] at hx
    by_cases hg : gn.contains g.name = true
    · rw [if_pos hg] at hx
      refine ih _ ?_ x hx
      intro z hz
      rcases mem_insertSortedBy glyphKey _ z acc.1 hz with rfl | hz'
      · exact hg
      · exact hacc z hz'
    · rw [if_neg hg] at hx
      exact ih acc hacc x hx

theorem fromUfoLayer_names_sub (l : UfoLayer) (gn : List String) :
    ∀ n ∈ (Layer.fromUfoLayer l gn).glyphNames, gn.contains n = true := by
  intro n hn
  rcases List.mem_map.1 hn with ⟨g, hg, rfl⟩
  exact fromUfoLayer_glyphs_sub l gn g hg

theorem mem_names_extendGlyphs (d s : List Glyph) (n : String) :
    n ∈ (extendGlyphs d s).map glyphKey ↔
      n ∈ d.map glyphKey ∨ n ∈ s.map glyphKey := by
  induction s generalizing d with
  | nil => simp [extendGlyphs]
  | cons g rest ih =>
    rw [show extendGlyphs d (g :: rest) = extendGlyphs (insertGlyph g d) rest from rfl]
    rw [ih]
    unfold insertGlyph
    rw [mem_map_key_insertSortedBy]
    simp only [List.map_cons, List.mem_cons]
    tauto

theorem mergeFrom_names (dst our : Layer) (n : String) :
    n ∈ (dst.mergeFrom our).glyphNames ↔
      n ∈ dst.glyphNames ∨ n ∈ our.glyphNames := by
  unfold Layer.mergeFrom Layer.glyphNames
  exact mem_names_extendGlyphs dst.glyphs our.glyphs n

theorem updateFirstDefault_entries (f : Layer → Layer)
    (m : List (String × Layer)) :
    ∀ q ∈ updateFirstDefault f m, q ∈ m ∨ ∃ q0 ∈ m, q = (q0.1, f q0.2) := by
  induction m with
  | nil => intro q hq; cases hq
  | cons y rest ih =>
    intro q hq
    rw [updateFirstDefault] at hq
    by_cases hd : y.2.default = true
    · rw [if_pos hd] at hq
      rcases List.mem_cons.1 hq with rfl | hq'
      · exact Or.inr ⟨y, List.mem_cons_self y rest, rfl⟩
      · exact Or.inl (List.mem_cons_of_mem _ hq')
    · rw [if_neg hd] at hq
      rcases List.mem_cons.1 hq with rfl | hq'
      · exact Or.inl (List.mem_cons_self _ _)
      · rcases ih q hq' with h | ⟨q0, hq0, rfl⟩
        · exact Or.inl (List.mem_cons_of_mem _ h)
        · exact Or.inr ⟨q0, List.mem_cons_of_mem _ hq0, rfl⟩

theorem updateFirstDefault_covers (f : Layer → Layer)
    (m : List (String × Layer)) :
    ∀ q ∈ m, q ∈ updateFirstDefault f m ∨ (q.1, f q.2) ∈ updateFirstDefault f m := by
  induction m with
  | nil => intro q hq; cases hq
  | cons y rest ih =>
    intro q hq
    rw [updateFirstDefault]
    by_cases hd : y.2.default = true
    · rw [if_pos hd]
      rcases List.mem_cons.1 hq with rfl | hq'
      · exact Or.inr (List.mem_cons_self _ _)
      · exact Or.inl (List.mem_cons_of_mem _ hq')
    · rw [if_neg hd]
      rcases List.mem_cons.1 hq with rfl | hq'
      · exact Or.inl (List.mem_cons_self _ _)
      · rcases ih q hq' with h | h
        · exact Or.inl (List.mem_cons_of_mem _ h)
        · exact Or.inr (List.mem_cons_of_mem _ h)

theorem updateFirstDefault_keys (f : Layer → Layer) (m : List (String × Layer)) :
    (updateFirstDefault f m).map Prod.fst = m.map Prod.fst := by
  induction m with
  | nil => rfl
  | cons y rest ih =>
    rw [updateFirstDefault]
    by_cases hd : y.2.default = true
    · rw [if_pos hd]
      rfl
    · rw [if_neg hd]
      simp only [List.map_cons]
      rw [ih]

theorem sortedByB_eq_keys (l1 l2 : List (String × β))
    (h : l1.map Prod.fst = l2.map Prod.fst) :
    sortedByB Prod.fst l1 = sortedByB Prod.fst l2 := by
  induction l1 generalizing l2 with
  | nil =>
    cases l2 with
    | nil => rfl
    | cons z t => cases h
  | cons y rest ih =>
    cases l2 with
    | nil => cases h
    | cons z t =>
      simp only [List.map_cons, List.cons.injEq] at h
      obtain ⟨h1, h2⟩ := h
      cases rest with
      | nil =>
        cases t with
        | nil => rfl
        | cons => cases h2
      | cons r rrest =>
        cases t with
        | nil => cases h2
        | cons s srest =>
          simp only [List.map_cons, List.cons.injEq] at h2
          rw [sortedByB, sortedByB, h1, h2.1]
          rw [ih (s :: srest) (by simp only [List.map_cons]; rw [h2.1, h2.2])]

theorem updateDefaultLayer_names_upper (src : Source) (our : Layer) (n : String)
    (h : n ∈ (src.updateDefaultLayer (fun dst => dst.mergeFrom our)).glyphNames) :
    n ∈ src.glyphNames ∨ n ∈ our.glyphNames := by
  rcases (mem_sourceGlyphNames _ n).1 h with ⟨q, hq, hn⟩
  rcases updateFirstDefault_entries _ src.layers q hq with hq' | ⟨q0, hq0, rfl⟩
  · exact Or.inl ((mem_sourceGlyphNames src n).2 ⟨q, hq', hn⟩)
  · rcases (mergeFrom_names q0.2 our n).1 hn with h1 | h1
    · exact Or.inl ((mem_sourceGlyphNames src n).2 ⟨q0, hq0, h1⟩)
    · exact Or.inr h1

theorem updateDefaultLayer_names_lower (src : Source) (our : Layer) (n : String)
    (h : n ∈ src.glyphNames) :
    n ∈ (src.updateDefaultLayer (fun dst => dst.mergeFrom our)).glyphNames := by
  rcases (mem_sourceGlyphNames src n).1 h with ⟨q, hq, hn⟩
  rcases updateFirstDefault_covers (fun dst => dst.mergeFrom our) src.layers q hq with
    h' | h'
  · exact (mem_sourceGlyphNames _ n).2 ⟨q, h', hn⟩
  · exact (mem_sourceGlyphNames _ n).2
      ⟨(q.1, q.2.mergeFrom our), h', (mergeFrom_names q.2 our n).2 (Or.inl hn)⟩

theorem getOrCreateUpdate_names_upper (src : Source) (lname : String)
    (our : Layer) (n : String)
    (h : n ∈ (src.getOrCreateUpdate lname (fun dst => dst.mergeFrom our)).glyphNames) :
    n ∈ src.glyphNames ∨ n ∈ our.glyphNames := by
  unfold Source.getOrCreateUpdate at h
  cases hl : lookupKey lname src.layers with
  | some l =>
    simp only [hl] at h
    rcases (mem_sourceGlyphNames _ n).1 h with ⟨q, hq, hn⟩
    rcases mem_insertSortedBy Prod.fst _ q src.layers hq with rfl | hq'
    · rcases (mergeFrom_names l our n).1 hn with h1 | h1
      · exact Or.inl ((mem_sourceGlyphNames src n).2
          ⟨(lname, l), lookup_some_mem lname l src.layers hl, h1⟩)
      · exact Or.inr h1
    · exact Or.inl ((mem_sourceGlyphNames src n).2 ⟨q, hq', hn⟩)
  | none =>
    simp only [hl] at h
    rcases (mem_sourceGlyphNames _ n).1 h with ⟨q, hq, hn⟩
    rcases mem_insertSortedBy Prod.fst _ q src.layers hq with rfl | hq'
    · rcases (mergeFrom_names Layer.defaultVal our n).1 hn with h1 | h1
      · cases h1
      · exact Or.inr h1
    · exact Or.inl ((mem_sourceGlyphNames src n).2 ⟨q, hq', hn⟩)

theorem getOrCreateUpdate_names_lower (src : Source) (lname : String)
    (our : Layer) (n : String) (hs : src.wfSorted = true)
    (h : n ∈ src.glyphNames) :
    n ∈ (src.getOrCreateUpdate lname (fun dst => dst.mergeFrom our)).glyphNames := by
  rcases (mem_sourceGlyphNames src n).1 h with ⟨q, hq, hn⟩
  unfold Source.getOrCreateUpdate
  by_cases hkey : q.1 = lname
  · have hlook : lookupKey lname src.layers = some q.2 := by
      rw [← hkey]
      exact lookup_entry_of_sorted src.layers q.1 q.2 hs (by simpa using hq)
    rw [hlook]
    refine (mem_sourceGlyphNames _ n).2 ⟨(lname, q.2.mergeFrom our), ?_, ?_⟩
    · exact self_mem_insertSortedBy Prod.fst _ _
    · exact (mergeFrom_names q.2 our n).2 (Or.inl hn)
  · cases hl : lookupKey lname src.layers with
    | some l =>
      refine (mem_sourceGlyphNames _ n).2 ⟨q, ?_, hn⟩
      exact mem_insertSortedBy_of_ne Prod.fst _ q src.layers hq (by simpa using hkey)
    | none =>
      refine (mem_sourceGlyphNames _ n).2 ⟨q, ?_, hn⟩
      exact mem_insertSortedBy_of_ne Prod.fst _ q src.layers hq (by simpa using hkey)

theorem mergeFrom_default (dst our : Layer) :
    (dst.mergeFrom our).default = dst.default := rfl

theorem countDefault_updateFirstDefault (f : Layer → Layer)
    (hf : ∀ l, (f l).default = l.default) (m : List (String × Layer)) :
    ((updateFirstDefault f m).filter (fun p => p.2.default)).length =
      (m.filter (fun p => p.2.default)).length := by
  induction m with
  | nil => rfl
  | cons y rest ih =>
    rw [updateFirstDefault]
    by_cases hd : y.2.default = true
    · rw [if_pos hd]
      have h1 : ((y.1, f y.2) : String × Layer).2.default = true := by
        show (f y.2).default = true
        rw [hf y.2]
        exact hd
      simp [List.filter_cons, hf y.2, hd]
    · rw [if_neg hd]
      have hd' : y.2.default = false := by
        cases h : y.2.default
        · rfl
        · exact absurd h hd
      simp [List.filter_cons, hd', ih]

theorem countDefaultLayers_updateDefaultLayer (src : Source) (our : Layer) :
    countDefaultLayers (src.updateDefaultLayer (fun dst => dst.mergeFrom our)) =
      countDefaultLayers src :=
  countDefault_updateFirstDefault (fun dst => dst.mergeFrom our) (fun _ => rfl)
    src.layers

theorem lookup_none_not_mem_keys (k : String) (m : List (String × β))
    (h : lookupKey k m = none) : k ∉ m.map Prod.fst := by
  intro hmem
  have h2 := lookup_isSome_of_mem_keys k m hmem
  rw [h] at h2
  cases h2

theorem countDefaultLayers_getOrCreateUpdate (src : Source) (lname : String)
    (our : Layer) (hs : src.wfSorted = true) :
    countDefaultLayers (src.getOrCreateUpdate lname (fun dst => dst.mergeFrom our)) =
      countDefaultLayers src := by
  unfold Source.getOrCreateUpdate
  cases hl : lookupKey lname src.layers with
  | some l =>
    show ((insertSortedBy Prod.fst (lname, l.mergeFrom our) src.layers).filter
        (fun p => p.2.default)).length = _
    exact filterlen_insertSortedBy_replace Prod.fst _ src.layers _ hs (lname, l)
      (lookup_some_mem lname l src.layers hl) rfl rfl
  | none =>
    show ((insertSortedBy Prod.fst (lname, Layer.defaultVal.mergeFrom our)
        src.layers).filter (fun p => p.2.default)).length = _
    rw [filterlen_insertSortedBy_new Prod.fst _ src.layers _
      (lookup_none_not_mem_keys lname src.layers hl)]
    rfl

theorem wfSorted_updateDefaultLayer (src : Source) (f : Layer → Layer)
    (hs : src.wfSorted = true) : (src.updateDefaultLayer f).wfSorted = true := by
  show sortedByB Prod.fst (updateFirstDefault f src.layers) = true
  rw [sortedByB_eq_keys _ src.layers (updateFirstDefault_keys f src.layers)]
  exact hs

theorem wfSorted_getOrCreateUpdate (src : Source) (lname : String) (f : Layer → Layer)
    (hs : src.wfSorted = true) : (src.getOrCreateUpdate lname f).wfSorted = true := by
  unfold Source.getOrCreateUpdate
  cases hl : lookupKey lname src.layers with
  | some l => exact insertSortedBy_sorted Prod.fst _ src.layers hs
  | none => exact insertSortedBy_sorted Prod.fst _ src.layers hs

theorem importLayerStep_wf (font : UfoFont) (gn : List String) (l : UfoLayer)
    (src : Source) (hs : src.wfSorted = true) :
    (if (Layer.fromUfoLayer l gn).glyphs.isEmpty then src
     else if l = font.defaultLayer then
       src.updateDefaultLayer (fun dst => dst.mergeFrom (Layer.fromUfoLayer l gn))
     else src.getOrCreateUpdate l.name
       (fun dst => dst.mergeFrom (Layer.fromUfoLayer l gn))).wfSorted = true := by
  by_cases h1 : (Layer.fromUfoLayer l gn).glyphs.isEmpty = true
  · rw [if_pos h1]
    exact hs
  · rw [if_neg h1]
    by_cases h2 : l = font.defaultLayer
    · rw [if_pos h2]
      exact wfSorted_updateDefaultLayer src _ hs
    · rw [if_neg h2]
      exact wfSorted_getOrCreateUpdate src l.name _ hs

theorem importLayerStep_count (font : UfoFont) (gn : List String) (l : UfoLayer)
    (src : Source) (hs : src.wfSorted = true) (hc : countDefaultLayers src = 1) :
    countDefaultLayers
      (if (Layer.fromUfoLayer l gn).glyphs.isEmpty then src
       else if l = font.defaultLayer then
         src.updateDefaultLayer (fun dst => dst.mergeFrom (Layer.fromUfoLayer l gn))
       else src.getOrCreateUpdate l.name
         (fun dst => dst.mergeFrom (Layer.fromUfoLayer l gn))) = 1 := by
  by_cases h1 : (Layer.fromUfoLayer l gn).glyphs.isEmpty = true
  · rw [if_pos h1]
    exact hc
  · rw [if_neg h1]
    by_cases h2 : l = font.defaultLayer
    · rw [if_pos h2]
      rw [countDefaultLayers_updateDefaultLayer]
      exact hc
    · rw [if_neg h2]
      rw [countDefaultLayers_getOrCreateUpdate src l.name _ hs]
      exact hc

theorem importLayerStep_names_upper (font : UfoFont) (gn : List String)
    (l : UfoLayer) (src : Source) (n : String)
    (h : n ∈ (if (Layer.fromUfoLayer l gn).glyphs.isEmpty then src
       else if l = font.defaultLayer then
         src.updateDefaultLayer (fun dst => dst.mergeFrom (Layer.fromUfoLayer l gn))
       else src.getOrCreateUpdate l.name
         (fun dst => dst.mergeFrom (Layer.fromUfoLayer l gn))).glyphNames) :
    n ∈ src.glyphNames ∨ n ∈ gn := by
  by_cases h1 : (Layer.fromUfoLayer l gn).glyphs.isEmpty = true
  · rw [if_pos h1] at h
    exact Or.inl h
  · rw [if_neg h1] at h
    by_cases h2 : l = font.defaultLayer
    · rw [if_pos h2] at h
      rcases updateDefaultLayer_names_upper src _ n h with h3 | h3
      · exact Or.inl h3
      · exact Or.inr (by simpa using fromUfoLayer_names_sub l gn n h3)
    · rw [if_neg h2] at h
      rcases getOrCreateUpdate_names_upper src l.name _ n h with h3 | h3
      · exact Or.inl h3
      · exact Or.inr (by simpa using fromUfoLayer_names_sub l gn n h3)

theorem importLayerStep_names_lower (font : UfoFont) (gn : List String)
    (l : UfoLayer) (src : Source) (n : String) (hs : src.wfSorted = true)
    (h : n ∈ src.glyphNames) :
    n ∈ (if (Layer.fromUfoLayer l gn).glyphs.isEmpty then src
       else if l = font.defaultLayer then
         src.updateDefaultLayer (fun dst => dst.mergeFrom (Layer.fromUfoLayer l gn))
       else src.getOrCreateUpdate l.name
         (fun dst => dst.mergeFrom (Layer.fromUfoLayer l gn))).glyphNames := by
  by_cases h1 : (Layer.fromUfoLayer l gn).glyphs.isEmpty = true
  · rw [if_pos h1]
    exact h
  · rw [if_neg h1]
    by_cases h2 : l = font.defaultLayer
    · rw [if_pos h2]
      exact updateDefaultLayer_names_lower src _ n h
    · rw [if_neg h2]
      exact getOrCreateUpdate_names_lower src l.name _ n hs h

theorem importLayersFold_wf (font : UfoFont) (gn : List String) :
    ∀ (ls : List UfoLayer) (src : Source), src.wfSorted = true →
      (ls.foldl (fun src l =>
        let our := Layer.fromUfoLayer l gn
        if our.glyphs.isEmpty then src
        else if l = font.defaultLayer then
          src.updateDefaultLayer (fun dst => dst.mergeFrom our)
        else src.getOrCreateUpdate l.name (fun dst => dst.mergeFrom our))
        src).wfSorted = true := by
  intro ls
  induction ls with
  | nil => intro src hs; exact hs
  | cons l rest ih =>
    intro src hs
    rw [List.foldl_cons]
    exact ih _ (importLayerStep_wf font gn l src hs)

theorem importLayersFold_count (font : UfoFont) (gn : List String) :
    ∀ (ls : List UfoLayer) (src : Source), src.wfSorted = true →
      countDefaultLayers src = 1 →
      countDefaultLayers (ls.foldl (fun src l =>
        let our := Layer.fromUfoLayer l gn
        if our.glyphs.isEmpty then src
        else if l = font.defaultLayer then
          src.updateDefaultLayer (fun dst => dst.mergeFrom our)
        else src.getOrCreateUpdate l.name (fun dst => dst.mergeFrom our))
        src) = 1 := by
  intro ls
  induction ls with
  | nil => intro src _ hc; exact hc
  | cons l rest ih =>
    intro src hs hc
    rw [List.foldl_cons]
    exact ih _ (importLayerStep_wf font gn l src hs)
      (importLayerStep_count font gn l src hs hc)

theorem importLayersFold_names_upper (font : UfoFont) (gn : List String) :
    ∀ (ls : List UfoLayer) (src : Source) (n : String),
      n ∈ (ls.foldl (fun src l =>
        let our := Layer.fromUfoLayer l gn
        if our.glyphs.isEmpty then src
        else if l = font.defaultLayer then
          src.updateDefaultLayer (fun dst => dst.mergeFrom our)
        else src.getOrCreateUpdate l.name (fun dst => dst.mergeFrom our))
        src).glyphNames →
      n ∈ src.glyphNames ∨ n ∈ gn := by
  intro ls
  induction ls with
  | nil => intro src n h; exact Or.inl h
  | cons l rest ih =>
    intro src n h
    rw [List.foldl_cons] at h
    rcases ih _ n h with h2 | h2
    · exact importLayerStep_names_upper font gn l src n h2
    · exact Or.inr h2

theorem importLayersFold_names_lower (font : UfoFont) (gn : List String) :
    ∀ (ls : List UfoLayer) (src : Source) (n : String), src.wfSorted = true →
      n ∈ src.glyphNames →
      n ∈ (ls.foldl (fun src l =>
        let our := Layer.fromUfoLayer l gn
        if our.glyphs.isEmpty then src
        else if l = font.defaultLayer then
          src.updateDefaultLayer (fun dst => dst.mergeFrom our)
        else src.getOrCreateUpdate l.name (fun dst => dst.mergeFrom our))
        src).glyphNames := by
  intro ls
  induction ls with
  | nil => intro src n _ h; exact h
  | cons l rest ih =>
    intro src n hs h
    rw [List.foldl_cons]
    exact ih _ n (importLayerStep_wf font gn l src hs)
      (importLayerStep_names_lower font gn l src n hs h)

theorem importLayersStep_wf (font : UfoFont) (gn : List String) (src : Source)
    (hs : src.wfSorted = true) : (importLayersStep font gn src).wfSorted = true :=
  importLayersFold_wf font gn font.iterLayers src hs

theorem importLayersStep_count (font : UfoFont) (gn : List String) (src : Source)
    (hs : src.wfSorted = true) (hc : countDefaultLayers src = 1) :
    countDefaultLayers (importLayersStep font gn src) = 1 :=
  importLayersFold_count font gn font.iterLayers src hs hc

theorem importLayersStep_names_upper (font : UfoFont) (gn : List String)
    (src : Source) (n : String) (h : n ∈ (importLayersStep font gn src).glyphNames) :
    n ∈ src.glyphNames ∨ n ∈ gn :=
  importLayersFold_names_upper font gn font.iterLayers src n h

theorem importLayersStep_names_lower (font : UfoFont) (gn : List String)
    (src : Source) (n : String) (hs : src.wfSorted = true)
    (h : n ∈ src.glyphNames) : n ∈ (importLayersStep font gn src).glyphNames :=
  importLayersFold_names_lower font gn font.iterLayers src n hs h

theorem mem_insertRep (k : String) (v : β) (m : List (String × β)) (x : String × β)
    (h : x ∈ insertRep k v m) : x = (k, v) ∨ x ∈ m := by
  induction m with
  | nil => simpa [insertRep] using h
  | cons y rest ih =>
    rw [insertRep] at h
    by_cases h1 : k = y.1
    · rw [if_pos h1] at h
      rcases List.mem_cons.1 h with rfl | h2
      · exact Or.inl rfl
      · exact Or.inr (List.mem_cons_of_mem _ h2)
    · rw [if_neg h1] at h
      rcases List.mem_cons.1 h with rfl | h2
      · exact Or.inr (List.mem_cons_self _ _)
      · rcases ih h2 with h3 | h3
        · exact Or.inl h3
        · exact Or.inr (List.mem_cons_of_mem _ h3)

theorem self_mem_insertRep (k : String) (v : β) (m : List (String × β)) :
    (k, v) ∈ insertRep k v m := by
  induction m with
  | nil => exact List.mem_singleton.2 rfl
  | cons y rest ih =>
    rw [insertRep]
    by_cases h1 : k = y.1
    · rw [if_pos h1]
      exact List.mem_cons_self _ _
    · rw [if_neg h1]
      exact List.mem_cons_of_mem _ ih

theorem removeEntry_some_of_mem (k : String) (m : List (String × β))
    (h : k ∈ m.map Prod.fst) : ∃ v rest, removeEntry k m = some (v, rest) := by
  induction m with
  | nil => cases h
  | cons y rest ih =>
    rw [removeEntry]
    by_cases h1 : k = y.1
    · rw [if_pos h1]
      exact ⟨y.2, rest, rfl⟩
    · rw [if_neg h1]
      have h2 : k ∈ rest.map Prod.fst := by
        rcases List.mem_map.1 h with ⟨q, hq, rfl⟩
        rcases List.mem_cons.1 hq with rfl | hq'
        · exact absurd rfl h1
        · exact List.mem_map.2 ⟨q, hq', rfl⟩
      obtain ⟨v, m2, hr⟩ := ih h2
      rw [hr]
      exact ⟨v, (y.1, y.2) :: m2, rfl⟩

theorem removeEntry_some_keys (k : String) :
    ∀ (m : List (String × β)) (v : β) (rest : List (String × β)),
      removeEntry k m = some (v, rest) →
      ∀ g, g ∈ m.map Prod.fst → g ≠ k → g ∈ rest.map Prod.fst := by
  intro m
  induction m with
  | nil => intro v rest hr; cases hr
  | cons y t ih =>
    intro v rest hr g hg hne
    rw [removeEntry] at hr
    by_cases h1 : k = y.1
    · rw [if_pos h1] at hr
      cases hr
      rcases List.mem_map.1 hg with ⟨q, hq, rfl⟩
      rcases List.mem_cons.1 hq with rfl | hq'
      · exact absurd h1.symm hne
      · exact List.mem_map.2 ⟨q, hq', rfl⟩
    · rw [if_neg h1] at hr
      cases hrr : removeEntry k t with
      | some p =>
        obtain ⟨v2, m2⟩ := p
        rw [hrr] at hr
        simp only [] at hr
        cases hr
        rcases List.mem_map.1 hg with ⟨q, hq, rfl⟩
        rcases List.mem_cons.1 hq with rfl | hq'
        · exact List.mem_map.2 ⟨(q.1, q.2), List.mem_cons_self _ _, rfl⟩
        · have h3 := ih _ _ hrr q.1 (List.mem_map.2 ⟨q, hq', rfl⟩) hne
          rcases List.mem_map.1 h3 with ⟨q2, hq2, he⟩
          exact List.mem_map.2 ⟨q2, List.mem_cons_of_mem _ hq2, he⟩
      | none =>
        rw [hrr] at hr
        cases hr

theorem movedFold_sources (gs : List String) :
    ∀ (q : List (String × GlyphRecord) × Set),
      (gs.foldl moveGlyphData q).2.sources = q.2.sources := by
  induction gs with
  | nil => intro q; rfl
  | cons n rest ih =>
    intro q
    rw [List.foldl_cons]
    rw [ih]
    cases hr : removeEntry n q.1 with
    | some p =>
      obtain ⟨v, m⟩ := p
      simp only [moveGlyphData, hr]
    | none => simp only [moveGlyphData, hr]

theorem movedFold_gdata_mono (gs : List String) :
    ∀ (q : List (String × GlyphRecord) × Set) (g : String),
      g ∈ q.2.glyph_data.map Prod.fst →
      g ∈ (gs.foldl moveGlyphData q).2.glyph_data.map Prod.fst := by
  induction gs with
  | nil => intro q g hg; exact hg
  | cons n rest ih =>
    intro q g hg
    rw [List.foldl_cons]
    refine ih _ g ?_
    cases hr : removeEntry n q.1 with
    | some p =>
      obtain ⟨v, m⟩ := p
      simp only [moveGlyphData, hr]
      exact (mem_map_key_insertSortedBy Prod.fst (n, v) q.2.glyph_data g).2 (Or.inr hg)
    | none =>
      simp only [moveGlyphData, hr]
      exact hg

theorem movedFold_gdata_upper (gs : List String) :
    ∀ (q : List (String × GlyphRecord) × Set) (g : String),
      g ∈ (gs.foldl moveGlyphData q).2.glyph_data.map Prod.fst →
      g ∈ q.2.glyph_data.map Prod.fst ∨ g ∈ gs := by
  induction gs with
  | nil => intro q g hg; exact Or.inl hg
  | cons n rest ih =>
    intro q g hg
    rw [List.foldl_cons] at hg
    rcases ih _ g hg with h2 | h2
    · cases hr : removeEntry n q.1 with
      | some p =>
        obtain ⟨v, m⟩ := p
        simp only [moveGlyphData, hr] at h2
        rcases (mem_map_key_insertSortedBy Prod.fst (n, v) q.2.glyph_data g).1 h2 with
          rfl | h3
        · exact Or.inr (List.mem_cons_self _ _)
        · exact Or.inl h3
      | none =>
        simp only [moveGlyphData, hr] at h2
        exact Or.inl h2
    · exact Or.inr (List.mem_cons_of_mem _ h2)

theorem movedFold_pool_keeps (gs : List String) :
    ∀ (q : List (String × GlyphRecord) × Set) (g : String),
      g ∈ q.1.map Prod.fst → g ∉ gs →
      g ∈ (gs.foldl moveGlyphData q).1.map Prod.fst := by
  induction gs with
  | nil => intro q g hg _; exact hg
  | cons n rest ih =>
    intro q g hg hns
    have hgn : g ≠ n := fun he => hns (he ▸ List.mem_cons_self _ _)
    have hnrest : g ∉ rest := fun hmem => hns (List.mem_cons_of_mem _ hmem)
    rw [List.foldl_cons]
    refine ih _ g ?_ hnrest
    cases hr : removeEntry n q.1 with
    | some p =>
      obtain ⟨v, m⟩ := p
      simp only [moveGlyphData, hr]
      exact removeEntry_some_keys n q.1 v m hr g hg hgn
    | none =>
      simp only [moveGlyphData, hr]
      exact hg

theorem movedFold_hits (gs : List String) :
    ∀ (q : List (String × GlyphRecord) × Set) (g : String),
      g ∈ gs → g ∈ q.1.map Prod.fst →
      g ∈ (gs.foldl moveGlyphData q).2.glyph_data.map Prod.fst := by
  induction gs with
  | nil => intro q g hg; cases hg
  | cons n rest ih =>
    intro q g hg hpool
    rw [List.foldl_cons]
    by_cases hgn : g = n
    · subst hgn
      obtain ⟨v, m, hr⟩ := removeEntry_some_of_mem g q.1 hpool
      refine movedFold_gdata_mono rest _ g ?_
      simp only [moveGlyphData, hr]
      exact (mem_map_key_insertSortedBy Prod.fst (g, v) q.2.glyph_data g).2 (Or.inl rfl)
    · have hgrest : g ∈ rest := by
        rcases List.mem_cons.1 hg with rfl | h2
        · exact absurd rfl hgn
        · exact h2
      refine ih _ g hgrest ?_
      cases hr : removeEntry n q.1 with
      | some p =>
        obtain ⟨v, m⟩ := p
        simp only [moveGlyphData, hr]
        exact removeEntry_some_keys n q.1 v m hr g hpool hgn
      | none =>
        simp only [moveGlyphData, hr]
        exact hpool

theorem extractGlyphData_fold_keys (font : UfoFont) (gs : List String) :
    ∀ (init : List (String × GlyphRecord)) (n : String),
      n ∈ (gs.foldl
        (fun gd name =>
          insertSortedBy Prod.fst
            (name,
              { postscript_name := lookupKey name font.libPostscriptNames
                codepoints := ((font.getGlyph name).map (fun g => g.codepoints)).getD []
                opentype_category := (lookupKey name font.libCategories).getD .Unassigned
                exportFlag := !(font.libSkipExport.contains name) })
            gd)
        init).map Prod.fst ↔ n ∈ init.map Prod.fst ∨ n ∈ gs := by
  induction gs with
  | nil =>
    intro init n
    simp
  | cons x rest ih =>
    intro init n
    rw [List.foldl_cons]
    rw [ih]
    rw [mem_map_key_insertSortedBy]
    simp only [List.mem_cons]
    tauto

theorem extractGlyphData_keys (font : UfoFont) (gs : List String) (n : String) :
    n ∈ (extractGlyphData font gs).map Prod.fst ↔ n ∈ gs := by
  rw [show extractGlyphData font gs = gs.foldl _ [] from rfl]
  rw [extractGlyphData_fold_keys font gs [] n]
  simp

theorem wf_sets_of_fg (fg : Fontgarden) (hw : fg.wfSorted = true) :
    sortedByB Prod.fst fg.sets = true ∧ ∀ p ∈ fg.sets, p.2.wfSorted = true := by
  have hw' : sortedByB Prod.fst fg.sets = true ∧
      fg.sets.all (fun p => p.2.wfSorted) = true := by
    rw [← Bool.and_eq_true]
    exact hw
  obtain ⟨h1, h2⟩ := hw'
  refine ⟨h1, ?_⟩
  rw [List.all_eq_true] at h2
  intro p hp
  simpa using h2 p hp

theorem wf_sources_of_set (st : Set) (hw : st.wfSorted = true) :
    sortedByB Prod.fst st.sources = true ∧ ∀ q ∈ st.sources, q.2.wfSorted = true := by
  have hw' : sortedByB Prod.fst st.sources = true ∧
      st.sources.all (fun q => q.2.wfSorted) = true := by
    rw [← Bool.and_eq_true]
    exact hw
  obtain ⟨h1, h2⟩ := hw'
  refine ⟨h1, ?_⟩
  rw [List.all_eq_true] at h2
  intro q hq
  simpa using h2 q hq

theorem wf_set_getD (fg : Fontgarden) (s : String) (hw : fg.wfSorted = true) :
    ((lookupKey s fg.sets).getD Set.defaultVal).wfSorted = true := by
  cases hl : lookupKey s fg.sets with
  | some x =>
    simpa using (wf_sets_of_fg fg hw).2 (s, x) (lookup_some_mem s x fg.sets hl)
  | none => rfl

theorem wf_src_getD (st : Set) (sn dn : String) (hw : st.wfSorted = true) :
    ((lookupKey sn st.sources).getD
      (Source.newWithDefaultLayerName dn)).wfSorted = true := by
  cases hl : lookupKey sn st.sources with
  | some x =>
    simpa using (wf_sources_of_set st hw).2 (sn, x) (lookup_some_mem sn x st.sources hl)
  | none => rfl

theorem count_src_getD (st : Set) (sn dn : String)
    (hc : ∀ q ∈ st.sources, countDefaultLayers q.2 = 1) :
    countDefaultLayers
      ((lookupKey sn st.sources).getD (Source.newWithDefaultLayerName dn)) = 1 := by
  cases hl : lookupKey sn st.sources with
  | some x =>
    simpa using hc (sn, x) (lookup_some_mem sn x st.sources hl)
  | none => rfl

theorem cov_getD_sub (fg : Fontgarden) (s g : String)
    (hg : g ∈ ((lookupKey s fg.sets).getD Set.defaultVal).glyphCoverage) :
    g ∈ covOf fg s := by
  unfold covOf
  cases hl : lookupKey s fg.sets with
  | some st =>
    rw [hl] at hg
    simpa using hg
  | none =>
    rw [hl] at hg
    exact (List.not_mem_nil g hg).elim

theorem covOf_sub_getD (fg : Fontgarden) (s g : String) (hg : g ∈ covOf fg s) :
    g ∈ ((lookupKey s fg.sets).getD Set.defaultVal).glyphCoverage := by
  unfold covOf at hg
  cases hl : lookupKey s fg.sets with
  | some st =>
    rw [hl] at hg
    simpa using hg
  | none =>
    rw [hl] at hg
    exact (List.not_mem_nil g hg).elim

theorem importRoutedStep_cov_upper (font : UfoFont) (source_name : String)
    (st : Fontgarden × List (String × GlyphRecord)) (e : String × List String)
    (s g : String)
    (hg : g ∈ covOf (importRoutedStep font source_name st e).1 s) :
    g ∈ covOf st.1 s ∨ (s = e.1 ∧ g ∈ e.2) := by
  by_cases hse : s = e.1
  case neg =>
    left
    simp only [importRoutedStep] at hg
    unfold covOf at hg ⊢
    rw [lookupKey_insertSortedBy_ne s e.1 _ st.1.sets hse] at hg
    exact hg
  case pos =>
    subst hse
    simp only [importRoutedStep] at hg
    unfold covOf at hg
    rw [lookupKey_insertSortedBy_self] at hg
    rcases (mem_glyphCoverage _ g).1 hg with h | ⟨q, hq, hng⟩
    · rcases movedFold_gdata_upper e.2 _ g h with h2 | h2
      · left
        refine cov_getD_sub st.1 e.1 g ?_
        exact (mem_glyphCoverage _ g).2 (Or.inl h2)
      · exact Or.inr ⟨rfl, h2⟩
    · rw [movedFold_sources] at hq
      simp only [] at hq
      rcases mem_insertSortedBy Prod.fst _ q _ hq with rfl | hq'
      · rcases importLayersStep_names_upper font e.2 _ g hng with h3 | h3
        · cases hl2 : lookupKey source_name
              ((lookupKey e.1 st.1.sets).getD Set.defaultVal).sources with
          | some src =>
            rw [hl2] at h3
            left
            refine cov_getD_sub st.1 e.1 g ?_
            refine (mem_glyphCoverage _ g).2
              (Or.inr ⟨(source_name, src), lookup_some_mem _ _ _ hl2, ?_⟩)
            simpa using h3
          | none =>
            rw [hl2] at h3
            exfalso
            simp [Source.newWithDefaultLayerName, Source.glyphNames,
              Layer.glyphNames, Layer.defaultVal] at h3
        · exact Or.inr ⟨rfl, h3⟩
      · left
        refine cov_getD_sub st.1 e.1 g ?_
        exact (mem_glyphCoverage _ g).2 (Or.inr ⟨q, hq', hng⟩)

theorem fg_wf_intro (fg : Fontgarden) (h1 : sortedByB Prod.fst fg.sets = true)
    (h2 : ∀ p ∈ fg.sets, p.2.wfSorted = true) : fg.wfSorted = true := by
  have h3 : fg.sets.all (fun p => p.2.wfSorted) = true := by
    rw [List.all_eq_true]
    intro p hp
    simpa using h2 p hp
  show (sortedByB Prod.fst fg.sets && fg.sets.all (fun p => p.2.wfSorted)) = true
  rw [h1, h3]
  rfl

theorem set_wf_intro (st : Set) (h1 : sortedByB Prod.fst st.sources = true)
    (h2 : ∀ q ∈ st.sources, q.2.wfSorted = true) : st.wfSorted = true := by
  have h3 : st.sources.all (fun q => q.2.wfSorted) = true := by
    rw [List.all_eq_true]
    intro q hq
    simpa using h2 q hq
  show (sortedByB Prod.fst st.sources && st.sources.all (fun q => q.2.wfSorted)) = true
  rw [h1, h3]
  rfl

theorem importRoutedStep_cov_lower (font : UfoFont) (source_name : String)
    (st : Fontgarden × List (String × GlyphRecord)) (e : String × List String)
    (hw : st.1.wfSorted = true) (s g : String) (hg : g ∈ covOf st.1 s) :
    g ∈ covOf (importRoutedStep font source_name st e).1 s := by
  by_cases hse : s = e.1
  case neg =>
    simp only [importRoutedStep]
    unfold covOf at hg ⊢
    rw [lookupKey_insertSortedBy_ne s e.1 _ st.1.sets hse]
    exact hg
  case pos =>
    subst hse
    have hset0wf := wf_set_getD st.1 e.1 hw
    simp only [importRoutedStep]
    unfold covOf
    rw [lookupKey_insertSortedBy_self]
    refine (mem_glyphCoverage _ g).2 ?_
    have hg2 := covOf_sub_getD st.1 e.1 g hg
    rcases (mem_glyphCoverage _ g).1 hg2 with h | ⟨q, hq, hng⟩
    · exact Or.inl (movedFold_gdata_mono e.2 _ g h)
    · by_cases hqn : q.1 = source_name
      · have hlq : lookupKey source_name
            ((lookupKey e.1 st.1.sets).getD Set.defaultVal).sources = some q.2 := by
          rw [← hqn]
          exact lookup_entry_of_sorted _ q.1 q.2 (wf_sources_of_set _ hset0wf).1
            (by simpa using hq)
        have hsrc0 : (lookupKey source_name (List.foldl moveGlyphData
            (st.2, (lookupKey e.1 st.1.sets).getD Set.defaultVal) e.2).2.sources).getD
            (Source.newWithDefaultLayerName font.defaultLayer.name) = q.2 := by
          rw [movedFold_sources]
          simp only []
          rw [hlq]
          rfl
        rw [hsrc0]
        refine Or.inr ⟨_, self_mem_insertSortedBy Prod.fst _ _, ?_⟩
        show g ∈ (importLayersStep font e.2 q.2).glyphNames
        exact importLayersStep_names_lower font e.2 q.2 g
          ((wf_sources_of_set _ hset0wf).2 q (by simpa using hq)) hng
      · refine Or.inr ⟨q, ?_, hng⟩
        have hq2 : q ∈ (List.foldl moveGlyphData
            (st.2, (lookupKey e.1 st.1.sets).getD Set.defaultVal) e.2).2.sources := by
          rw [movedFold_sources]
          simpa using hq
        exact mem_insertSortedBy_of_ne Prod.fst _ q _ hq2 (by simpa using hqn)

theorem importRoutedStep_wf (font : UfoFont) (source_name : String)
    (st : Fontgarden × List (String × GlyphRecord)) (e : String × List String)
    (hw : st.1.wfSorted = true)
    (hc : ∀ p ∈ st.1.sets, ∀ q ∈ p.2.sources, countDefaultLayers q.2 = 1) :
    (importRoutedStep font source_name st e).1.wfSorted = true ∧
      ∀ p ∈ (importRoutedStep font source_name st e).1.sets,
        ∀ q ∈ p.2.sources, countDefaultLayers q.2 = 1 := by
  have hset0wf := wf_set_getD st.1 e.1 hw
  have hset0c : ∀ q ∈ ((lookupKey e.1 st.1.sets).getD Set.defaultVal).sources,
      countDefaultLayers q.2 = 1 := by
    intro q hq
    cases hl : lookupKey e.1 st.1.sets with
    | some x =>
      rw [hl] at hq
      exact hc (e.1, x) (lookup_some_mem _ _ _ hl) q (by simpa using hq)
    | none =>
      rw [hl] at hq
      simp [Set.defaultVal] at hq
  have hsrc0wf : ((lookupKey source_name
      ((lookupKey e.1 st.1.sets).getD Set.defaultVal).sources).getD
      (Source.newWithDefaultLayerName font.defaultLayer.name)).wfSorted = true :=
    wf_src_getD _ source_name font.defaultLayer.name hset0wf
  have hsrc0c : countDefaultLayers ((lookupKey source_name
      ((lookupKey e.1 st.1.sets).getD Set.defaultVal).sources).getD
      (Source.newWithDefaultLayerName font.defaultLayer.name)) = 1 :=
    count_src_getD _ source_name font.defaultLayer.name hset0c
  have hsrcs : (List.foldl moveGlyphData
      (st.2, (lookupKey e.1 st.1.sets).getD Set.defaultVal) e.2).2.sources =
      ((lookupKey e.1 st.1.sets).getD Set.defaultVal).sources := by
    rw [movedFold_sources]
  constructor
  · simp only [importRoutedStep]
    refine fg_wf_intro _ ?_ ?_
    · exact insertSortedBy_sorted Prod.fst _ st.1.sets (wf_sets_of_fg st.1 hw).1
    · intro p hp
      rcases mem_insertSortedBy Prod.fst _ p st.1.sets (by simpa using hp) with rfl | hp'
      · refine set_wf_intro _ ?_ ?_
        · simp only []
          rw [hsrcs]
          exact insertSortedBy_sorted Prod.fst _ _ (wf_sources_of_set _ hset0wf).1
        · intro q hq
          simp only [] at hq
          rw [hsrcs] at hq
          rcases mem_insertSortedBy Prod.fst _ q _ hq with rfl | hq'
          · exact importLayersStep_wf font e.2 _ hsrc0wf
          · exact (wf_sources_of_set _ hset0wf).2 q hq'
      · exact (wf_sets_of_fg st.1 hw).2 p hp'
  · intro p hp q hq
    simp only [importRoutedStep] at hp
    rcases mem_insertSortedBy Prod.fst _ p st.1.sets (by simpa using hp) with rfl | hp'
    · simp only [] at hq
      rw [hsrcs] at hq
      rcases mem_insertSortedBy Prod.fst _ q _ hq with rfl | hq'
      · exact importLayersStep_count font e.2 _ hsrc0wf hsrc0c
      · exact hset0c q hq'
    · exact hc p hp' q hq

theorem importFold_wf (font : UfoFont) (source_name : String) :
    ∀ (routed : List (String × List String))
      (st : Fontgarden × List (String × GlyphRecord)),
      st.1.wfSorted = true →
      (∀ p ∈ st.1.sets, ∀ q ∈ p.2.sources, countDefaultLayers q.2 = 1) →
      (routed.foldl (importRoutedStep font source_name) st).1.wfSorted = true ∧
      ∀ p ∈ (routed.foldl (importRoutedStep font source_name) st).1.sets,
        ∀ q ∈ p.2.sources, countDefaultLayers q.2 = 1 := by
  intro routed
  induction routed with
  | nil => intro st hw hc; exact ⟨hw, hc⟩
  | cons e rest ih =>
    intro st hw hc
    rw [List.foldl_cons]
    obtain ⟨hw2, hc2⟩ := importRoutedStep_wf font source_name st e hw hc
    exact ih _ hw2 hc2

theorem importFold_cov_upper (font : UfoFont) (source_name : String) :
    ∀ (routed : List (String × List String))
      (st : Fontgarden × List (String × GlyphRecord)) (s g : String),
      g ∈ covOf (routed.foldl (importRoutedStep font source_name) st).1 s →
      g ∈ covOf st.1 s ∨ ∃ gs, (s, gs) ∈ routed ∧ g ∈ gs := by
  intro routed
  induction routed with
  | nil => intro st s g hg; exact Or.inl hg
  | cons e rest ih =>
    intro st s g hg
    rw [List.foldl_cons] at hg
    rcases ih _ s g hg with h2 | ⟨gs, hgs, hmem⟩
    · rcases importRoutedStep_cov_upper font source_name st e s g h2 with h3 | ⟨rfl, h3⟩
      · exact Or.inl h3
      · exact Or.inr ⟨e.2, List.mem_cons_self e rest, h3⟩
    · exact Or.inr ⟨gs, List.mem_cons_of_mem _ hgs, hmem⟩

theorem importFold_cov_lower (font : UfoFont) (source_name : String) :
    ∀ (routed : List (String × List String))
      (st : Fontgarden × List (String × GlyphRecord)),
      st.1.wfSorted = true →
      (∀ p ∈ st.1.sets, ∀ q ∈ p.2.sources, countDefaultLayers q.2 = 1) →
      ∀ (s g : String), g ∈ covOf st.1 s →
      g ∈ covOf (routed.foldl (importRoutedStep font source_name) st).1 s := by
  intro routed
  induction routed with
  | nil => intro st _ _ s g hg; exact hg
  | cons e rest ih =>
    intro st hw hc s g hg
    rw [List.foldl_cons]
    obtain ⟨hw2, hc2⟩ := importRoutedStep_wf font source_name st e hw hc
    exact ih _ hw2 hc2 s g (importRoutedStep_cov_lower font source_name st e hw s g hg)

theorem importFold_hits (font : UfoFont) (source_name : String) :
    ∀ (routed : List (String × List String))
      (st : Fontgarden × List (String × GlyphRecord)) (s g : String)
      (gs : List String),
      st.1.wfSorted = true →
      (∀ p ∈ st.1.sets, ∀ q ∈ p.2.sources, countDefaultLayers q.2 = 1) →
      (s, gs) ∈ routed → g ∈ gs → g ∈ st.2.map Prod.fst →
      (∀ p ∈ routed, g ∈ p.2 → p.1 = s) →
      g ∈ covOf (routed.foldl (importRoutedStep font source_name) st).1 s := by
  intro routed
  induction routed with
  | nil => intro st s g gs _ _ hmem; cases hmem
  | cons e rest ih =>
    intro st s g gs hw hc hmem hg hpool honly
    rw [List.foldl_cons]
    obtain ⟨hw2, hc2⟩ := importRoutedStep_wf font source_name st e hw hc
    by_cases hge : g ∈ e.2
    · have hs : e.1 = s := honly e (List.mem_cons_self _ _) hge
      refine importFold_cov_lower font source_name rest _ hw2 hc2 s g ?_
      subst hs
      simp only [importRoutedStep]
      unfold covOf
      rw [lookupKey_insertSortedBy_self]
      refine (mem_glyphCoverage _ g).2 (Or.inl ?_)
      exact movedFold_hits e.2 _ g hge hpool
    · have hmem2 : (s, gs) ∈ rest := by
        rcases List.mem_cons.1 hmem with he | h2
        · exfalso
          rw [← he] at hge
          exact hge hg
        · exact h2
      refine ih _ s g gs hw2 hc2 hmem2 hg ?_ ?_
      · simp only [importRoutedStep]
        exact movedFold_pool_keeps e.2 _ g hpool hge
      · intro p hp hgp
        exact honly p (List.mem_cons_of_mem _ hp) hgp

theorem routeFold_spec (fg : Fontgarden) (glyphs : List String)
    (hs : sortedByB Prod.fst fg.sets = true) :
    ∀ (l : List (String × Set)), (∀ w ∈ l, w ∈ fg.sets) →
    ∀ (m : List (String × List String)) (left : List String),
      (∀ p ∈ m, ∀ g ∈ p.2, g ∈ covOf fg p.1) →
      (∀ g ∈ left, g ∈ glyphs) →
      (∀ p ∈ (l.foldl (routeStep glyphs) (m, left)).1,
        ∀ g ∈ p.2, g ∈ covOf fg p.1) ∧
      (∀ g ∈ (l.foldl (routeStep glyphs) (m, left)).2, g ∈ left) ∧
      (∀ g ∈ (l.foldl (routeStep glyphs) (m, left)).2,
        ∀ w ∈ l, g ∉ w.2.glyphCoverage) ∧
      (∀ g ∈ left, (∀ w ∈ l, g ∉ w.2.glyphCoverage) →
        g ∈ (l.foldl (routeStep glyphs) (m, left)).2) := by
  intro l
  induction l with
  | nil =>
    intro _ m left hm hleft
    exact ⟨hm, fun g hg => hg,
      fun g _ w hw => absurd hw (List.not_mem_nil w),
      fun g hg _ => hg⟩
  | cons z rest ih =>
    intro hzs m left hm hleft
    rw [List.foldl_cons]
    by_cases hie : (glyphs.filter (fun g => z.2.glyphCoverage.contains g)).isEmpty = true
    · have hstep : routeStep glyphs (m, left) z = (m, left) := by
        unfold routeStep
        simp only []
        rw [if_pos hie]
      rw [hstep]
      obtain ⟨ha, hb, hc, hd⟩ :=
        ih (fun w hw => hzs w (List.mem_cons_of_mem _ hw)) m left hm hleft
      refine ⟨ha, hb, ?_, ?_⟩
      · intro g hg w hw
        rcases List.mem_cons.1 hw with rfl | hw'
        · intro hcov
          have hgl : g ∈ glyphs := hleft g (hb g hg)
          have hgi : g ∈ glyphs.filter (fun x => w.2.glyphCoverage.contains x) :=
            List.mem_filter.2 ⟨hgl, by simpa using hcov⟩
          rw [List.isEmpty_iff] at hie
          rw [hie] at hgi
          exact absurd hgi (List.not_mem_nil g)
        · exact hc g hg w hw'
      · intro g hg hnone
        exact hd g hg (fun w hw => hnone w (List.mem_cons_of_mem _ hw))
    · have hstep : routeStep glyphs (m, left) z =
          (insertRep z.1 (glyphs.filter (fun g => z.2.glyphCoverage.contains g)) m,
           left.filter (fun n =>
             !((glyphs.filter (fun g => z.2.glyphCoverage.contains g)).contains n))) := by
        unfold routeStep
        simp only []
        rw [if_neg hie]
      rw [hstep]
      have hm2 : ∀ p ∈ insertRep z.1
          (glyphs.filter (fun g => z.2.glyphCoverage.contains g)) m,
          ∀ g ∈ p.2, g ∈ covOf fg p.1 := by
        intro p hp g hg
        rcases mem_insertRep _ _ _ p hp with rfl | hp'
        · have hlk : lookupKey z.1 fg.sets = some z.2 :=
            lookup_entry_of_sorted _ _ _ hs (hzs z (List.mem_cons_self _ _))
          have hgc : g ∈ z.2.glyphCoverage := by
            simpa using (List.mem_filter.1 hg).2
          unfold covOf
          rw [hlk]
          exact hgc
        · exact hm p hp' g hg
      have hleft2 : ∀ g ∈ left.filter (fun n =>
          !((glyphs.filter (fun g => z.2.glyphCoverage.contains g)).contains n)),
          g ∈ glyphs :=
        fun g hg => hleft g (List.mem_filter.1 hg).1
      obtain ⟨ha, hb, hc, hd⟩ :=
        ih (fun w hw => hzs w (List.mem_cons_of_mem _ hw)) _ _ hm2 hleft2
      refine ⟨ha, ?_, ?_, ?_⟩
      · intro g hg
        exact (List.mem_filter.1 (hb g hg)).1
      · intro g hg w hw
        rcases List.mem_cons.1 hw with rfl | hw'
        · intro hcov
          have hgf := List.mem_filter.1 (hb g hg)
          have hgl : g ∈ glyphs := hleft g hgf.1
          have hor : g ∉ glyphs ∨ g ∉ w.2.glyphCoverage := by simpa using hgf.2
          rcases hor with h4 | h4
          · exact h4 hgl
          · exact h4 hcov
        · exact hc g hg w hw'
      · intro g hg hnone
        refine hd g ?_ (fun w hw => hnone w (List.mem_cons_of_mem _ hw))
        refine List.mem_filter.2 ⟨hg, ?_⟩
        have hniz : g ∉ z.2.glyphCoverage := hnone z (List.mem_cons_self _ _)
        have hor : g ∉ glyphs ∨ g ∉ z.2.glyphCoverage := Or.inr hniz
        simpa using hor

theorem routeGlyphs_spec (fg : Fontgarden) (glyphs : List String) (target : String)
    (hs : sortedByB Prod.fst fg.sets = true) :
    ∀ p ∈ routeGlyphs fg glyphs target,
      (∀ g ∈ p.2, g ∈ covOf fg p.1) ∨
      (p.1 = target ∧ ∀ g ∈ p.2, ∀ t, g ∉ covOf fg t) := by
  intro p hp
  obtain ⟨ha, hb, hc, hd⟩ := routeFold_spec fg glyphs hs fg.sets (fun w hw => hw)
    [] glyphs (fun q hq => absurd hq (List.not_mem_nil q)) (fun g hg => hg)
  unfold routeGlyphs at hp
  simp only [] at hp
  by_cases hie : (fg.sets.foldl (routeStep glyphs) ([], glyphs)).2.isEmpty = true
  · rw [if_pos hie] at hp
    exact Or.inl (ha p hp)
  · rw [if_neg hie] at hp
    rcases mem_insertRep _ _ _ p hp with rfl | hp'
    · refine Or.inr ⟨rfl, ?_⟩
      intro g hg t hcov
      have hcov2 := covOf_sub_getD fg t g hcov
      cases hl : lookupKey t fg.sets with
      | some x =>
        rw [hl] at hcov2
        exact hc g hg (t, x) (lookup_some_mem _ _ _ hl) (by simpa using hcov2)
      | none =>
        rw [hl] at hcov2
        exact absurd hcov2 (List.not_mem_nil g)
    · exact Or.inl (ha p hp')

theorem routeGlyphs_leftover (fg : Fontgarden) (glyphs : List String)
    (target : String) (hs : sortedByB Prod.fst fg.sets = true) (g : String)
    (hg : g ∈ glyphs) (hnone : ∀ t, g ∉ covOf fg t) :
    ∃ gs, (target, gs) ∈ routeGlyphs fg glyphs target ∧ g ∈ gs := by
  obtain ⟨ha, hb, hc, hd⟩ := routeFold_spec fg glyphs hs fg.sets (fun w hw => hw)
    [] glyphs (fun q hq => absurd hq (List.not_mem_nil q)) (fun x hx => hx)
  have hnone2 : ∀ w ∈ fg.sets, g ∉ w.2.glyphCoverage := by
    intro w hw hcov
    refine hnone w.1 (cov_getD_sub fg w.1 g ?_)
    rw [lookup_entry_of_sorted fg.sets w.1 w.2 hs (by exact hw)]
    simpa using hcov
  have hleft : g ∈ (fg.sets.foldl (routeStep glyphs) ([], glyphs)).2 :=
    hd g hg hnone2
  unfold routeGlyphs
  simp only []
  by_cases hie : (fg.sets.foldl (routeStep glyphs) ([], glyphs)).2.isEmpty = true
  · exfalso
    rw [List.isEmpty_iff] at hie
    rw [hie] at hleft
    exact absurd hleft (List.not_mem_nil g)
  · rw [if_neg hie]
    exact ⟨_, self_mem_insertRep target _ _, hleft⟩

theorem covDisjAux_spec :
    ∀ (l : List (String × Set)), covDisjAux l = true →
      ∀ p ∈ l, ∀ q ∈ l, p.1 ≠ q.1 →
      ∀ g ∈ p.2.glyphCoverage, g ∉ q.2.glyphCoverage := by
  intro l
  induction l with
  | nil => intro _ p hp; cases hp
  | cons y rest ih =>
    intro h p hp q hq hne g hgp hgq
    have h' : (rest.all (fun w => y.2.glyphCoverage.all
        (fun g => !(w.2.glyphCoverage.contains g)))) = true ∧
        covDisjAux rest = true := by
      rw [← Bool.and_eq_true]
      exact h
    obtain ⟨h1, h2⟩ := h'
    rw [List.all_eq_true] at h1
    rcases List.mem_cons.1 hp with rfl | hp'
    · rcases List.mem_cons.1 hq with rfl | hq'
      · exact hne rfl
      · have h4 : ∀ x ∈ p.2.glyphCoverage, x ∉ q.2.glyphCoverage := by
          simpa using h1 q hq'
        exact h4 g hgp hgq
    · rcases List.mem_cons.1 hq with rfl | hq'
      · have h4 : ∀ x ∈ q.2.glyphCoverage, x ∉ p.2.glyphCoverage := by
          simpa using h1 p hp'
        exact h4 g hgq hgp
      · exact ih h2 p hp' q hq' hne g hgp hgq

theorem covDisjB_covDisj (fg : Fontgarden) (hd : covDisjB fg = true) :
    CovDisj fg := by
  intro a b hab g hga hgb
  have hga2 := covOf_sub_getD fg a g hga
  have hgb2 := covOf_sub_getD fg b g hgb
  cases hla : lookupKey a fg.sets with
  | none =>
    rw [hla] at hga2
    exact absurd hga2 (List.not_mem_nil g)
  | some x =>
    cases hlb : lookupKey b fg.sets with
    | none =>
      rw [hlb] at hgb2
      exact absurd hgb2 (List.not_mem_nil g)
    | some y =>
      rw [hla] at hga2
      rw [hlb] at hgb2
      exact covDisjAux_spec fg.sets hd (a, x) (lookup_some_mem _ _ _ hla)
        (b, y) (lookup_some_mem _ _ _ hlb) hab g (by simpa using hga2)
        (by simpa using hgb2)

theorem importCore_inv (fg : Fontgarden) (font : UfoFont) (glyphs : List String)
    (set_name source_name : String) (hw : fg.wfSorted = true)
    (hc : ∀ p ∈ fg.sets, ∀ q ∈ p.2.sources, countDefaultLayers q.2 = 1)
    (hd : CovDisj fg) :
    (fg.importCore font glyphs set_name source_name).wfSorted = true ∧
    (∀ p ∈ (fg.importCore font glyphs set_name source_name).sets,
      ∀ q ∈ p.2.sources, countDefaultLayers q.2 = 1) ∧
    CovDisj (fg.importCore font glyphs set_name source_name) := by
  have hsets := (wf_sets_of_fg fg hw).1
  refine ⟨?_, ?_, ?_⟩
  · simp only [Fontgarden.importCore]
    exact (importFold_wf font source_name _ _ hw hc).1
  · simp only [Fontgarden.importCore]
    exact (importFold_wf font source_name _ _ hw hc).2
  · intro a b hab g hga hgb
    have hup : ∀ s, g ∈ covOf (fg.importCore font glyphs set_name source_name) s →
        g ∈ covOf fg s ∨ ∃ gs,
          (s, gs) ∈ routeGlyphs fg (expandImportGlyphs font glyphs) set_name ∧
          g ∈ gs := by
      intro s hgs
      simp only [Fontgarden.importCore] at hgs
      exact importFold_cov_upper font source_name _ _ s g hgs
    have hspec := routeGlyphs_spec fg (expandImportGlyphs font glyphs) set_name hsets
    rcases hup a hga with ha | ⟨gsa, hgsa, hma⟩ <;>
      rcases hup b hgb with hb | ⟨gsb, hgsb, hmb⟩
    · exact hd a b hab g ha hb
    · rcases hspec _ hgsb with hB | ⟨_, hB⟩
      · exact hd a b hab g ha (hB g hmb)
      · exact hB g hmb a ha
    · rcases hspec _ hgsa with hA | ⟨_, hA⟩
      · exact hd b a (Ne.symm hab) g hb (hA g hma)
      · exact hA g hma b hb
    · rcases hspec _ hgsa with hA | ⟨hta, hA⟩
      · rcases hspec _ hgsb with hB | ⟨_, hB⟩
        · exact hd a b hab g (hA g hma) (hB g hmb)
        · exact hB g hmb a (hA g hma)
      · rcases hspec _ hgsb with hB | ⟨htb, hB⟩
        · exact hA g hma b (hB g hmb)
        · exact hab (hta.trans htb.symm)

theorem importSeq_inv (calls : List ImportCall) :
    (importSeq calls).wfSorted = true ∧
    (∀ p ∈ (importSeq calls).sets, ∀ q ∈ p.2.sources,
      countDefaultLayers q.2 = 1) ∧
    CovDisj (importSeq calls) := by
  suffices h : ∀ (cs : List ImportCall) (fg : Fontgarden), fg.wfSorted = true →
      (∀ p ∈ fg.sets, ∀ q ∈ p.2.sources, countDefaultLayers q.2 = 1) →
      CovDisj fg →
      (cs.foldl (fun fg c =>
        fg.importCore c.font c.glyphs c.set_name c.source_name) fg).wfSorted = true ∧
      (∀ p ∈ (cs.foldl (fun fg c =>
          fg.importCore c.font c.glyphs c.set_name c.source_name) fg).sets,
        ∀ q ∈ p.2.sources, countDefaultLayers q.2 = 1) ∧
      CovDisj (cs.foldl (fun fg c =>
        fg.importCore c.font c.glyphs c.set_name c.source_name) fg) by
    refine h calls Fontgarden.new rfl ?_ ?_
    · intro p hp
      cases hp
    · intro a b hab g hga
      exact absurd hga (List.not_mem_nil g)
  intro cs
  induction cs with
  | nil => intro fg hw hc hd; exact ⟨hw, hc, hd⟩
  | cons c rest ih =>
    intro fg hw hc hd
    rw [List.foldl_cons]
    obtain ⟨h1, h2, h3⟩ :=
      importCore_inv fg c.font c.glyphs c.set_name c.source_name hw hc hd
    exact ih _ h1 h2 h3

/-- Witness font for the coverage-disjointness claim: one glyph "A" in the
default layer. -/
def c2Font : UfoFont :=
  { defaultLayer := { name := "public.default", glyphs :=
      [{ name := "A", components := [], codepoints := [], markColor := none,
         payload := 0 }] }
    otherLayers := []
    libPostscriptNames := []
    libCategories := []
    libSkipExport := [] }

def c2Call : ImportCall :=
  { font := c2Font, glyphs := ["A"], set_name := "T", source_name := "Regular" }

/-- **C2.** For every Fontgarden obtained from the empty Fontgarden by a
finite sequence of `import` calls, the coverages of distinct sets are
disjoint: a glyph name covered by the set named `a` is not covered by any
set with a different name `b`. -/
theorem c2_import_coverage_disjoint (calls : List ImportCall) (a b : String)
    (hab : a ≠ b) (g : String) (hg : g ∈ covOf (importSeq calls) a) :
    g ∉ covOf (importSeq calls) b :=
  (importSeq_inv calls).2.2 a b hab g hg

/-- Witness for C2 at a concrete import: the glyph "A" imported into set "T"
is covered by "T" and, by the theorem, by no other set. -/
theorem c2_import_coverage_disjoint_witness :
    "A" ∉ covOf (importSeq [c2Call]) "U" :=
  c2_import_coverage_disjoint [c2Call] "T" "U" (by decide) "A" (by decide)

/-- **C9.** Every Fontgarden produced by a sequence of `import` calls has,
in every Set, only Sources with exactly one layer flagged `default`; import
preserves this both when it creates a Source
(`Source::new_with_default_layer_name`) and when it merges into an existing
one (`get_default_layer_mut` / `get_or_create_layer`). -/
theorem c9_exactly_one_default_layer (calls : List ImportCall) :
    ((importSeq calls).sets.all (fun p =>
      p.2.sources.all (fun q => countDefaultLayers q.2 == 1))) = true := by
  have h := (importSeq_inv calls).2.1
  rw [List.all_eq_true]
  intro p hp
  have h2 : p.2.sources.all (fun q => countDefaultLayers q.2 == 1) = true := by
    rw [List.all_eq_true]
    intro q hq
    have h3 := h p hp q hq
    simpa using h3
  simpa using h2

/-- **C3.** Routing during import, under the representation invariants of a
real Fontgarden (sorted maps, pairwise-disjoint set coverages, one default
layer per source): `import` never returns an error; an expanded glyph
already covered by some set `s` stays covered by `s` and is merged into no
differently named set (even when the caller requested a different target);
and an expanded glyph covered by no set is merged into the target set
(created on demand). -/
theorem c3_routing (fg : Fontgarden) (font : UfoFont) (glyphs : List String)
    (set_name source_name : String)
    (hw : fg.wfSorted = true) (hd : covDisjB fg = true)
    (hc : ∀ p ∈ fg.sets, ∀ q ∈ p.2.sources, countDefaultLayers q.2 = 1) :
    fg.importFg font glyphs set_name source_name =
      .ok (fg.importCore font glyphs set_name source_name) ∧
    (∀ g ∈ expandImportGlyphs font glyphs, ∀ s, g ∈ covOf fg s →
      g ∈ covOf (fg.importCore font glyphs set_name source_name) s ∧
      ∀ t, t ≠ s →
        g ∉ covOf (fg.importCore font glyphs set_name source_name) t) ∧
    (∀ g ∈ expandImportGlyphs font glyphs, (∀ s, g ∉ covOf fg s) →
      g ∈ covOf (fg.importCore font glyphs set_name source_name) set_name) := by
  have hsets := (wf_sets_of_fg fg hw).1
  have hcd := covDisjB_covDisj fg hd
  have hspec := routeGlyphs_spec fg (expandImportGlyphs font glyphs) set_name hsets
  refine ⟨rfl, ?_, ?_⟩
  · intro g hge s hgs
    constructor
    · simp only [Fontgarden.importCore]
      exact importFold_cov_lower font source_name _ _ hw hc s g hgs
    · intro t hts hgt
      simp only [Fontgarden.importCore] at hgt
      rcases importFold_cov_upper font source_name _ _ t g hgt with h2 | ⟨gs, hmem, hgg⟩
      · exact hcd s t (fun he => hts he.symm) g hgs h2
      · rcases hspec _ hmem with hA | ⟨_, hA⟩
        · exact hcd s t (fun he => hts he.symm) g hgs (hA g hgg)
        · exact hA g hgg s hgs
  · intro g hge hnone
    obtain ⟨gs, hmem, hgg⟩ :=
      routeGlyphs_leftover fg (expandImportGlyphs font glyphs) set_name hsets g
        hge hnone
    have honly : ∀ p ∈ routeGlyphs fg (expandImportGlyphs font glyphs) set_name,
        g ∈ p.2 → p.1 = set_name := by
      intro p hp hgp
      rcases hspec p hp with hA | ⟨ht, _⟩
      · exact absurd (hA g hgp) (hnone p.1)
      · exact ht
    simp only [Fontgarden.importCore]
    refine importFold_hits font source_name _ _ set_name g gs hw hc hmem hgg ?_ honly
    exact (extractGlyphData_keys font (expandImportGlyphs font glyphs) g).2 hge

/-- Witness fixtures for the routing claim: an existing set "Latin" covering
glyph "A", and a font offering "A" and a fresh "x" for import into target
set "T". -/
def c3Rec : GlyphRecord :=
  { postscript_name := none
    codepoints := []
    opentype_category := .Unassigned
    exportFlag := true }

def c3GlyphA : Glyph :=
  { name := "A", components := [], codepoints := [], markColor := none, payload := 0 }

def c3GlyphA1 : Glyph :=
  { name := "A", components := [], codepoints := [], markColor := none, payload := 1 }

def c3GlyphX : Glyph :=
  { name := "x", components := [], codepoints := [], markColor := none, payload := 2 }

def c3Layer : Layer :=
  { glyphs := [c3GlyphA], color_marks := [], default := true }

def c3Source : Source := { layers := [("public.default", c3Layer)] }

def c3Set : Set :=
  { glyph_data := [("A", c3Rec)], sources := [("Regular", c3Source)] }

def c3Fg : Fontgarden := { sets := [("Latin", c3Set)] }

def c3Font : UfoFont :=
  { defaultLayer := { name := "public.default", glyphs := [c3GlyphA1, c3GlyphX] }
    otherLayers := []
    libPostscriptNames := []
    libCategories := []
    libSkipExport := [] }

/-- Witness for C3: the routing theorem instantiated at the concrete
Fontgarden and font, with all three invariant hypotheses computed. -/
theorem c3_routing_witness :
    c3Fg.importFg c3Font ["A", "x"] "T" "Regular" =
      .ok (c3Fg.importCore c3Font ["A", "x"] "T" "Regular") ∧
    (∀ g ∈ expandImportGlyphs c3Font ["A", "x"], ∀ s, g ∈ covOf c3Fg s →
      g ∈ covOf (c3Fg.importCore c3Font ["A", "x"] "T" "Regular") s ∧
      ∀ t, t ≠ s →
        g ∉ covOf (c3Fg.importCore c3Font ["A", "x"] "T" "Regular") t) ∧
    (∀ g ∈ expandImportGlyphs c3Font ["A", "x"], (∀ s, g ∉ covOf c3Fg s) →
      g ∈ covOf (c3Fg.importCore c3Font ["A", "x"] "T" "Regular") "T") :=
  c3_routing c3Fg c3Font ["A", "x"] "T" "Regular" (by decide) (by decide)
    (by decide)

theorem translit_len_ge (name : List Char) :
    ∀ acc : List Char, acc.length ≤ (name.foldl translitChar acc).length := by
  induction name with
  | nil => intro acc; exact Nat.le_refl _
  | cons c rest ih =>
    intro acc
    rw [List.foldl_cons]
    refine Nat.le_trans ?_ (ih (translitChar acc c))
    unfold translitChar
    by_cases h1 : c = '.' ∧ acc = []
    · rw [if_pos h1]
      simp
    · rw [if_neg h1]
      by_cases h2 : c ∈ SPECIAL_ILLEGAL
      · rw [if_pos h2]
        simp
      · rw [if_neg h2]
        by_cases h3 : c.isUpper = true
        · rw [if_pos h3]
          simp
        · rw [if_neg h3]
          simp

theorem reservedFix_len_ge (r : List Char) : r.length ≤ (reservedFix r).length := by
  unfold reservedFix
  by_cases h : String.mk (stemOf r) ∈ SPECIAL_RESERVED
  · rw [if_pos h]
    simp
  · rw [if_neg h]

theorem truncateFix_len_ge7 (r suf : List Char) (hs : suf = []) (h : 7 ≤ r.length) :
    7 ≤ (truncateFix r suf).length := by
  subst hs
  unfold truncateFix
  split
  · rename_i h2
    simp only [List.length_nil, Nat.add_zero] at h2
    simp only [List.length_take, List.length_nil, Nat.sub_zero]
    omega
  · exact h

theorem trailingFix_len (r suf : List Char) :
    (trailingFix r suf).length = r.length := by
  have hk : (r.reverse.takeWhile (fun c => c == '.' || c == ' ')).length ≤ r.length := by
    refine Nat.le_trans (List.takeWhile_sublist _).length_le ?_
    simp
  unfold trailingFix
  split
  · simp only []
    split
    · simp only [List.length_append, List.length_take, List.length_replicate]
      omega
    · rfl
  · simp only []
    split
    · simp only [List.length_append, List.length_take, List.length_replicate]
      omega
    · rfl

theorem counterStem_len_ge7 (cand suf : List Char) (hs : suf = [])
    (h : 7 ≤ cand.length) : 7 ≤ (counterStem cand suf).length := by
  subst hs
  unfold counterStem
  split
  · rename_i h2
    simp only [List.length_nil, Nat.sub_zero] at h2
    simp only [List.length_take, List.length_nil, Nat.sub_zero]
    omega
  · simp only [List.length_take, List.length_nil, Nat.sub_zero]
    omega

theorem tryCountersGo_len (stem suf : List Char) (ex : List String) :
    ∀ (r c : Nat) (out : List Char), tryCountersGo stem suf ex c r = some out →
      stem.length ≤ out.length := by
  intro r
  induction r with
  | zero => intro c out h; cases h
  | succ n ih =>
    intro c out h
    rw [tryCountersGo] at h
    by_cases h2 : lowerStr (stem ++ pad2 c ++ suf) ∈ ex
    · rw [if_pos h2] at h
      exact ih (c + 1) out h
    · rw [if_neg h2] at h
      cases h
      simp

theorem buildCandidate_layer_len (name : List Char) :
    7 ≤ (buildCandidate name ("glyphs.".data) ("".data)).length := by
  unfold buildCandidate
  have h1 : 7 ≤ (name.foldl translitChar "glyphs.".data).length :=
    Nat.le_trans (by decide) (translit_len_ge name "glyphs.".data)
  have h2 := reservedFix_len_ge (name.foldl translitChar "glyphs.".data)
  have h3 := truncateFix_len_ge7 (reservedFix (name.foldl translitChar "glyphs.".data))
    "".data rfl (by omega)
  have h4 := trailingFix_len
    (truncateFix (reservedFix (name.foldl translitChar "glyphs.".data)) "".data)
    "".data
  simp only [List.length_append, List.length_nil] at h1 h2 h3 h4 ⊢
  omega

theorem mk_ne_glyphs (out : List Char) (h : 7 ≤ out.length) :
    String.mk out ≠ "glyphs" := by
  intro he
  have h5 : out = "glyphs".data := congrArg String.data he
  rw [h5] at h
  exact absurd h (by decide)

theorem layer_file_name_ne_glyphs (name : String) (ex : List String) (r : String)
    (h : defaultFileNameForLayerName name ex = some r) : r ≠ "glyphs" := by
  have hcand := buildCandidate_layer_len name.data
  unfold defaultFileNameForLayerName userNameToFileName at h
  simp only [] at h
  by_cases hin : lowerStr (buildCandidate name.data "glyphs.".data "".data) ∈ ex
  · rw [if_pos hin] at h
    cases ht : tryCounters
        (counterStem (buildCandidate name.data "glyphs.".data "".data) "".data)
        "".data ex 1 with
    | none =>
      rw [ht] at h
      cases h
    | some out =>
      rw [ht] at h
      cases h
      have hstem := counterStem_len_ge7
        (buildCandidate name.data "glyphs.".data "".data) "".data rfl hcand
      have hout := tryCountersGo_len _ _ ex _ _ _ ht
      exact mk_ne_glyphs out (Nat.le_trans hstem hout)
  · rw [if_neg hin] at h
    cases h
    exact mk_ne_glyphs _ hcand

theorem layerSave_some_dirname (l : Layer) (lname spath : String)
    (ex : List String) (dirname : String) (ld : LayerDir) (ex2 : List String)
    (h : l.save lname spath ex = .ok (some (dirname, ld), ex2)) :
    l.glyphs ≠ [] ∧ (l.default = true → dirname = "glyphs") ∧
      (l.default = false → dirname ≠ "glyphs") := by
  unfold Layer.save at h
  by_cases he : l.glyphs.isEmpty = true
  · rw [if_pos he] at h
    simp at h
  · rw [if_neg he] at h
    simp only [] at h
    refine ⟨fun hnil => he (by rw [hnil]; rfl), ?_, ?_⟩
    · intro hd
      rw [if_pos hd] at h
      cases hg : saveGlifs l.glyphs [] [] with
      | error e =>
        rw [hg] at h
        cases h
      | ok glifs =>
        rw [hg] at h
        simp only [Except.ok.injEq, Prod.mk.injEq, Option.some.injEq] at h
        exact (h.1.1).symm
    · intro hd
      rw [hd] at h
      simp only [Bool.false_eq_true, if_false] at h
      cases hn : defaultFileNameForLayerName lname ex with
      | none =>
        rw [hn] at h
        cases h
      | some dn =>
        rw [hn] at h
        cases hg : saveGlifs l.glyphs [] [] with
        | error e =>
          rw [hg] at h
          cases h
        | ok glifs =>
          rw [hg] at h
          simp only [Except.ok.injEq, Prod.mk.injEq, Option.some.injEq] at h
          rw [← h.1.1]
          exact layer_file_name_ne_glyphs lname ex dn hn

theorem saveSourceLayers_no_glyphs (source_path : String) :
    ∀ (ls : List (String × Layer)) (entries : List (String × LayerDir))
      (ex : List String) (d : List (String × LayerDir)),
      (∀ q ∈ ls, q.2.default = true → q.2.glyphs = []) →
      ("glyphs" ∉ entries.map Prod.fst) →
      saveSourceLayers source_path ls entries ex = .ok d →
      "glyphs" ∉ d.map Prod.fst := by
  intro ls
  induction ls with
  | nil =>
    intro entries ex d _ hng h
    cases h
    exact hng
  | cons q rest ih =>
    intro entries ex d hdef hng h
    rw [saveSourceLayers] at h
    cases hsv : Layer.save q.2 q.1 source_path ex with
    | error e =>
      rw [hsv] at h
      cases h
    | ok res =>
      obtain ⟨od, ex2⟩ := res
      simp only [hsv] at h
      cases od with
      | none =>
        exact ih _ _ _ (fun w hw => hdef w (List.mem_cons_of_mem _ hw)) hng h
      | some pr =>
        obtain ⟨dirname, ld⟩ := pr
        simp only [] at h
        by_cases hcon : ((entries.map Prod.fst).contains dirname) = true
        · rw [if_pos hcon] at h
          cases h
        · rw [if_neg hcon] at h
          refine ih _ _ _ (fun w hw => hdef w (List.mem_cons_of_mem _ hw)) ?_ h
          obtain ⟨hne, hdt, hdf⟩ :=
            layerSave_some_dirname q.2 q.1 source_path ex dirname ld ex2 hsv
          have hdn : dirname ≠ "glyphs" := by
            cases hdq : q.2.default with
            | true => exact absurd (hdef q (List.mem_cons_self _ _) hdq) hne
            | false => exact hdf hdq
          intro hmem
          rw [List.map_append] at hmem
          rcases List.mem_append.1 hmem with h2 | h2
          · exact hng h2
          · simp at h2
            exact hdn h2.symm

theorem sourceSave_no_glyphs (src : Source) (sname spath : String) (d : SourceDir)
    (hdef : ∀ q ∈ src.layers, q.2.default = true → q.2.glyphs = [])
    (h : src.save sname spath = .ok d) :
    "glyphs" ∉ d.layers.map Prod.fst := by
  unfold Source.save at h
  simp only [] at h
  cases hsv : saveSourceLayers (spath ++ "/source." ++ sname) src.layers [] [] with
  | error e =>
    rw [hsv] at h
    cases h
  | ok entries =>
    rw [hsv] at h
    cases h
    exact saveSourceLayers_no_glyphs _ src.layers [] [] entries hdef (by simp) hsv

theorem loadSourceLayers_noDefault :
    ∀ (entries : List (String × LayerDir)) (layers : List (String × Layer)),
      ("glyphs" ∉ entries.map Prod.fst) →
      loadSourceLayers entries layers false = .error .noDefaultLayer := by
  intro entries
  induction entries with
  | nil => intro layers _; rfl
  | cons e rest ih =>
    intro layers hng
    have hne : e.1 ≠ "glyphs" := by
      intro he
      exact hng (List.mem_map.2 ⟨e, List.mem_cons_self _ _, he⟩)
    have hbeq : (e.1 == "glyphs") = false := by
      rw [beq_eq_false_iff_ne]
      exact hne
    rw [loadSourceLayers]
    by_cases hcond : (e.1 == "glyphs" || strStartsWith e.1 "glyphs.") = true
    · rw [if_pos hcond]
      simp only [Layer.fromPath]
      rw [hbeq]
      simp only [Bool.or_false]
      exact ih _ (fun hmem => hng (List.mem_cons_of_mem _ hmem))
    · rw [if_neg hcond]
      exact ih _ (fun hmem => hng (List.mem_cons_of_mem _ hmem))

theorem sourceFromPath_noDefault (d : SourceDir)
    (h : "glyphs" ∉ d.layers.map Prod.fst) :
    Source.fromPath d = .error .noDefaultLayer :=
  loadSourceLayers_noDefault d.layers [] h

/-- Fixtures for the empty-default-layer claim: one set "A" whose only
source "s" has an empty default layer. -/
def c10Layer : Layer := { glyphs := [], color_marks := [], default := true }

def c10Source : Source := { layers := [("public.default", c10Layer)] }

def c10Set : Set := { glyph_data := [], sources := [("s", c10Source)] }

def c10Fg : Fontgarden := { sets := [("A", c10Set)] }

def c10Dir : FgDir :=
  { entries := [("set.A",
      { glyphData := some [], sources := [("source.s", { layers := [] })] })] }

/-- **C10.** An empty layer writes nothing at all to disk; a Source whose
default-flagged layers are all empty saves to a directory without a `glyphs`
subdirectory (the generated `glyphs.*` names of the other layers are never
the bare `glyphs`), so loading it back fails with `NoDefaultLayer`; and
concretely, saving a Fontgarden holding such a source and loading the saved
tree fails with the corresponding nested no-default-layer error instead of
reproducing the source. -/
theorem c10_empty_layer_saves_nothing (l : Layer) (lname spath : String)
    (ex : List String) (hl : l.glyphs = [])
    (src : Source) (sname spath2 : String) (d : SourceDir)
    (hdef : ∀ q ∈ src.layers, q.2.default = true → q.2.glyphs = [])
    (hsv : src.save sname spath2 = .ok d) :
    l.save lname spath ex = .ok (none, ex) ∧
    "glyphs" ∉ d.layers.map Prod.fst ∧
    Source.fromPath d = .error .noDefaultLayer ∧
    c10Fg.save "" = .ok c10Dir ∧
    Fontgarden.fromPath c10Dir =
      .error (.loadSet "A" (.loadSource "s" .noDefaultLayer)) := by
  have h2 := sourceSave_no_glyphs src sname spath2 d hdef hsv
  refine ⟨?_, h2, sourceFromPath_noDefault d h2, by decide, by decide⟩
  unfold Layer.save
  rw [hl]
  rfl

/-- Witness for C10 at the concrete fixtures: the empty default layer of
source "s" writes nothing, its source directory has no `glyphs` entry, and
the round trip fails with the no-default-layer error. -/
theorem c10_empty_layer_saves_nothing_witness :
    Layer.save c10Layer "public.default" "" [] = .ok (none, []) ∧
    "glyphs" ∉ ({ layers := [] } : SourceDir).layers.map Prod.fst ∧
    Source.fromPath { layers := [] } = .error .noDefaultLayer ∧
    c10Fg.save "" = .ok c10Dir ∧
    Fontgarden.fromPath c10Dir =
      .error (.loadSet "A" (.loadSource "s" .noDefaultLayer)) :=
  c10_empty_layer_saves_nothing c10Layer "public.default" "" [] rfl
    c10Source "s" "" { layers := [] } (by decide) (by decide)

/-! ## Round-trip well-formedness (the amended C1 hypotheses) -/

/-- Duplicate-free check on characters. -/
def chNodup : List Char → Bool
  | [] => true
  | c :: rest => !(rest.contains c) && chNodup rest

/-- The file name `Layer::save` generates for a glyph when the existing set
holds no case-colliding entry. -/
def glifCandidate (n : String) : String :=
  String.mk (buildCandidate n.data "".data ".glif".data)

/-- The directory name `Source::save` generates for a non-default layer
(the full-path bug keeps the collision branch from ever firing). -/
def layerDirCandidate (lname : String) : String :=
  String.mk (buildCandidate lname.data "glyphs.".data "".data)

/-- Pairwise freshness of generated file names: raw names distinct, and no
lowercased name equals another raw name (the save loop records raw names but
compares lowercased ones). -/
def pairwiseFresh : List String → Bool
  | [] => true
  | c :: rest =>
    rest.all (fun c2 => !(c == c2) && !(strLower c == c2) && !(strLower c2 == c)) &&
      pairwiseFresh rest

/-- A layer the save/load pipeline reproduces: nonempty, name-sorted,
nonempty glyph names, pairwise-fresh generated file names. -/
def layerSaveWf (l : Layer) : Bool :=
  !(l.glyphs.isEmpty) && sortedByB glyphKey l.glyphs &&
  l.glyphs.all (fun g => !(g.name == "")) &&
  pairwiseFresh (l.glyphs.map (fun g => glifCandidate g.name))

/-- The directory name `Source::save` uses for a layer entry. -/
def layerDirOf (q : String × Layer) : String :=
  if q.2.default then "glyphs" else layerDirCandidate q.1

/-- The on-disk image `Layer::save` produces for a (nonempty, collision-free)
layer entry. -/
def savedLayerDir (q : String × Layer) : LayerDir :=
  { layerinfoName := q.1, colorMarks := q.2.color_marks,
    glifs := q.2.glyphs.map (fun g => (glifCandidate g.name, g)) }

def sourceSaveWf (src : Source) : Bool :=
  sortedByB Prod.fst src.layers && (countDefaultLayers src == 1) &&
  src.layers.all (fun q => layerSaveWf q.2 &&
    (q.2.default || strStartsWith (layerDirCandidate q.1) "glyphs.")) &&
  nodupStr (src.layers.map layerDirOf)

def setSaveWf (st : Set) : Bool :=
  sortedByB Prod.fst st.glyph_data &&
  st.glyph_data.all (fun p => !(p.1 == "") &&
    (match p.2.postscript_name with | some s => !(s == "") | none => true) &&
    chNodup p.2.codepoints) &&
  sortedByB Prod.fst st.sources &&
  st.sources.all (fun q => !(q.1 == "") && sourceSaveWf q.2)

def fgSaveWf (fg : Fontgarden) : Bool :=
  sortedByB Prod.fst fg.sets &&
  fg.sets.all (fun p => !(p.1 == "") && setSaveWf p.2) &&
  covDisjB fg

theorem toLower_slash (c : Char) (h : Char.toLower c = '/') : c = '/' := by
  unfold Char.toLower at h
  simp only [] at h
  by_cases h2 : c.toNat ≥ 65 ∧ c.toNat ≤ 90
  · rw [if_pos h2] at h
    exfalso
    have hv : (c.toNat + 32).isValidChar := by
      unfold Nat.isValidChar
      left
      omega
    have h3 := congrArg Char.toNat h
    unfold Char.ofNat at h3
    rw [dif_pos hv] at h3
    have h4 : (Char.ofNatAux (c.toNat + 32) hv).toNat = c.toNat + 32 := by
      unfold Char.ofNatAux Char.toNat
      simp [UInt32.toNat, BitVec.toNat_ofNatLt]
    rw [h4] at h3
    have h6 : c.toNat + 32 = 47 := by
      rw [h3]
      decide
    omega
  · rw [if_neg h2] at h
    exact h

theorem translit_no_slash (name : List Char) :
    ∀ acc, '/' ∉ acc → '/' ∉ name.foldl translitChar acc := by
  induction name with
  | nil => intro acc h; exact h
  | cons c rest ih =>
    intro acc h
    rw [List.foldl_cons]
    refine ih _ ?_
    unfold translitChar
    by_cases h1 : c = '.' ∧ acc = []
    · rw [if_pos h1]
      intro hm
      rcases List.mem_append.1 hm with h2 | h2
      · exact h h2
      · rw [List.mem_singleton] at h2
        exact absurd h2 (by decide)
    · rw [if_neg h1]
      by_cases h2 : c ∈ SPECIAL_ILLEGAL
      · rw [if_pos h2]
        intro hm
        rcases List.mem_append.1 hm with h3 | h3
        · exact h h3
        · rw [List.mem_singleton] at h3
          exact absurd h3 (by decide)
      · rw [if_neg h2]
        have hcne : c ≠ '/' := fun he =>
          h2 (he ▸ (by decide : ('/' : Char) ∈ SPECIAL_ILLEGAL))
        by_cases h3 : c.isUpper = true
        · rw [if_pos h3]
          intro hm
          rcases List.mem_append.1 hm with h4 | h4
          · exact h h4
          · rcases List.mem_cons.1 h4 with h5 | h5
            · exact hcne h5.symm
            · rw [List.mem_singleton] at h5
              exact absurd h5 (by decide)
        · rw [if_neg h3]
          intro hm
          rcases List.mem_append.1 hm with h4 | h4
          · exact h h4
          · rw [List.mem_singleton] at h4
            exact hcne h4.symm

theorem reservedFix_no_slash (r : List Char) (h : '/' ∉ r) :
    '/' ∉ reservedFix r := by
  unfold reservedFix
  split
  · intro hm
    rcases List.mem_cons.1 hm with h2 | h2
    · exact absurd h2 (by decide)
    · exact h h2
  · exact h

theorem truncateFix_no_slash (r suf : List Char) (h : '/' ∉ r) :
    '/' ∉ truncateFix r suf := by
  unfold truncateFix
  split
  · intro hm
    exact h (List.take_subset _ _ hm)
  · exact h

theorem trailingFix_no_slash (r suf : List Char) (h : '/' ∉ r) :
    '/' ∉ trailingFix r suf := by
  unfold trailingFix
  split
  · simp only []
    split
    · intro hm
      rcases List.mem_append.1 hm with h2 | h2
      · exact h (List.take_subset _ _ h2)
      · exact absurd (List.eq_of_mem_replicate h2) (by decide)
    · exact h
  · simp only []
    split
    · intro hm
      rcases List.mem_append.1 hm with h2 | h2
      · exact h (List.take_subset _ _ h2)
      · have h3 := List.eq_of_mem_replicate h2
        exact absurd h3 (by decide)
    · exact h

theorem buildCandidate_layer_no_slash (n : List Char) :
    '/' ∉ buildCandidate n "glyphs.".data "".data := by
  unfold buildCandidate
  intro hm
  rcases List.mem_append.1 hm with h2 | h2
  · refine trailingFix_no_slash _ _ ?_ h2
    refine truncateFix_no_slash _ _ ?_
    refine reservedFix_no_slash _ ?_
    refine translit_no_slash n "glyphs.".data ?_
    decide
  · exact absurd h2 (by decide)

theorem lowerL_no_slash (l : List Char) (h : '/' ∉ l) : '/' ∉ lowerL l := by
  intro hm
  rcases List.mem_map.1 hm with ⟨c, hc, he⟩
  rw [toLower_slash c he] at hc
  exact h hc

theorem path_has_slash (a b : String) : '/' ∈ (a ++ "/" ++ b).data := by
  rw [String.data_append, String.data_append]
  refine List.mem_append.2 (Or.inl (List.mem_append.2 (Or.inr ?_)))
  decide

theorem layerName_gen (lname : String) (ex : List String)
    (hex : ∀ s ∈ ex, '/' ∈ s.data) :
    defaultFileNameForLayerName lname ex = some (layerDirCandidate lname) := by
  unfold defaultFileNameForLayerName userNameToFileName
  simp only []
  rw [if_neg ?hnin]
  case hnin =>
    intro hm
    have h2 := hex _ hm
    exact lowerL_no_slash _ (buildCandidate_layer_no_slash lname.data) h2
  rfl

theorem translit_one_len (c : Char) (acc : List Char) :
    acc.length + 1 ≤ (translitChar acc c).length := by
  unfold translitChar
  by_cases h1 : c = '.' ∧ acc = []
  · rw [if_pos h1]
    simp
  · rw [if_neg h1]
    by_cases h2 : c ∈ SPECIAL_ILLEGAL
    · rw [if_pos h2]
      simp
    · rw [if_neg h2]
      by_cases h3 : c.isUpper = true
      · rw [if_pos h3]
        simp
      · rw [if_neg h3]
        simp

theorem translit_len_one (name : List Char) (h : name ≠ []) :
    1 ≤ (name.foldl translitChar "".data).length := by
  cases name with
  | nil => exact absurd rfl h
  | cons c rest =>
    rw [List.foldl_cons]
    refine Nat.le_trans ?_ (translit_len_ge rest (translitChar "".data c))
    have h2 := translit_one_len c "".data
    simpa using h2

theorem trailingFix_nonempty_suf (r suf : List Char) (h : suf.isEmpty = false) :
    trailingFix r suf = r := by
  unfold trailingFix
  simp only []
  rw [h]
  simp

theorem truncateFix_len_ge1 (r suf : List Char) (h : 1 ≤ r.length)
    (hs : suf.length ≤ 250) : 1 ≤ (truncateFix r suf).length := by
  unfold truncateFix
  split
  · rename_i h2
    simp only [List.length_take]
    omega
  · exact h

theorem hasGlifExt_append (a : List Char) (ha : a ≠ []) :
    hasGlifExt (String.mk (a ++ ".glif".data)) = true := by
  unfold hasGlifExt
  have h1 : (String.mk (a ++ ".glif".data)).data = a ++ ".glif".data := rfl
  rw [h1]
  have h2 : (a ++ ".glif".data).length = a.length + 5 := by
    rw [List.length_append]
    rfl
  rw [h2]
  have h3 : a.length + 5 - 5 = a.length := by omega
  rw [h3]
  rw [List.drop_left]
  have h4 : 0 < a.length := List.length_pos.2 ha
  simp only [beq_self_eq_true, Bool.and_true, decide_eq_true_eq]
  omega

theorem glifCandidate_eq (n : String) :
    glifCandidate n = String.mk
      (truncateFix (reservedFix (n.data.foldl translitChar "".data)) ".glif".data ++
        ".glif".data) := by
  unfold glifCandidate buildCandidate
  rw [trailingFix_nonempty_suf _ _ (by decide)]

theorem glifCandidate_ext (n : String) (h : ¬ (n = "")) :
    hasGlifExt (glifCandidate n) = true := by
  have hd : n.data ≠ [] := by
    intro hd
    apply h
    cases n
    exact congrArg String.mk hd
  have h1 : 1 ≤ (truncateFix (reservedFix (n.data.foldl translitChar "".data))
      ".glif".data).length :=
    truncateFix_len_ge1 _ _
      (Nat.le_trans (translit_len_one n.data hd) (reservedFix_len_ge _)) (by decide)
  rw [glifCandidate_eq n]
  refine hasGlifExt_append _ ?_
  intro he
  rw [he] at h1
  exact absurd h1 (by simp)

theorem glifName_gen (n : String) (ex : List String)
    (hnin : strLower (glifCandidate n) ∉ ex) :
    defaultFileNameForGlyphName n ex = some (glifCandidate n) := by
  unfold defaultFileNameForGlyphName userNameToFileName
  simp only []
  rw [if_neg ?hno]
  case hno => exact hnin
  rfl

theorem insertRep_fresh (k : String) (v : β) (m : List (String × β))
    (h : k ∉ m.map Prod.fst) : insertRep k v m = m ++ [(k, v)] := by
  induction m with
  | nil => rfl
  | cons y rest ih =>
    rw [insertRep]
    have hne : k ≠ y.1 := fun he =>
      h (List.mem_map.2 ⟨y, List.mem_cons_self _ _, he.symm⟩)
    rw [if_neg hne]
    rw [ih (fun hm => h (by
      rcases List.mem_map.1 hm with ⟨q, hq, he⟩
      exact List.mem_map.2 ⟨q, List.mem_cons_of_mem _ hq, he⟩))]
    rfl

theorem pairwiseFresh_cons (c : String) (rest : List String)
    (h : pairwiseFresh (c :: rest) = true) :
    pairwiseFresh rest = true ∧
    ∀ c2 ∈ rest, c ≠ c2 ∧ strLower c ≠ c2 ∧ strLower c2 ≠ c := by
  have h' : (rest.all (fun c2 =>
      !(c == c2) && !(strLower c == c2) && !(strLower c2 == c))) = true ∧
      pairwiseFresh rest = true := by
    rw [← Bool.and_eq_true]
    exact h
  obtain ⟨h1, h2⟩ := h'
  rw [List.all_eq_true] at h1
  refine ⟨h2, fun c2 hc2 => ?_⟩
  have h3 := h1 c2 hc2
  simp only [Bool.and_eq_true, Bool.not_eq_true', beq_eq_false_iff_ne] at h3
  exact ⟨h3.1.1, h3.1.2, h3.2⟩

theorem saveGlifs_spec :
    ∀ (gs : List Glyph) (acc : List (String × Glyph)) (existing : List String),
      pairwiseFresh (gs.map (fun g => glifCandidate g.name)) = true →
      (∀ g ∈ gs, strLower (glifCandidate g.name) ∉ existing) →
      (∀ g ∈ gs, glifCandidate g.name ∉ acc.map Prod.fst) →
      saveGlifs gs acc existing =
        .ok (acc ++ gs.map (fun g => (glifCandidate g.name, g))) := by
  intro gs
  induction gs with
  | nil =>
    intro acc existing _ _ _
    simp [saveGlifs]
  | cons g rest ih =>
    intro acc existing hp hex hacc
    rw [saveGlifs]
    simp only [glifName_gen g.name existing (hex g (List.mem_cons_self _ _))]
    rw [insertRep_fresh _ _ _ (hacc g (List.mem_cons_self _ _))]
    have hfresh := pairwiseFresh_cons _ _ hp
    have hex2 : ∀ w ∈ rest,
        strLower (glifCandidate w.name) ∉ existing ++ [glifCandidate g.name] := by
      intro w hw hm
      rcases List.mem_append.1 hm with h2 | h2
      · exact hex w (List.mem_cons_of_mem _ hw) h2
      · rw [List.mem_singleton] at h2
        exact (hfresh.2 (glifCandidate w.name)
          (List.mem_map.2 ⟨w, hw, rfl⟩)).2.2 h2
    have hacc2 : ∀ w ∈ rest, glifCandidate w.name ∉
        (acc ++ [(glifCandidate g.name, g)]).map Prod.fst := by
      intro w hw hm
      rw [List.map_append] at hm
      rcases List.mem_append.1 hm with h2 | h2
      · exact hacc w (List.mem_cons_of_mem _ hw) h2
      · simp only [List.map_cons, List.map_nil, List.mem_singleton] at h2
        exact (hfresh.2 (glifCandidate w.name)
          (List.mem_map.2 ⟨w, hw, rfl⟩)).1 h2.symm
    rw [ih _ _ hfresh.1 hex2 hacc2]
    simp [List.append_assoc]

theorem layerSaveWf_parts (l : Layer) (h : layerSaveWf l = true) :
    l.glyphs.isEmpty = false ∧ sortedByB glyphKey l.glyphs = true ∧
    (∀ g ∈ l.glyphs, ¬ (g.name = "")) ∧
    pairwiseFresh (l.glyphs.map (fun g => glifCandidate g.name)) = true := by
  have h' : (!(l.glyphs.isEmpty) && sortedByB glyphKey l.glyphs &&
      l.glyphs.all (fun g => !(g.name == "")) &&
      pairwiseFresh (l.glyphs.map (fun g => glifCandidate g.name))) = true := h
  simp only [Bool.and_eq_true, Bool.not_eq_true'] at h'
  refine ⟨h'.1.1.1, h'.1.1.2, ?_, h'.2⟩
  have h2 := h'.1.2
  rw [List.all_eq_true] at h2
  intro g hg
  have h3 := h2 g hg
  simpa using h3

theorem layerSave_saved (l : Layer) (lname spath : String) (ex : List String)
    (hwf : layerSaveWf l = true) (hex : ∀ s ∈ ex, '/' ∈ s.data) :
    l.save lname spath ex = .ok (some
      ((if l.default then "glyphs" else layerDirCandidate lname),
        { layerinfoName := lname, colorMarks := l.color_marks,
          glifs := l.glyphs.map (fun g => (glifCandidate g.name, g)) }),
      if l.default then ex
      else ex ++ [spath ++ "/" ++ layerDirCandidate lname]) := by
  obtain ⟨hne, hs, hn, hp⟩ := layerSaveWf_parts l hwf
  unfold Layer.save
  simp only [hne, Bool.false_eq_true, if_false]
  have hglifs := saveGlifs_spec l.glyphs [] [] hp
    (fun g _ hm => absurd hm (List.not_mem_nil _))
    (fun g _ hm => absurd hm (List.not_mem_nil _))
  cases hd : l.default with
  | true =>
    simp only [hd, if_true]
    simp only [hglifs]
    rfl
  | false =>
    simp only [hd, Bool.false_eq_true, if_false]
    rw [layerName_gen lname ex hex]
    simp only [hglifs]
    rfl

theorem layerFromPath_saved (dirname lname : String) (l : Layer)
    (hs : sortedByB glyphKey l.glyphs = true)
    (hn : ∀ g ∈ l.glyphs, ¬ (g.name = "")) :
    Layer.fromPath dirname
      { layerinfoName := lname, colorMarks := l.color_marks,
        glifs := l.glyphs.map (fun g => (glifCandidate g.name, g)) } =
      .ok ({ glyphs := l.glyphs, color_marks := l.color_marks,
             default := dirname == "glyphs" }, lname) := by
  unfold Layer.fromPath
  simp only []
  have hfold : ∀ (gs : List Glyph) (acc : List Glyph), (∀ g ∈ gs, ¬ (g.name = "")) →
      ((gs.map (fun g => (glifCandidate g.name, g))).foldl
        (fun acc p => if hasGlifExt p.1 then insertGlyph p.2 acc else acc) acc) =
      gs.foldl (fun a g => insertGlyph g a) acc := by
    intro gs
    induction gs with
    | nil => intro acc _; rfl
    | cons g rest ih =>
      intro acc hng
      simp only [List.map_cons, List.foldl_cons]
      rw [if_pos (glifCandidate_ext g.name (hng g (List.mem_cons_self _ _)))]
      exact ih _ (fun w hw => hng w (List.mem_cons_of_mem _ hw))
  rw [hfold l.glyphs [] hn]
  rw [show (l.glyphs.foldl (fun a g => insertGlyph g a) []) =
    buildSortedBy glyphKey l.glyphs [] from rfl]
  rw [buildSortedBy_sorted_eq_nil glyphKey l.glyphs hs]

theorem nodupStr_cons (c : String) (rest : List String)
    (h : nodupStr (c :: rest) = true) :
    c ∉ rest ∧ nodupStr rest = true := by
  have h' : (!(rest.contains c) && nodupStr rest) = true := h
  simp only [Bool.and_eq_true, Bool.not_eq_true'] at h'
  exact ⟨by simpa using h'.1, h'.2⟩

theorem candidate_ne_glyphs (lname : String)
    (h : strStartsWith (layerDirCandidate lname) "glyphs." = true) :
    ((layerDirCandidate lname) == "glyphs") = false := by
  rw [beq_eq_false_iff_ne]
  intro he
  unfold strStartsWith at h
  rw [he] at h
  exact absurd h (by decide)

theorem sourceSaveWf_parts (src : Source) (h : sourceSaveWf src = true) :
    sortedByB Prod.fst src.layers = true ∧ countDefaultLayers src = 1 ∧
    (∀ q ∈ src.layers, layerSaveWf q.2 = true ∧
      (q.2.default = false → strStartsWith (layerDirCandidate q.1) "glyphs." = true)) ∧
    nodupStr (src.layers.map layerDirOf) = true := by
  have h' : (sortedByB Prod.fst src.layers && (countDefaultLayers src == 1) &&
      src.layers.all (fun q => layerSaveWf q.2 &&
        (q.2.default || strStartsWith (layerDirCandidate q.1) "glyphs.")) &&
      nodupStr (src.layers.map layerDirOf)) = true := h
  simp only [Bool.and_eq_true] at h'
  refine ⟨h'.1.1.1, by simpa using h'.1.1.2, ?_, h'.2⟩
  have h2 := h'.1.2
  rw [List.all_eq_true] at h2
  intro q hq
  have h3 := h2 q hq
  simp only [Bool.and_eq_true, Bool.or_eq_true] at h3
  refine ⟨h3.1, fun hdf => ?_⟩
  rcases h3.2 with h4 | h4
  · rw [hdf] at h4
    cases h4
  · exact h4

theorem layerSave_saved_pair (q : String × Layer) (spath : String)
    (ex : List String) (hwf : layerSaveWf q.2 = true)
    (hex : ∀ s ∈ ex, '/' ∈ s.data) :
    q.2.save q.1 spath ex = .ok (some (layerDirOf q, savedLayerDir q),
      if q.2.default then ex
      else ex ++ [spath ++ "/" ++ layerDirCandidate q.1]) := by
  rw [layerSave_saved q.2 q.1 spath ex hwf hex]
  rfl

theorem saveSourceLayers_saved (spath : String) :
    ∀ (ls : List (String × Layer)) (entries : List (String × LayerDir))
      (ex : List String),
      (∀ q ∈ ls, layerSaveWf q.2 = true) →
      (∀ s ∈ ex, '/' ∈ s.data) →
      (∀ q ∈ ls, layerDirOf q ∉ entries.map Prod.fst) →
      nodupStr (ls.map layerDirOf) = true →
      saveSourceLayers spath ls entries ex =
        .ok (entries ++ ls.map (fun q => (layerDirOf q, savedLayerDir q))) := by
  intro ls
  induction ls with
  | nil =>
    intro entries ex _ _ _ _
    simp [saveSourceLayers]
  | cons q rest ih =>
    intro entries ex hwf hex hfresh hnd
    rw [saveSourceLayers]
    have hsv := layerSave_saved_pair q spath ex (hwf q (List.mem_cons_self _ _)) hex
    simp only [hsv]
    have hcon : ¬ (((entries.map Prod.fst).contains (layerDirOf q)) = true) := by
      intro hc
      exact hfresh q (List.mem_cons_self _ _) (by simpa using hc)
    rw [if_neg hcon]
    simp only [List.map_cons] at hnd
    obtain ⟨hndh, hndt⟩ := nodupStr_cons _ _ hnd
    have hex2 : ∀ s ∈ (if q.2.default then ex
        else ex ++ [spath ++ "/" ++ layerDirCandidate q.1]), '/' ∈ s.data := by
      intro s hs
      by_cases hd : q.2.default = true
      · rw [if_pos hd] at hs
        exact hex s hs
      · rw [if_neg hd] at hs
        rcases List.mem_append.1 hs with h2 | h2
        · exact hex s h2
        · rw [List.mem_singleton] at h2
          rw [h2]
          exact path_has_slash spath (layerDirCandidate q.1)
    have hfresh2 : ∀ w ∈ rest, layerDirOf w ∉
        (entries ++ [(layerDirOf q, savedLayerDir q)]).map Prod.fst := by
      intro w hw hm
      rw [List.map_append] at hm
      rcases List.mem_append.1 hm with h2 | h2
      · exact hfresh w (List.mem_cons_of_mem _ hw) h2
      · simp only [List.map_cons, List.map_nil, List.mem_singleton] at h2
        exact hndh (h2 ▸ List.mem_map.2 ⟨w, hw, rfl⟩)
    rw [ih _ _ (fun w hw => hwf w (List.mem_cons_of_mem _ hw)) hex2 hfresh2 hndt]
    simp [List.append_assoc]

theorem layerDirOf_beq (q : String × Layer)
    (h : q.2.default = false → strStartsWith (layerDirCandidate q.1) "glyphs." = true) :
    ((layerDirOf q) == "glyphs") = q.2.default := by
  unfold layerDirOf
  cases hd : q.2.default with
  | true =>
    simp only [hd, if_true]
    simp
  | false =>
    simp only [hd, Bool.false_eq_true, if_false]
    exact candidate_ne_glyphs q.1 (h hd)

theorem layerFromPath_saved_pair (dirname : String) (q : String × Layer)
    (hs : sortedByB glyphKey q.2.glyphs = true)
    (hn : ∀ g ∈ q.2.glyphs, ¬ (g.name = "")) :
    Layer.fromPath dirname (savedLayerDir q) =
      .ok ({ glyphs := q.2.glyphs, color_marks := q.2.color_marks,
             default := dirname == "glyphs" }, q.1) :=
  layerFromPath_saved dirname q.1 q.2 hs hn

theorem loadSourceLayers_roundtrip :
    ∀ (ls : List (String × Layer)) (acc : List (String × Layer)) (found : Bool),
      (∀ q ∈ ls, layerSaveWf q.2 = true ∧
        (q.2.default = false → strStartsWith (layerDirCandidate q.1) "glyphs." = true)) →
      (found || ls.any (fun q => q.2.default)) = true →
      loadSourceLayers (ls.map (fun q => (layerDirOf q, savedLayerDir q))) acc found =
        .ok { layers := ls.foldl (fun a q => insertSortedBy Prod.fst q a) acc } := by
  intro ls
  induction ls with
  | nil =>
    intro acc found _ hfound
    simp only [List.any_nil, Bool.or_false] at hfound
    simp only [List.map_nil]
    rw [loadSourceLayers]
    rw [hfound]
    simp
  | cons q rest ih =>
    intro acc found hparts hfound
    obtain ⟨hwfq, hsw⟩ := hparts q (List.mem_cons_self _ _)
    obtain ⟨hne, hs, hn, hp⟩ := layerSaveWf_parts q.2 hwfq
    have hbeq := layerDirOf_beq q hsw
    simp only [List.map_cons]
    rw [loadSourceLayers]
    have hcond : ((layerDirOf q) == "glyphs" ||
        strStartsWith (layerDirOf q) "glyphs.") = true := by
      cases hd : q.2.default with
      | true =>
        rw [hd] at hbeq
        rw [hbeq]
        rfl
      | false =>
        have h2 := hsw hd
        have h3 : layerDirOf q = layerDirCandidate q.1 := by
          unfold layerDirOf
          rw [hd]
          simp
        rw [h3, h2]
        simp
    rw [if_pos hcond]
    have hfp := layerFromPath_saved_pair (layerDirOf q) q hs hn
    simp only [hfp]
    rw [hbeq]
    have hrec : ({ glyphs := q.2.glyphs, color_marks := q.2.color_marks,
                   default := q.2.default } : Layer) = q.2 := rfl
    rw [hrec]
    rw [show ((q.1, q.2) : String × Layer) = q from rfl]
    rw [List.foldl_cons]
    refine ih _ _ (fun w hw => hparts w (List.mem_cons_of_mem _ hw)) ?_
    have hany : ((q :: rest).any fun w => w.2.default) =
        (q.2.default || rest.any fun w => w.2.default) := by
      simp [List.any_cons]
    rw [hany] at hfound
    rw [Bool.or_assoc]
    exact hfound

theorem source_roundtrip (src : Source) (sname spath : String)
    (hwf : sourceSaveWf src = true) :
    src.save sname spath = .ok
      { layers := src.layers.map (fun q => (layerDirOf q, savedLayerDir q)) } ∧
    Source.fromPath
      { layers := src.layers.map (fun q => (layerDirOf q, savedLayerDir q)) } =
      .ok src := by
  obtain ⟨hsort, hcount, hparts, hnd⟩ := sourceSaveWf_parts src hwf
  have hsave := saveSourceLayers_saved (spath ++ "/source." ++ sname) src.layers [] []
    (fun q hq => (hparts q hq).1) (fun s hs => absurd hs (List.not_mem_nil _))
    (fun q hq hm => absurd hm (List.not_mem_nil _)) hnd
  constructor
  · unfold Source.save
    simp only [hsave]
    rfl
  · unfold Source.fromPath
    have hany : (false || src.layers.any (fun q => q.2.default)) = true := by
      rw [Bool.false_or]
      have hfne : src.layers.filter (fun p => p.2.default) ≠ [] := by
        intro he
        have h2 : countDefaultLayers src = 0 := by
          unfold countDefaultLayers
          rw [he]
          rfl
        rw [hcount] at h2
        cases h2
      obtain ⟨p, hpmem⟩ := List.exists_mem_of_ne_nil _ hfne
      have h3 := List.mem_filter.1 hpmem
      exact List.any_eq_true.2 ⟨p, h3.1, h3.2⟩
    rw [loadSourceLayers_roundtrip src.layers [] false hparts hany]
    rw [show (src.layers.foldl (fun a q => insertSortedBy Prod.fst q a) []) =
      buildSortedBy Prod.fst src.layers [] from rfl]
    rw [buildSortedBy_sorted_eq_nil Prod.fst src.layers hsort]

theorem chNodup_split : ∀ (a : List Char) (c : Char) (b : List Char),
    chNodup (a ++ c :: b) = true → c ∉ a := by
  intro a
  induction a with
  | nil => intro c b _ hm; cases hm
  | cons x rest ih =>
    intro c b h hm
    have h' : (!((rest ++ c :: b).contains x) && chNodup (rest ++ c :: b)) = true := h
    simp only [Bool.and_eq_true, Bool.not_eq_true'] at h'
    rcases List.mem_cons.1 hm with he | hm2
    · have h3 : x ∉ rest ++ c :: b := by simpa using h'.1
      rw [he] at h3
      exact h3 (List.mem_append.2 (Or.inr (List.mem_cons_self _ _)))
    · exact ih c b h'.2 hm2

theorem dedup_fold : ∀ (l acc : List Char), chNodup (acc ++ l) = true →
    l.foldl (fun acc c => if acc.contains c then acc else acc ++ [c]) acc =
      acc ++ l := by
  intro l
  induction l with
  | nil => intro acc _; simp
  | cons c rest ih =>
    intro acc h
    rw [List.foldl_cons]
    have hna : c ∉ acc := chNodup_split acc c rest h
    have hcontains : acc.contains c = false := by simpa using hna
    simp only [hcontains, Bool.false_eq_true, if_false]
    have h2 : chNodup ((acc ++ [c]) ++ rest) = true := by
      rw [List.append_assoc]
      simpa using h
    rw [ih (acc ++ [c]) h2]
    simp

theorem dedupChars_id (l : List Char) (h : chNodup l = true) : dedupChars l = l := by
  unfold dedupChars
  have h2 := dedup_fold l [] (by simpa using h)
  simpa using h2

theorem parse_write_row (p : String × GlyphRecord) (h1 : ¬ (p.1 = ""))
    (h2 : p.2.postscript_name ≠ some "") (h3 : chNodup p.2.codepoints = true) :
    parseGlyphRow (writeGlyphRow p) = .ok p := by
  unfold parseGlyphRow writeGlyphRow
  simp only []
  rw [if_neg h1]
  have hps : (match p.2.postscript_name with
      | some s => if s = "" then none else some s
      | none => none) = p.2.postscript_name := by
    cases hp : p.2.postscript_name with
    | none => rfl
    | some s =>
      simp only []
      rw [if_neg (fun he => h2 (by rw [hp, he]))]
  have hcp : dedupChars ((if p.2.codepoints.isEmpty then none
      else some p.2.codepoints).getD []) = p.2.codepoints := by
    by_cases hie : p.2.codepoints.isEmpty = true
    · rw [if_pos hie]
      rw [List.isEmpty_iff] at hie
      rw [hie]
      rfl
    · rw [if_neg hie]
      exact dedupChars_id _ h3
  rw [hps, hcp]
  rfl

theorem loadRows_saved :
    ∀ (gd : List (String × GlyphRecord)) (acc : List (String × GlyphRecord)),
      (∀ p ∈ gd, ¬ (p.1 = "") ∧ p.2.postscript_name ≠ some "" ∧
        chNodup p.2.codepoints = true) →
      loadRows (gd.map writeGlyphRow) acc =
        .ok (gd.foldl (fun a p => insertSortedBy Prod.fst p a) acc) := by
  intro gd
  induction gd with
  | nil => intro acc _; rfl
  | cons p rest ih =>
    intro acc h
    obtain ⟨h1, h2, h3⟩ := h p (List.mem_cons_self _ _)
    simp only [List.map_cons]
    rw [loadRows]
    simp only [parse_write_row p h1 h2 h3]
    rw [List.foldl_cons]
    exact ih _ (fun w hw => h w (List.mem_cons_of_mem _ hw))

def savedSourceDir (q : String × Source) : SourceDir :=
  { layers := q.2.layers.map (fun w => (layerDirOf w, savedLayerDir w)) }

def savedSetDir (st : Set) : SetDir :=
  { glyphData := some (st.glyph_data.map writeGlyphRow)
    sources := st.sources.map (fun q => ("source." ++ q.1, savedSourceDir q)) }

theorem sourceSave_saved_pair (q : String × Source) (set_path : String)
    (hwf : sourceSaveWf q.2 = true) :
    q.2.save q.1 set_path = .ok (savedSourceDir q) :=
  (source_roundtrip q.2 q.1 set_path hwf).1

theorem sourceFromPath_saved_pair (q : String × Source)
    (hwf : sourceSaveWf q.2 = true) :
    Source.fromPath (savedSourceDir q) = .ok q.2 :=
  (source_roundtrip q.2 q.1 "" hwf).2

theorem strStrip_concat (p n : String) : strStrip p (p ++ n) = some n := by
  unfold strStrip
  rw [if_pos (by rw [String.data_append]; exact List.take_left _ _)]
  rw [String.data_append, List.drop_left]

theorem saveSetSources_saved (set_path : String) :
    ∀ (srcs : List (String × Source)) (acc : List (String × SourceDir)),
      (∀ q ∈ srcs, sourceSaveWf q.2 = true) →
      saveSetSources set_path srcs acc =
        .ok (acc ++ srcs.map (fun q => ("source." ++ q.1, savedSourceDir q))) := by
  intro srcs
  induction srcs with
  | nil => intro acc _; simp [saveSetSources]
  | cons q rest ih =>
    intro acc h
    rw [saveSetSources]
    simp only [sourceSave_saved_pair q set_path (h q (List.mem_cons_self _ _))]
    rw [ih _ (fun w hw => h w (List.mem_cons_of_mem _ hw))]
    simp [List.append_assoc]

theorem loadSetSources_roundtrip :
    ∀ (srcs : List (String × Source)) (acc : List (String × Source)),
      (∀ q ∈ srcs, ¬ (q.1 = "") ∧ sourceSaveWf q.2 = true) →
      loadSetSources (srcs.map (fun q => ("source." ++ q.1, savedSourceDir q))) acc =
        .ok (srcs.foldl (fun a q => insertSortedBy Prod.fst q a) acc) := by
  intro srcs
  induction srcs with
  | nil => intro acc _; rfl
  | cons q rest ih =>
    intro acc h
    obtain ⟨h1, h2⟩ := h q (List.mem_cons_self _ _)
    simp only [List.map_cons]
    rw [loadSetSources]
    simp only [strStrip_concat "source." q.1]
    rw [if_neg h1]
    simp only [sourceFromPath_saved_pair q h2]
    rw [show ((q.1, q.2) : String × Source) = q from rfl]
    rw [List.foldl_cons]
    exact ih _ (fun w hw => h w (List.mem_cons_of_mem _ hw))

theorem setSaveWf_parts (st : Set) (h : setSaveWf st = true) :
    sortedByB Prod.fst st.glyph_data = true ∧
    (∀ p ∈ st.glyph_data, ¬ (p.1 = "") ∧ p.2.postscript_name ≠ some "" ∧
      chNodup p.2.codepoints = true) ∧
    sortedByB Prod.fst st.sources = true ∧
    (∀ q ∈ st.sources, ¬ (q.1 = "") ∧ sourceSaveWf q.2 = true) := by
  have h' : (sortedByB Prod.fst st.glyph_data &&
      st.glyph_data.all (fun p => !(p.1 == "") &&
        (match p.2.postscript_name with | some s => !(s == "") | none => true) &&
        chNodup p.2.codepoints) &&
      sortedByB Prod.fst st.sources &&
      st.sources.all (fun q => !(q.1 == "") && sourceSaveWf q.2)) = true := h
  simp only [Bool.and_eq_true] at h'
  refine ⟨h'.1.1.1, ?_, h'.1.2, ?_⟩
  · have h2 := h'.1.1.2
    rw [List.all_eq_true] at h2
    intro p hp
    have h3 := h2 p hp
    simp only [Bool.and_eq_true, Bool.not_eq_true', beq_eq_false_iff_ne] at h3
    refine ⟨h3.1.1, ?_, h3.2⟩
    intro he
    have h4 := h3.1.2
    rw [he] at h4
    simp at h4
  · have h2 := h'.2
    rw [List.all_eq_true] at h2
    intro q hq
    have h3 := h2 q hq
    simp only [Bool.and_eq_true, Bool.not_eq_true', beq_eq_false_iff_ne] at h3
    exact ⟨h3.1, h3.2⟩

theorem set_roundtrip (st : Set) (sname root : String)
    (hwf : setSaveWf st = true) :
    st.save sname root = .ok (savedSetDir st) ∧
    Set.fromPath (savedSetDir st) = .ok st := by
  obtain ⟨hgs, hgall, hss, hsall⟩ := setSaveWf_parts st hwf
  constructor
  · unfold Set.save
    simp only []
    rw [saveSetSources_saved _ st.sources [] (fun q hq => (hsall q hq).2)]
    rfl
  · unfold Set.fromPath
    show (match Set.loadGlyphData (savedSetDir st).glyphData with
      | Except.error e => Except.error (LoadSetError.loadGlyphData e)
      | Except.ok gd => match loadSetSources (savedSetDir st).sources [] with
        | Except.error e => Except.error e
        | Except.ok sources => Except.ok { glyph_data := gd, sources }) = Except.ok st
    rw [show (savedSetDir st).glyphData =
      some (st.glyph_data.map writeGlyphRow) from rfl]
    rw [show Set.loadGlyphData (some (st.glyph_data.map writeGlyphRow)) =
      loadRows (st.glyph_data.map writeGlyphRow) [] from rfl]
    rw [loadRows_saved st.glyph_data [] hgall]
    simp only []
    rw [show (savedSetDir st).sources =
      st.sources.map (fun q => ("source." ++ q.1, savedSourceDir q)) from rfl]
    rw [loadSetSources_roundtrip st.sources [] hsall]
    rw [show (st.glyph_data.foldl (fun a p => insertSortedBy Prod.fst p a) []) =
      buildSortedBy Prod.fst st.glyph_data [] from rfl]
    rw [show (st.sources.foldl (fun a q => insertSortedBy Prod.fst q a) []) =
      buildSortedBy Prod.fst st.sources [] from rfl]
    rw [buildSortedBy_sorted_eq_nil Prod.fst st.glyph_data hgs]
    rw [buildSortedBy_sorted_eq_nil Prod.fst st.sources hss]

theorem covDisjAux_cons (p : String × Set) (rest : List (String × Set))
    (h : covDisjAux (p :: rest) = true) :
    covDisjAux rest = true ∧
    ∀ w ∈ rest, ∀ g ∈ p.2.glyphCoverage, g ∉ w.2.glyphCoverage := by
  have h' : (rest.all (fun q => p.2.glyphCoverage.all
      (fun g => !(q.2.glyphCoverage.contains g))) && covDisjAux rest) = true := h
  simp only [Bool.and_eq_true] at h'
  refine ⟨h'.2, ?_⟩
  intro w hw g hg
  have h2 := h'.1
  rw [List.all_eq_true] at h2
  have h3 : ∀ x ∈ p.2.glyphCoverage, x ∉ w.2.glyphCoverage := by
    simpa using h2 w hw
  exact h3 g hg

def savedFgDir (fg : Fontgarden) : FgDir :=
  { entries := fg.sets.map (fun p => ("set." ++ p.1, savedSetDir p.2)) }

theorem setSave_saved_pair (p : String × Set) (root : String)
    (hwf : setSaveWf p.2 = true) :
    p.2.save p.1 root = .ok (savedSetDir p.2) :=
  (set_roundtrip p.2 p.1 root hwf).1

theorem saveFgSets_saved (root : String) :
    ∀ (sets : List (String × Set)) (acc : List (String × SetDir)),
      (∀ p ∈ sets, setSaveWf p.2 = true) →
      saveFgSets root sets acc =
        .ok (acc ++ sets.map (fun p => ("set." ++ p.1, savedSetDir p.2))) := by
  intro sets
  induction sets with
  | nil => intro acc _; simp [saveFgSets]
  | cons p rest ih =>
    intro acc h
    rw [saveFgSets]
    simp only [setSave_saved_pair p root (h p (List.mem_cons_self _ _))]
    rw [ih _ (fun w hw => h w (List.mem_cons_of_mem _ hw))]
    simp [List.append_assoc]

theorem loadFgSets_roundtrip :
    ∀ (sets : List (String × Set)) (acc : List (String × Set)) (seen : List String),
      (∀ p ∈ sets, ¬ (p.1 = "") ∧ setSaveWf p.2 = true) →
      covDisjAux sets = true →
      (∀ p ∈ sets, ∀ g ∈ p.2.glyphCoverage, g ∉ seen) →
      loadFgSets (sets.map (fun p => ("set." ++ p.1, savedSetDir p.2))) acc seen =
        .ok { sets := sets.foldl (fun a p => insertSortedBy Prod.fst p a) acc } := by
  intro sets
  induction sets with
  | nil => intro acc seen _ _ _; rfl
  | cons p rest ih =>
    intro acc seen hall hdisj hseen
    obtain ⟨h1, h2⟩ := hall p (List.mem_cons_self _ _)
    obtain ⟨hdt, hdh⟩ := covDisjAux_cons p rest hdisj
    simp only [List.map_cons]
    rw [loadFgSets]
    simp only [strStrip_concat "set." p.1]
    rw [if_neg h1]
    simp only [(set_roundtrip p.2 p.1 "" h2).2]
    have hov : p.2.glyphCoverage.filter (fun g => seen.contains g) = [] := by
      rw [List.filter_eq_nil_iff]
      intro g hg
      have h3 := hseen p (List.mem_cons_self _ _) g hg
      simpa using h3
    rw [hov]
    rw [List.isEmpty_nil, if_pos rfl]
    rw [show ((p.1, p.2) : String × Set) = p from rfl]
    rw [List.foldl_cons]
    refine ih _ _ (fun w hw => hall w (List.mem_cons_of_mem _ hw)) hdt ?_
    intro w hw g hg hm
    rcases List.mem_append.1 hm with hm1 | hm1
    · exact hseen w (List.mem_cons_of_mem _ hw) g hg hm1
    · exact hdh w hw g hm1 hg

theorem fgSaveWf_parts (fg : Fontgarden) (h : fgSaveWf fg = true) :
    sortedByB Prod.fst fg.sets = true ∧
    (∀ p ∈ fg.sets, ¬ (p.1 = "") ∧ setSaveWf p.2 = true) ∧
    covDisjAux fg.sets = true := by
  have h' : (sortedByB Prod.fst fg.sets &&
      fg.sets.all (fun p => !(p.1 == "") && setSaveWf p.2) &&
      covDisjB fg) = true := h
  simp only [Bool.and_eq_true] at h'
  refine ⟨h'.1.1, ?_, h'.2⟩
  have h2 := h'.1.2
  rw [List.all_eq_true] at h2
  intro p hp
  have h3 := h2 p hp
  simp only [Bool.and_eq_true, Bool.not_eq_true', beq_eq_false_iff_ne] at h3
  exact ⟨h3.1, h3.2⟩

theorem fg_roundtrip (fg : Fontgarden) (root : String) (hwf : fgSaveWf fg = true) :
    fg.save root = .ok (savedFgDir fg) ∧
    Fontgarden.fromPath (savedFgDir fg) = .ok fg := by
  obtain ⟨hs, hall, hd⟩ := fgSaveWf_parts fg hwf
  constructor
  · unfold Fontgarden.save
    simp only [saveFgSets_saved root fg.sets [] (fun p hp => (hall p hp).2)]
    rfl
  · unfold Fontgarden.fromPath
    rw [show (savedFgDir fg).entries =
      fg.sets.map (fun p => ("set." ++ p.1, savedSetDir p.2)) from rfl]
    rw [loadFgSets_roundtrip fg.sets [] [] hall hd
      (fun p _ g _ hm => absurd hm (List.not_mem_nil g))]
    rw [show (fg.sets.foldl (fun a p => insertSortedBy Prod.fst p a) []) =
      buildSortedBy Prod.fst fg.sets [] from rfl]
    rw [buildSortedBy_sorted_eq_nil Prod.fst fg.sets hs]

/-! ## C1: the round-trip claim -/

def c1BadLayer : Layer := { glyphs := [], color_marks := [], default := true }

def c1BadSource : Source := { layers := [("public.default", c1BadLayer)] }

def c1BadSet : Set := { glyph_data := [], sources := [("s", c1BadSource)] }

def c1BadFg : Fontgarden := { sets := [("A", c1BadSet)] }

def c1BadDir : FgDir :=
  { entries := [("set.A",
      { glyphData := some [], sources := [("source.s", { layers := [] })] })] }

/-- Counterexample to C1 as stated: `c1BadFg` holds no glyphs at all, so no
two of its glyphs have colliding case-insensitive file names, yet saving it
succeeds and loading the saved tree fails — the empty default layer writes
no `glyphs` directory, so the load reports a nested `NoDefaultLayer` error
instead of returning the Fontgarden. -/
theorem c1_roundtrip_counterexample :
    c1BadFg.save "" = .ok c1BadDir ∧
    Fontgarden.fromPath c1BadDir =
      .error (.loadSet "A" (.loadSource "s" .noDefaultLayer)) :=
  ⟨by decide, by decide⟩

/-- **C1** (amended).  The round trip holds under a save well-formedness
precondition `fgSaveWf`: all maps name-sorted, every layer nonempty with
nonempty glyph names and pairwise collision-free generated `.glif` names,
exactly one default layer per source, generated layer directory names
distinct, nonempty set and source names, no empty postscript-name cell,
duplicate-free codepoint lists, and pairwise-disjoint set coverages.  Under
these hypotheses, whatever directory tree `save` produces, loading it back
returns the original Fontgarden exactly. -/
theorem c1_roundtrip_amended (fg : Fontgarden) (root : String) (d : FgDir)
    (hwf : fgSaveWf fg = true) (hsv : fg.save root = .ok d) :
    Fontgarden.fromPath d = .ok fg := by
  obtain ⟨h1, h2⟩ := fg_roundtrip fg root hwf
  rw [hsv] at h1
  injection h1 with h3
  rw [h3]
  exact h2

def c1Glyph : Glyph :=
  { name := "a", components := [], codepoints := ['a'], markColor := none,
    payload := 7 }

def c1Layer : Layer :=
  { glyphs := [c1Glyph], color_marks := [("a", "1,0,0,1")], default := true }

def c1Source : Source := { layers := [("public.default", c1Layer)] }

def c1Rec : GlyphRecord :=
  { postscript_name := some "a", codepoints := ['a'],
    opentype_category := .Base, exportFlag := true }

def c1Set : Set := { glyph_data := [("a", c1Rec)], sources := [("s", c1Source)] }

def c1Fg : Fontgarden := { sets := [("Latin", c1Set)] }

def c1Dir : FgDir := savedFgDir c1Fg

/-- Witness for the amended C1 at a concrete one-glyph Fontgarden: it
satisfies the save well-formedness predicate, saves to `c1Dir`, and loading
`c1Dir` returns it exactly. -/
theorem c1_roundtrip_amended_witness :
    fgSaveWf c1Fg = true ∧ c1Fg.save "" = .ok c1Dir ∧
    Fontgarden.fromPath c1Dir = .ok c1Fg :=
  ⟨by decide, by decide,
    c1_roundtrip_amended c1Fg "" c1Dir (by decide) (by decide)⟩

end Fg
